import Mathlib

/-!
# Verification of the WebGraph BVGraph Huffman compressor

Shallow embedding of `src/webgraph/bvgraph_huffman_out.rs`: the differential
successor coder (`diff_comp` / `add_vals`), the intervalizer (`intervalize`),
the per-node decoder (`decode_list`), the two-pass `compress` driver with its
reference selection, and the offset bookkeeping.

The bit-level layer (the `bitstreams` module, the universal codes in
`utils::encodings`, and the `huffman_zuckerli` engine) is not part of the
sources of this repository snapshot; where a definition depends on it, the
definition models that layer from the specification (documented on each such
definition) and the integer streams are represented as token lists, one token
per `read_next`/`write_next` call.
-/

namespace WebGraph

/-- Modelled from the spec: `int2nat` from `utils` (missing from the snapshot):
the signed-to-unsigned folding `int2nat(x) = 2x` for `x ≥ 0`, `−2x−1` for `x < 0`. -/
def int2nat (x : Int) : Nat :=
  if 0 ≤ x then (2 * x).toNat else (-(2 * x) - 1).toNat

/-- Modelled from the spec: `nat2int` from `utils` (missing from the snapshot),
the inverse of `int2nat`. -/
def nat2int (n : Nat) : Int :=
  if n % 2 = 0 then (n : Int) / 2 else -(((n : Int) + 1) / 2)

theorem nat2int_int2nat (x : Int) : nat2int (int2nat x) = x := by
  unfold int2nat nat2int
  by_cases h : 0 ≤ x
  · have h2 : ((2 * x).toNat : Int) = 2 * x := Int.toNat_of_nonneg (by omega)
    have hmod : (2 * x).toNat % 2 = 0 := by omega
    rw [if_pos h, if_pos hmod, h2, Int.mul_ediv_cancel_left x (by norm_num)]
  · have h2 : ((-(2 * x) - 1).toNat : Int) = -(2 * x) - 1 := Int.toNat_of_nonneg (by omega)
    have hmod : (-(2 * x) - 1).toNat % 2 = 1 := by omega
    rw [if_neg h, if_neg (by omega), h2]
    have h3 : -(2 * x) - 1 + 1 = 2 * (-x) := by ring
    rw [h3, Int.mul_ediv_cancel_left (-x) (by norm_num)]
    ring

/-- Modelled from the spec: the token component of `zuck_encode(v, K_ZUCK, I_ZUCK, J_ZUCK)`
from `utils::encodings` (missing from the snapshot), the Zuckerli position
encoding with `i = 4`: if `v < 2^i` return `v`; else with `n = ⌊log2 v⌋`,
`s = n − i`, return `(s+1)·2^i + ((v − 2^n) >> (n − i))`. -/
def zuckBucket (v : Nat) : Nat :=
  if v < 2 ^ 4 then v
  else
    let n := Nat.log2 v
    let s := n - 4
    (s + 1) * 2 ^ 4 + ((v - 2 ^ n) >>> (n - 4))

/-- Modelled from the spec: bit length of the Unary code `0^v 1`. -/
def unaryLen (v : Nat) : Nat := v + 1

/-- Modelled from the spec: bit length of the Gamma code, a unary prefix for
`⌊log2(v+1)⌋` followed by that many low bits. -/
def gammaLen (v : Nat) : Nat := 2 * Nat.log2 (v + 1) + 1

/-- Modelled from the spec: bit length of the Zeta(k) code: `h` in unary with
`v+1 ∈ [2^(hk), 2^((h+1)k))`, followed by `hk + k − 1` bits. -/
def zetaLen (k : Nat) (v : Nat) : Nat :=
  let h := Nat.log2 (v + 1) / k
  (h + 1) + (h * k + k - 1)

/-- Length of the maximal run of consecutive integers starting at `a` and
continuing into `l` (the run scan of `intervalize`, lines 1270–1275). -/
def runLen : Nat → List Nat → Nat
  | _, [] => 1
  | a, b :: l => if a + 1 = b then 1 + runLen b l else 1

/-- `intervalize` (lines 1249–1294), translated on suffixes: scans the sorted
extras; a maximal run of consecutive integers of length `j ≥ 2` with
`j ≥ Lmin` becomes an interval `(left, len)` and the scan resumes after it;
otherwise the current element goes to the residuals when `0 < Lmin` (the code
pushes a residual exactly when `j < Lmin`, and `j = 0` outside a run).
Returns `(lefts, lens, residuals)`. -/
def intervalize (Lmin : Nat) : List Nat → List Nat × List Nat × List Nat
  | [] => ([], [], [])
  | [a] => if 0 < Lmin then ([], [], [a]) else ([], [], [])
  | a :: b :: l =>
    if a + 1 = b then
      if Lmin ≤ runLen a (b :: l) then
        (a :: (intervalize Lmin (List.drop (runLen a (b :: l) - 1) (b :: l))).1,
         runLen a (b :: l) ::
           (intervalize Lmin (List.drop (runLen a (b :: l) - 1) (b :: l))).2.1,
         (intervalize Lmin (List.drop (runLen a (b :: l) - 1) (b :: l))).2.2)
      else
        ((intervalize Lmin (b :: l)).1, (intervalize Lmin (b :: l)).2.1,
         a :: (intervalize Lmin (b :: l)).2.2)
    else
      if 0 < Lmin then
        ((intervalize Lmin (b :: l)).1, (intervalize Lmin (b :: l)).2.1,
         a :: (intervalize Lmin (b :: l)).2.2)
      else intervalize Lmin (b :: l)
  termination_by l => l.length
  decreasing_by
    all_goals simp only [List.length_drop, List.length_cons]
    all_goals omega

/-- Number of intervals returned by `intervalize` (its Rust return value). -/
def nIntervals (Lmin : Nat) (extras : List Nat) : Nat :=
  (intervalize Lmin extras).1.length

/-- Termination helper for `diffLoop`: the two transitions of the merge loop of
`diff_comp` that advance neither index (switching between copying and skipping)
flip this phase bit from 1 to 0. -/
def diffPhase (cl rl : List Nat) (copying : Bool) : Nat :=
  match cl, rl with
  | c :: _, r :: _ =>
    if copying then (if r < c then 1 else 0) else (if c = r then 1 else 0)
  | _, _ => 0

theorem diffPhase_le_one (cl rl : List Nat) (copying : Bool) :
    diffPhase cl rl copying ≤ 1 := by
  unfold diffPhase
  rcases cl with _ | ⟨c, cl⟩
  · simp
  rcases rl with _ | ⟨r, rl⟩
  · simp
  rcases copying
  · simp only [Bool.false_eq_true, if_false]
    split <;> omega
  · simp only [if_true]
    split <;> omega

/-- The merge loop of `diff_comp` (lines 1330–1402) and `add_vals`
(lines 1645–1722) on the suffixes of the current and reference lists still to
examine, with the `copying` flag and the running block length `curr_block_len`.
Returns the `blocks` and `extras` vectors produced from this state on,
including the final flush `if copying && k < ref_len` and the final drain of
the current list into the extras. -/
def diffLoop : List Nat → List Nat → Bool → Nat → List Nat × List Nat
  | [], rl, copying, cbl =>
    (if copying ∧ rl ≠ [] then [cbl] else [], [])
  | c :: cl, [], _, _ => ([], c :: cl)
  | c :: cl, r :: rl, true, cbl =>
    if _h : r < c then
      -- Ordering::Greater: flush the copy block and switch to an ignore block
      let rest := diffLoop (c :: cl) (r :: rl) false 0
      (cbl :: rest.1, rest.2)
    else if _h2 : c < r then
      -- Ordering::Less: the current element is an extra
      let rest := diffLoop cl (r :: rl) true cbl
      (rest.1, c :: rest.2)
    else
      -- Ordering::Equal: copy, extending the block
      diffLoop cl rl true (cbl + 1)
  | c :: cl, r :: rl, false, cbl =>
    if _h : c < r then
      let rest := diffLoop cl (r :: rl) false cbl
      (rest.1, c :: rest.2)
    else if _h2 : r < c then
      diffLoop (c :: cl) rl false (cbl + 1)
    else
      -- match found: flush the ignore block and start copying
      let rest := diffLoop (c :: cl) (r :: rl) true 0
      (cbl :: rest.1, rest.2)
  termination_by cl rl copying _ => 2 * (cl.length + rl.length) + diffPhase cl rl copying
  decreasing_by
  · have hne : ¬ c = r := by omega
    simp [diffPhase, _h, hne]
  · have := diffPhase_le_one cl (r :: rl) true
    simp only [List.length_cons]
    omega
  · have := diffPhase_le_one cl rl true
    simp only [List.length_cons]
    omega
  · have := diffPhase_le_one cl (r :: rl) false
    simp only [List.length_cons]
    omega
  · have := diffPhase_le_one (c :: cl) rl false
    simp only [List.length_cons]
    omega
  · have hc : c = r := by omega
    have hnlt : ¬ r < c := by omega
    simp [diffPhase, hc, hnlt]

/-- The block/extra computation of `diff_comp` (lines 1319–1402): starting
state is `copying = true`, `curr_block_len = 0`, and a reference of `0`
empties the reference list (`if reference == 0 { ref_len = 0; }`). -/
def diffBlocksExtras (currList refList : List Nat) (reference : Nat) :
    List Nat × List Nat :=
  diffLoop currList (if reference = 0 then [] else refList) true 0

/-! ## Properties of the intervalizer -/

/-- Expansion of the interval pair lists into their member integers:
interval `(left, len)` contributes `left, left+1, …, left+len−1`. -/
def expandZip : List Nat → List Nat → List Nat
  | a :: ls, m :: ms => List.range' a m ++ expandZip ls ms
  | _, _ => []

theorem runLen_pos (a : Nat) (l : List Nat) : 1 ≤ runLen a l := by
  cases l with
  | nil => simp [runLen]
  | cons b l => simp only [runLen]; split <;> omega

theorem runLen_ge_two (a : Nat) (l : List Nat) : 2 ≤ runLen a ((a + 1) :: l) := by
  have := runLen_pos (a + 1) l
  simp [runLen]
  omega

/-- The elements scanned by the run of `intervalize` are exactly the
consecutive integers following the run head. -/
theorem runLen_take (a : Nat) (l : List Nat) :
    List.take (runLen a l - 1) l = List.range' (a + 1) (runLen a l - 1) := by
  induction l generalizing a with
  | nil => simp [runLen]
  | cons b l ih =>
    by_cases h : a + 1 = b
    · have h1 := runLen_pos b l
      simp only [runLen, if_pos h]
      have h2 : 1 + runLen b l - 1 = (runLen b l - 1) + 1 := by omega
      rw [h2, List.take_succ_cons, List.range'_succ]
      rw [← h, ih]
    · simp [runLen, h]

/-- Everything at or past the end of the run is strictly beyond the run. -/
theorem runLen_drop_lb (a : Nat) (l : List Nat)
    (hc : List.Chain' (· < ·) (a :: l)) :
    ∀ y ∈ List.drop (runLen a l - 1) l, a + runLen a l < y := by
  induction l generalizing a with
  | nil => intro y hy; simp at hy
  | cons b l ih =>
    have hpw := List.chain'_iff_pairwise.mp hc
    by_cases h : a + 1 = b
    · have h1 := runLen_pos b l
      simp only [runLen, if_pos h]
      intro y hy
      have h2 : 1 + runLen b l - 1 = (runLen b l - 1) + 1 := by omega
      rw [h2, List.drop_succ_cons] at hy
      have := ih b (hc.tail) y hy
      omega
    · simp only [runLen, if_neg h]
      intro y hy
      simp at hy
      have hab : a < b := (List.pairwise_cons.mp hpw).1 b (by simp)
      rcases hy with rfl | hyl
      · omega
      · have hby : b < y :=
          (List.pairwise_cons.mp (List.pairwise_cons.mp hpw).2).1 y hyl
        omega

/-- If `m` consecutive integers starting at the head all belong to a sorted
list, the head's run is at least that long. -/
theorem runLen_lb_of_mem (b : Nat) (l : List Nat) (m : Nat)
    (hc : List.Chain' (· < ·) (b :: l))
    (hm : ∀ t < m, b + t ∈ b :: l) : m ≤ runLen b l := by
  induction l generalizing b m with
  | nil =>
    simp only [runLen]
    by_contra hlt
    push_neg at hlt
    have h1 := hm 1 hlt
    simp at h1
  | cons c l ih =>
    by_cases hm2 : m ≤ 1
    · have := runLen_pos b (c :: l)
      omega
    · push_neg at hm2
      have hpw := List.chain'_iff_pairwise.mp hc
      have hbc : b < c := (List.pairwise_cons.mp hpw).1 c (by simp)
      have hb1 : b + 1 ∈ b :: c :: l := hm 1 (by omega)
      have hcb : c = b + 1 := by
        rcases List.mem_cons.mp hb1 with h | h
        · omega
        rcases List.mem_cons.mp h with h | h
        · omega
        · have : c < b + 1 :=
            (List.pairwise_cons.mp (List.pairwise_cons.mp hpw).2).1 _ h
          omega
      have hrec : m - 1 ≤ runLen c l := by
        apply ih c (m - 1) hc.tail
        intro t ht
        have heq : b + (t + 1) = c + t := by omega
        have hmem : c + t ∈ b :: c :: l := heq ▸ hm (t + 1) (by omega)
        rcases List.mem_cons.mp hmem with h | h
        · omega
        · exact h
      subst hcb
      simp [runLen]
      omega

/-- The head of a sorted list bounds every element. -/
theorem sorted_head_le {x y : Nat} {l : List Nat}
    (hc : List.Chain' (· < ·) (x :: l)) (hy : y ∈ x :: l) : x ≤ y := by
  have hpw := List.chain'_iff_pairwise.mp hc
  rcases List.mem_cons.mp hy with rfl | h
  · omega
  · exact le_of_lt ((List.pairwise_cons.mp hpw).1 y h)

theorem intervalize_nil (Lmin : Nat) : intervalize Lmin [] = ([], [], []) := by
  simp [intervalize]

theorem intervalize_single (Lmin a : Nat) :
    intervalize Lmin [a] = if 0 < Lmin then ([], [], [a]) else ([], [], []) := by
  simp [intervalize]

theorem intervalize_run (Lmin a : Nat) (l : List Nat)
    (hj : Lmin ≤ runLen a ((a + 1) :: l)) :
    intervalize Lmin (a :: (a + 1) :: l) =
      (a :: (intervalize Lmin (List.drop (runLen a ((a + 1) :: l) - 1) ((a + 1) :: l))).1,
       runLen a ((a + 1) :: l) ::
         (intervalize Lmin (List.drop (runLen a ((a + 1) :: l) - 1) ((a + 1) :: l))).2.1,
       (intervalize Lmin (List.drop (runLen a ((a + 1) :: l) - 1) ((a + 1) :: l))).2.2) := by
  rw [intervalize.eq_def]
  simp [hj]

theorem intervalize_shortrun (Lmin a : Nat) (l : List Nat)
    (hj : ¬ Lmin ≤ runLen a ((a + 1) :: l)) :
    intervalize Lmin (a :: (a + 1) :: l) =
      ((intervalize Lmin ((a + 1) :: l)).1,
       (intervalize Lmin ((a + 1) :: l)).2.1,
       a :: (intervalize Lmin ((a + 1) :: l)).2.2) := by
  rw [intervalize.eq_def]
  simp [hj]

theorem intervalize_nonconsec (Lmin a b : Nat) (l : List Nat)
    (hne : ¬ a + 1 = b) (hpos : 0 < Lmin) :
    intervalize Lmin (a :: b :: l) =
      ((intervalize Lmin (b :: l)).1,
       (intervalize Lmin (b :: l)).2.1,
       a :: (intervalize Lmin (b :: l)).2.2) := by
  rw [intervalize.eq_def]
  simp [hne, hpos]

/-- The expanded intervals together with the residuals are a permutation of
the input extras (for `0 < Lmin`, which holds whenever the code calls
`intervalize`). -/
theorem intervalize_perm (Lmin : Nat) (hL : 0 < Lmin) :
    ∀ extras : List Nat,
      (expandZip (intervalize Lmin extras).1 (intervalize Lmin extras).2.1 ++
        (intervalize Lmin extras).2.2).Perm extras := by
  intro extras
  induction extras using intervalize.induct Lmin with
  | case1 => simp [intervalize_nil, expandZip]
  | case2 a ha => simp [intervalize_single, ha, expandZip]
  | case3 a ha => exact absurd hL ha
  | case4 a l hj ih =>
    rw [intervalize_run Lmin a l hj]
    simp only [expandZip]
    have h2 := runLen_ge_two a l
    have hsplit : List.range' a (runLen a ((a + 1) :: l)) =
        a :: List.take (runLen a ((a + 1) :: l) - 1) ((a + 1) :: l) := by
      rw [runLen_take]
      have h3 : runLen a ((a + 1) :: l) = (runLen a ((a + 1) :: l) - 1) + 1 := by omega
      conv_lhs => rw [h3, List.range'_succ]
    rw [hsplit, List.append_assoc, List.cons_append]
    have hsp : a :: (a + 1) :: l =
        a :: (List.take (runLen a ((a + 1) :: l) - 1) ((a + 1) :: l) ++
          List.drop (runLen a ((a + 1) :: l) - 1) ((a + 1) :: l)) := by
      rw [List.take_append_drop]
    rw [hsp]
    exact List.Perm.cons a (ih.append_left _)
  | case5 a l hj ih =>
    rw [intervalize_shortrun Lmin a l hj]
    exact List.perm_middle.trans (List.Perm.cons a ih)
  | case6 a b l hne hpos ih =>
    rw [intervalize_nonconsec Lmin a b l hne hpos]
    exact List.perm_middle.trans (List.Perm.cons a ih)
  | case7 a b l hne hnpos ih => exact absurd hL hnpos

/-- The residuals are a subsequence of the input extras (order preserved). -/
theorem intervalize_residuals_sublist (Lmin : Nat) :
    ∀ extras : List Nat, ((intervalize Lmin extras).2.2).Sublist extras := by
  intro extras
  induction extras using intervalize.induct Lmin with
  | case1 => simp [intervalize_nil]
  | case2 a ha => simp [intervalize_single, ha]
  | case3 a ha => simp [intervalize_single, ha]
  | case4 a l hj ih =>
    rw [intervalize_run Lmin a l hj]
    exact (ih.trans (List.drop_sublist _ _)).trans (List.sublist_cons_self a _)
  | case5 a l hj ih =>
    rw [intervalize_shortrun Lmin a l hj]
    exact ih.cons₂ a
  | case6 a b l hne hpos ih =>
    rw [intervalize_nonconsec Lmin a b l hne hpos]
    exact ih.cons₂ a
  | case7 a b l hne hnpos ih =>
    rw [intervalize.eq_def]
    simp only [hne, if_neg, hnpos]
    exact ih.cons a

/-- Every element of the run of an emitted interval belongs to the input,
and every interval is at least `Lmin` (and at least 2) long. -/
theorem intervalize_mem (Lmin : Nat) :
    ∀ extras : List Nat,
      ∀ p ∈ ((intervalize Lmin extras).1).zip (intervalize Lmin extras).2.1,
        Lmin ≤ p.2 ∧ 2 ≤ p.2 ∧ ∀ t < p.2, p.1 + t ∈ extras := by
  intro extras
  induction extras using intervalize.induct Lmin with
  | case1 => simp [intervalize_nil]
  | case2 a ha => simp [intervalize_single, ha]
  | case3 a ha => simp [intervalize_single, ha]
  | case4 a l hj ih =>
    rw [intervalize_run Lmin a l hj]
    intro p hp
    rw [List.zip_cons_cons] at hp
    rcases List.mem_cons.mp hp with rfl | hp
    · refine ⟨hj, runLen_ge_two a l, ?_⟩
      intro t ht
      rcases Nat.eq_zero_or_pos t with rfl | htpos
      · simp
      · have hmem : a + t ∈ List.range' (a + 1) (runLen a ((a + 1) :: l) - 1) := by
          rw [List.mem_range'_1]
          have := runLen_ge_two a l
          omega
        rw [← runLen_take] at hmem
        exact List.mem_cons_of_mem a (List.take_subset _ _ hmem)
    · obtain ⟨h1, h2, h3⟩ := ih p hp
      refine ⟨h1, h2, fun t ht => ?_⟩
      exact List.mem_cons_of_mem a (List.drop_subset _ _ (h3 t ht))
  | case5 a l hj ih =>
    rw [intervalize_shortrun Lmin a l hj]
    intro p hp
    obtain ⟨h1, h2, h3⟩ := ih p hp
    exact ⟨h1, h2, fun t ht => List.mem_cons_of_mem a (h3 t ht)⟩
  | case6 a b l hne hpos ih =>
    rw [intervalize_nonconsec Lmin a b l hne hpos]
    intro p hp
    obtain ⟨h1, h2, h3⟩ := ih p hp
    exact ⟨h1, h2, fun t ht => List.mem_cons_of_mem a (h3 t ht)⟩
  | case7 a b l hne hnpos ih =>
    rw [intervalize.eq_def]
    simp only [hne, if_neg, hnpos]
    intro p hp
    obtain ⟨h1, h2, h3⟩ := ih p hp
    exact ⟨h1, h2, fun t ht => List.mem_cons_of_mem a (h3 t ht)⟩

/-- The last element of a sorted list bounds every element. -/
theorem sorted_le_getLast {l : List Nat} (hc : List.Chain' (· < ·) l)
    {a : Nat} (ha : l.getLast? = some a) : ∀ y ∈ l, y ≤ a := by
  induction l with
  | nil => simp at ha
  | cons x l ih =>
    rcases l with _ | ⟨b, l⟩
    · simp at ha
      intro y hy
      simp at hy
      omega
    · rw [List.getLast?_cons_cons] at ha
      intro y hy
      have hmem : a ∈ b :: l := List.mem_of_mem_getLast? ha
      rcases List.mem_cons.mp hy with rfl | hyl
      · have : y < b := (List.chain'_cons.mp hc).1
        have := sorted_head_le hc.tail hmem
        omega
      · exact ih hc.tail ha y hyl

/-- Maximality of the emitted intervals: no interval can be extended on
either side inside the input. -/
theorem intervalize_max (Lmin : Nat) (hL : 0 < Lmin) :
    ∀ extras : List Nat, List.Chain' (· < ·) extras →
      ∀ p ∈ ((intervalize Lmin extras).1).zip (intervalize Lmin extras).2.1,
        (∀ x ∈ extras, x + 1 ≠ p.1) ∧ (p.1 + p.2) ∉ extras := by
  intro extras
  induction extras using intervalize.induct Lmin with
  | case1 => simp [intervalize_nil]
  | case2 a ha => simp [intervalize_single, ha]
  | case3 a ha => exact absurd hL ha
  | case4 a l hj ih =>
    intro hc
    have hdecomp : (a + 1) :: l =
        List.range' (a + 1) (runLen a ((a + 1) :: l) - 1) ++
          List.drop (runLen a ((a + 1) :: l) - 1) ((a + 1) :: l) := by
      conv_lhs => rw [← List.take_append_drop (runLen a ((a + 1) :: l) - 1) ((a + 1) :: l)]
      rw [runLen_take]
    have h2 := runLen_ge_two a l
    have hdlb := runLen_drop_lb a ((a + 1) :: l) hc
    have hmemsplit : ∀ y, y ∈ (a + 1) :: l →
        y ∈ List.range' (a + 1) (runLen a ((a + 1) :: l) - 1) ∨
        y ∈ List.drop (runLen a ((a + 1) :: l) - 1) ((a + 1) :: l) := by
      intro y hy
      have hy2 : y ∈ List.range' (a + 1) (runLen a ((a + 1) :: l) - 1) ++
          List.drop (runLen a ((a + 1) :: l) - 1) ((a + 1) :: l) := by
        rw [← hdecomp]; exact hy
      exact List.mem_append.mp hy2
    rw [intervalize_run Lmin a l hj]
    intro p hp
    rw [List.zip_cons_cons] at hp
    rcases List.mem_cons.mp hp with rfl | hp
    · constructor
      · intro x hx
        have := sorted_head_le hc hx
        omega
      · intro hmem
        rcases List.mem_cons.mp hmem with h | h
        · omega
        · rcases hmemsplit _ h with h | h
          · rw [List.mem_range'_1] at h
            omega
          · have := hdlb _ h
            omega
    · have hchainD : List.Chain' (· < ·)
          (List.drop (runLen a ((a + 1) :: l) - 1) ((a + 1) :: l)) :=
        hc.tail.sublist (List.drop_sublist _ _)
      obtain ⟨ihpred, ihmem⟩ := ih hchainD p hp
      have hpD : p.1 ∈ List.drop (runLen a ((a + 1) :: l) - 1) ((a + 1) :: l) := by
        have := (intervalize_mem Lmin _ p hp).2.2 0 (by
          have := (intervalize_mem Lmin _ p hp).2.1; omega)
        simpa using this
      have hp1 : a + runLen a ((a + 1) :: l) < p.1 := hdlb _ hpD
      constructor
      · intro x hx
        rcases List.mem_cons.mp hx with rfl | hx
        · omega
        · rcases hmemsplit _ hx with h | h
          · rw [List.mem_range'_1] at h
            omega
          · exact ihpred x h
      · intro hmem
        rcases List.mem_cons.mp hmem with h | h
        · omega
        · rcases hmemsplit _ h with h | h
          · rw [List.mem_range'_1] at h
            omega
          · exact ihmem h
  | case5 a l hj ih =>
    intro hc
    rw [intervalize_shortrun Lmin a l hj]
    intro p hp
    obtain ⟨ihpred, ihmem⟩ := ih hc.tail p hp
    have hpX : p.1 ∈ (a + 1) :: l := by
      have := (intervalize_mem Lmin _ p hp).2.2 0 (by
        have := (intervalize_mem Lmin _ p hp).2.1; omega)
      simpa using this
    have hple : a + 1 ≤ p.1 := sorted_head_le hc.tail hpX
    have head_ne : a + 1 ≠ p.1 := by
      -- If the head could extend the interval, the interval's run would have
      -- been long enough to be intervalized inside the tail too.
      intro hcontra
      obtain ⟨hLm, hm2, hmm⟩ := intervalize_mem Lmin _ p hp
      have hmle : p.2 ≤ runLen (a + 1) l := by
        apply runLen_lb_of_mem (a + 1) l p.2 hc.tail
        intro t ht
        have hmmt := hmm t ht
        rwa [← hcontra] at hmmt
      have hjval : runLen a ((a + 1) :: l) = 1 + runLen (a + 1) l := by
        simp [runLen]
      omega
    constructor
    · intro x hx
      rcases List.mem_cons.mp hx with rfl | hx
      · exact head_ne
      · exact ihpred x hx
    · intro hmem
      rcases List.mem_cons.mp hmem with h | h
      · have := (intervalize_mem Lmin _ p hp).2.1
        omega
      · exact ihmem h
  | case6 a b l hne hpos ih =>
    intro hc
    rw [intervalize_nonconsec Lmin a b l hne hpos]
    intro p hp
    obtain ⟨ihpred, ihmem⟩ := ih hc.tail p hp
    have hpX : p.1 ∈ b :: l := by
      have := (intervalize_mem Lmin _ p hp).2.2 0 (by
        have := (intervalize_mem Lmin _ p hp).2.1; omega)
      simpa using this
    have hple : b ≤ p.1 := sorted_head_le hc.tail hpX
    have hab : a < b := (List.chain'_cons.mp hc).1
    constructor
    · intro x hx
      rcases List.mem_cons.mp hx with rfl | hx
      · omega
      · exact ihpred x hx
    · intro hmem
      rcases List.mem_cons.mp hmem with h | h
      · have := (intervalize_mem Lmin _ p hp).2.1
        omega
      · exact ihmem h
  | case7 a b l hne hnpos ih => exact absurd hL hnpos

/-- Completeness: every maximal run of at least `Lmin` consecutive members
of the sorted input is emitted as an interval. -/
theorem intervalize_complete (Lmin : Nat) (hL2 : 2 ≤ Lmin) :
    ∀ extras : List Nat, List.Chain' (· < ·) extras →
      ∀ a m, Lmin ≤ m → (∀ t < m, a + t ∈ extras) →
        (∀ x ∈ extras, x + 1 ≠ a) → (a + m) ∉ extras →
        (a, m) ∈ ((intervalize Lmin extras).1).zip (intervalize Lmin extras).2.1 := by
  intro extras
  induction extras using intervalize.induct Lmin with
  | case1 =>
    intro _ a m hm hmem _ _
    have := hmem 0 (by omega)
    simp at this
  | case2 x hx =>
    intro _ a m hm hmem _ _
    have h0 := hmem 0 (by omega)
    have h1 := hmem 1 (by omega)
    simp at h0 h1
    omega
  | case3 x hx => exact absurd (by omega : 0 < Lmin) hx
  | case4 x l hj ih =>
    intro hc a m hm hmem hpred hnotmem
    have h2 := runLen_ge_two x l
    have hdecomp : (x + 1) :: l =
        List.range' (x + 1) (runLen x ((x + 1) :: l) - 1) ++
          List.drop (runLen x ((x + 1) :: l) - 1) ((x + 1) :: l) := by
      conv_lhs => rw [← List.take_append_drop (runLen x ((x + 1) :: l) - 1) ((x + 1) :: l)]
      rw [runLen_take]
    have hrunmem : ∀ t, t < runLen x ((x + 1) :: l) → x + t ∈ x :: (x + 1) :: l := by
      intro t ht
      rcases Nat.eq_zero_or_pos t with rfl | htpos
      · simp
      · have hmr : x + t ∈ List.range' (x + 1) (runLen x ((x + 1) :: l) - 1) := by
          rw [List.mem_range'_1]; omega
        apply List.mem_cons_of_mem
        rw [hdecomp]
        exact List.mem_append_left _ hmr
    rw [intervalize_run Lmin x l hj, List.zip_cons_cons]
    by_cases hax : a = x
    · subst hax
      -- the declared run coincides with the scanned run
      have hmle : m ≤ runLen a ((a + 1) :: l) :=
        runLen_lb_of_mem a ((a + 1) :: l) m hc hmem
      have hge : runLen a ((a + 1) :: l) ≤ m := by
        by_contra hlt
        push_neg at hlt
        exact hnotmem (hrunmem m hlt)
      have : m = runLen a ((a + 1) :: l) := by omega
      subst this
      exact List.mem_cons_self _ _
    · -- the run lives past the scanned run
      have haE : a ∈ x :: (x + 1) :: l := by
        have := hmem 0 (by omega); simpa using this
      have hxa : x < a := by
        have := sorted_head_le hc haE
        omega
      have hagt : x + runLen x ((x + 1) :: l) < a := by
        -- a cannot sit in or immediately after the scanned run
        by_contra hle
        push_neg at hle
        rcases Nat.lt_or_ge a (x + runLen x ((x + 1) :: l)) with hlt | hge2
        · -- inside the run: its predecessor is in the list
          have hpm : a - 1 ∈ x :: (x + 1) :: l := by
            have := hrunmem (a - 1 - x) (by omega)
            have heq : x + (a - 1 - x) = a - 1 := by omega
            rwa [heq] at this
          exact hpred (a - 1) hpm (by omega)
        · -- immediately after the run: the run end is its predecessor
          have hend : a = x + runLen x ((x + 1) :: l) := by omega
          have hpm : x + (runLen x ((x + 1) :: l) - 1) ∈ x :: (x + 1) :: l :=
            hrunmem _ (by omega)
          exact hpred _ hpm (by omega)
      have hchainD : List.Chain' (· < ·)
          (List.drop (runLen x ((x + 1) :: l) - 1) ((x + 1) :: l)) :=
        hc.tail.sublist (List.drop_sublist _ _)
      have hsplitmem : ∀ y, y ∈ x :: (x + 1) :: l → x + runLen x ((x + 1) :: l) ≤ y →
          y ∈ List.drop (runLen x ((x + 1) :: l) - 1) ((x + 1) :: l) := by
        intro y hy hge2
        rcases List.mem_cons.mp hy with rfl | hy
        · omega
        · rw [hdecomp] at hy
          rcases List.mem_append.mp hy with h | h
          · rw [List.mem_range'_1] at h
            omega
          · exact h
      apply List.mem_cons_of_mem
      apply ih hchainD a m hm
      · intro t ht
        exact hsplitmem _ (hmem t ht) (by omega)
      · intro y hy hy1
        exact hpred y (List.mem_cons_of_mem x (hdecomp ▸ List.mem_append_right _ hy)) hy1
      · intro hmm
        exact hnotmem (List.mem_cons_of_mem x (hdecomp ▸ List.mem_append_right _ hmm))
  | case5 x l hj ih =>
    intro hc a m hm hmem hpred hnotmem
    rw [intervalize_shortrun Lmin x l hj]
    by_cases hax : a = x
    · subst hax
      have hmle : m ≤ runLen a ((a + 1) :: l) :=
        runLen_lb_of_mem a ((a + 1) :: l) m hc hmem
      omega
    · have haE : a ∈ x :: (x + 1) :: l := by
        have := hmem 0 (by omega); simpa using this
      have hxa : x < a := by
        have := sorted_head_le hc haE
        omega
      apply ih hc.tail a m hm
      · intro t ht
        have hmm := hmem t ht
        rcases List.mem_cons.mp hmm with h | h
        · omega
        · exact h
      · intro y hy
        exact hpred y (List.mem_cons_of_mem x hy)
      · intro hmm
        exact hnotmem (List.mem_cons_of_mem x hmm)
  | case6 x b l hne hpos ih =>
    intro hc a m hm hmem hpred hnotmem
    rw [intervalize_nonconsec Lmin x b l hne hpos]
    have hxb : x < b := (List.chain'_cons.mp hc).1
    by_cases hax : a = x
    · subst hax
      have h1 := hmem 1 (by omega)
      rcases List.mem_cons.mp h1 with h | h
      · omega
      · have := sorted_head_le hc.tail h
        omega
    · have haE : a ∈ x :: b :: l := by
        have := hmem 0 (by omega); simpa using this
      have hxa : x < a := by
        have := sorted_head_le hc haE
        omega
      apply ih hc.tail a m hm
      · intro t ht
        have hmm := hmem t ht
        rcases List.mem_cons.mp hmm with h | h
        · omega
        · exact h
      · intro y hy
        exact hpred y (List.mem_cons_of_mem x hy)
      · intro hmm
        exact hnotmem (List.mem_cons_of_mem x hmm)
  | case7 x b l hne hnpos ih => exact absurd (by omega : 0 < Lmin) hnpos

/-- A final element of the input with no predecessor in the input always
lands in the residuals. -/
theorem intervalize_last_residual (Lmin : Nat) (hL : 0 < Lmin) :
    ∀ extras : List Nat, List.Chain' (· < ·) extras →
      ∀ a, extras.getLast? = some a → (∀ x ∈ extras, x + 1 ≠ a) →
        a ∈ (intervalize Lmin extras).2.2 := by
  intro extras
  induction extras using intervalize.induct Lmin with
  | case1 => intro _ a ha _; simp at ha
  | case2 x hx =>
    intro _ a ha _
    simp at ha
    subst ha
    simp [intervalize_single, hx]
  | case3 x hx => exact absurd hL hx
  | case4 x l hj ih =>
    intro hc a ha hpred
    have h2 := runLen_ge_two x l
    have hdecomp : (x + 1) :: l =
        List.range' (x + 1) (runLen x ((x + 1) :: l) - 1) ++
          List.drop (runLen x ((x + 1) :: l) - 1) ((x + 1) :: l) := by
      conv_lhs => rw [← List.take_append_drop (runLen x ((x + 1) :: l) - 1) ((x + 1) :: l)]
      rw [runLen_take]
    have hrunmem : ∀ t, t < runLen x ((x + 1) :: l) → x + t ∈ x :: (x + 1) :: l := by
      intro t ht
      rcases Nat.eq_zero_or_pos t with rfl | htpos
      · simp
      · have hmr : x + t ∈ List.range' (x + 1) (runLen x ((x + 1) :: l) - 1) := by
          rw [List.mem_range'_1]; omega
        apply List.mem_cons_of_mem
        rw [hdecomp]
        exact List.mem_append_left _ hmr
    rw [intervalize_run Lmin x l hj]
    rcases hD : List.drop (runLen x ((x + 1) :: l) - 1) ((x + 1) :: l) with _ | ⟨d, D⟩
    · -- the run covers the whole input, so its end would be the last element,
      -- but the run end has its predecessor in the input
      exfalso
      have hlast : (x :: (x + 1) :: l).getLast? =
          some (x + 1 + 1 * (runLen x ((x + 1) :: l) - 2)) := by
        have hform : x :: (x + 1) :: l =
            x :: List.range' (x + 1) (runLen x ((x + 1) :: l) - 1) := by
          conv_lhs => rw [hdecomp]
          rw [hD, List.append_nil]
        rw [hform]
        have hpos : runLen x ((x + 1) :: l) - 1 = (runLen x ((x + 1) :: l) - 2) + 1 := by
          omega
        rw [hpos, List.range'_concat, ← List.cons_append, List.getLast?_append]
        simp
      rw [ha] at hlast
      have haval : a = x + 1 + 1 * (runLen x ((x + 1) :: l) - 2) := by
        injection hlast
      exact hpred (x + (runLen x ((x + 1) :: l) - 2)) (hrunmem _ (by omega)) (by omega)
    · -- the tail past the run is nonempty and keeps the last element
      rw [hD] at ih hdecomp
      have hcl := List.getLast?_eq_getLast (d :: D) (by simp)
      have hlast : (d :: D).getLast? = some a := by
        have hform : x :: (x + 1) :: l =
            (x :: List.range' (x + 1) (runLen x ((x + 1) :: l) - 1)) ++ (d :: D) := by
          conv_lhs => rw [hdecomp]
          simp
        rw [hform, List.getLast?_append, hcl] at ha
        simp at ha
        rw [hcl, ha]
      have hchainD : List.Chain' (· < ·) (d :: D) := by
        rw [← hD]
        exact hc.tail.sublist (List.drop_sublist _ _)
      exact ih hchainD a hlast (by
        intro y hy
        apply hpred
        apply List.mem_cons_of_mem
        rw [hdecomp]
        exact List.mem_append_right _ hy)
  | case5 x l hj ih =>
    intro hc a ha hpred
    rw [intervalize_shortrun Lmin x l hj]
    rw [List.getLast?_cons_cons] at ha
    apply List.mem_cons_of_mem
    exact ih hc.tail a ha (fun y hy => hpred y (List.mem_cons_of_mem x hy))
  | case6 x b l hne hpos ih =>
    intro hc a ha hpred
    rw [intervalize_nonconsec Lmin x b l hne hpos]
    rw [List.getLast?_cons_cons] at ha
    apply List.mem_cons_of_mem
    exact ih hc.tail a ha (fun y hy => hpred y (List.mem_cons_of_mem x hy))
  | case7 x b l hne hnpos ih => exact absurd hL hnpos

/-- C3: Intervalizer correctness: for every sorted strictly increasing input
list of extras (and `L_min ≥ 2`, as in every configuration the encoder uses),
`intervalize` produces intervals `(left[i], len[i])` that are exactly the
maximal runs of consecutive integers of length ≥ `L_min`, every remaining
element appears in the residuals in input order, the multiset union of the
expanded intervals and the residuals equals the input, and an isolated final
element of the input is always a residual. -/
theorem C3_intervalize_correct (Lmin : Nat) (hL : 2 ≤ Lmin)
    (extras : List Nat) (hc : List.Chain' (· < ·) extras) :
    (∀ a m, (a, m) ∈ ((intervalize Lmin extras).1).zip (intervalize Lmin extras).2.1 ↔
      (Lmin ≤ m ∧ (∀ t < m, a + t ∈ extras) ∧
       (∀ x ∈ extras, x + 1 ≠ a) ∧ (a + m) ∉ extras)) ∧
    ((intervalize Lmin extras).2.2).Sublist extras ∧
    (expandZip (intervalize Lmin extras).1 (intervalize Lmin extras).2.1 ++
      (intervalize Lmin extras).2.2).Perm extras ∧
    (∀ a, extras.getLast? = some a → (∀ x ∈ extras, x + 1 ≠ a) →
      a ∈ (intervalize Lmin extras).2.2) := by
  refine ⟨?_, intervalize_residuals_sublist Lmin extras,
    intervalize_perm Lmin (by omega) extras, ?_⟩
  · intro a m
    constructor
    · intro hmem
      obtain ⟨h1, h2, h3⟩ := intervalize_mem Lmin extras (a, m) hmem
      obtain ⟨h4, h5⟩ := intervalize_max Lmin (by omega) extras hc (a, m) hmem
      exact ⟨h1, h3, h4, h5⟩
    · rintro ⟨h1, h2, h3, h4⟩
      exact intervalize_complete Lmin hL extras hc a m h1 h2 h3 h4
  · exact intervalize_last_residual Lmin (by omega) extras hc

/-- Witness for C3 at the spec's E4 input `extras = [5,6,7,8,10,12]`,
`L_min = 2`. -/
theorem C3_intervalize_correct_witness :
    (2 ≤ 2 ∧ List.Chain' (· < ·) [5, 6, 7, 8, 10, 12]) ∧
    ((∀ a m, (a, m) ∈ ((intervalize 2 [5, 6, 7, 8, 10, 12]).1).zip
        (intervalize 2 [5, 6, 7, 8, 10, 12]).2.1 ↔
      (2 ≤ m ∧ (∀ t < m, a + t ∈ [5, 6, 7, 8, 10, 12]) ∧
       (∀ x ∈ [5, 6, 7, 8, 10, 12], x + 1 ≠ a) ∧ (a + m) ∉ [5, 6, 7, 8, 10, 12])) ∧
    ((intervalize 2 [5, 6, 7, 8, 10, 12]).2.2).Sublist [5, 6, 7, 8, 10, 12] ∧
    (expandZip (intervalize 2 [5, 6, 7, 8, 10, 12]).1
        (intervalize 2 [5, 6, 7, 8, 10, 12]).2.1 ++
      (intervalize 2 [5, 6, 7, 8, 10, 12]).2.2).Perm [5, 6, 7, 8, 10, 12] ∧
    (∀ a, ([5, 6, 7, 8, 10, 12] : List Nat).getLast? = some a →
      (∀ x ∈ [5, 6, 7, 8, 10, 12], x + 1 ≠ a) →
      a ∈ (intervalize 2 [5, 6, 7, 8, 10, 12]).2.2)) :=
  ⟨⟨by decide, by simp⟩,
    C3_intervalize_correct 2 (by decide) [5, 6, 7, 8, 10, 12] (by simp)⟩

/-! ## The token-level stream model

The universal codes and the contextual Huffman coder are value-preserving
(`read_next` after `write_next` yields the written integer back; §4.2/§4.3 of
the specification). Their implementations live outside this source snapshot,
so the streams are modelled at symbol granularity: one token per
`write_next`/`read_next` call, carrying the destination code and the value. -/

/-- Context layout constants (lines 31–42). -/
def OUTD_IDX_BEGIN : Nat := 0

def OUTD_IDX_LEN : Nat := 32

def BLOCKS_IDX_BEGIN : Nat := OUTD_IDX_BEGIN + OUTD_IDX_LEN

def BLOCKS_IDX_LEN : Nat := 3

def RESIDUALS_IDX_BEGIN : Nat := BLOCKS_IDX_BEGIN + BLOCKS_IDX_LEN

def RESIDUALS_IDX_LEN : Nat := 112

def INTERVALS_LEFT_IDX_BEGIN : Nat := RESIDUALS_IDX_BEGIN + RESIDUALS_IDX_LEN

def INTERVALS_LEFT_IDX_LEN : Nat := 32

def INTERVALS_LEN_IDX_BEGIN : Nat := INTERVALS_LEFT_IDX_BEGIN + INTERVALS_LEFT_IDX_LEN

def INTERVALS_LEN_IDX_LEN : Nat := 32

def NUM_CONTEXTS : Nat := INTERVALS_LEN_IDX_BEGIN + INTERVALS_LEN_IDX_LEN

/-- Destination code of a written integer: a Huffman context
(`HuffmanEncoder::write_next(value, obs, ctx)`) or a universal code write. -/
inductive TokenKind where
  | huff (ctx : Nat)
  | uni
  deriving DecidableEq, Repr

/-- One integer of the output stream: a single `write_next` call. -/
structure Token where
  kind : TokenKind
  val : Nat
  deriving DecidableEq, Repr

/-- Modelled from the spec: the code layer's `read_next` on the token stream
(§4.2: each read returns the written value); reading past the end is an EOF
error in the spec, modelled as 0 — no theorem below exercises it. -/
def readTok (d : List Token) (pos : Nat) : Nat :=
  ((d.get? pos).map Token.val).getD 0

/-! ## The decoder (`decode_list`, lines 795–1081), token level -/

/-- The block-reading loop of `decode_list` (lines 838–851): reads `count`
block lengths, adding 1 to every length except the first (`i = 0`). Returns
the decoded blocks and the next read position. -/
def readBlocksFrom (d : List Token) : Nat → Nat → Nat → List Nat × Nat
  | 0, pos, _ => ([], pos)
  | n + 1, pos, i =>
    let b := readTok d pos + (if i = 0 then 0 else 1)
    let rest := readBlocksFrom d n (pos + 1) (i + 1)
    (b :: rest.1, rest.2)

/-- Sum of the even-indexed entries (`copied`, counted during the block-reading
loop at lines 845–848). -/
def sumEven : List Nat → Nat
  | [] => 0
  | [a] => a
  | a :: _ :: l => a + sumEven l

/-- The number of copied successors (lines 835–859): even-indexed blocks, plus
the implicit trailing copy of the reference when the block count is even. -/
def copiedCount (blocks : List Nat) (refOutd : Nat) : Nat :=
  sumEven blocks + (if blocks.length % 2 = 0 then refOutd - blocks.sum else 0)

/-- The interval-reading loop for `i ≥ 1` (lines 887–901): each left is
`prev + gap + 1`, each length is `read + L_min`, `prev` tracks the first
integer past the previous interval. Returns lefts, lens and the next
position. -/
def readIntervalsRest (d : List Token) (Lmin : Nat) :
    Nat → Nat → Int → List Int × List Nat × Nat
  | 0, pos, _ => ([], [], pos)
  | n + 1, pos, prev =>
    let leftI : Int := prev + (readTok d pos : Int) + 1
    let len := readTok d (pos + 1) + Lmin
    let rest := readIntervalsRest d Lmin n (pos + 2) (leftI + len)
    (leftI :: rest.1, len :: rest.2.1, rest.2.2)

/-- Interval reading (lines 872–903): the first left is `x + nat2int(g)`, the
first length `read + L_min`; the rest via `readIntervalsRest`. -/
def readIntervals (d : List Token) (Lmin x : Nat) :
    Nat → Nat → List Int × List Nat × Nat
  | 0, pos => ([], [], pos)
  | n + 1, pos =>
    let left0 : Int := nat2int (readTok d pos) + (x : Int)
    let len0 := readTok d (pos + 1) + Lmin
    let rest := readIntervalsRest d Lmin n (pos + 2) (left0 + len0)
    (left0 :: rest.1, len0 :: rest.2.1, rest.2.2)

/-- The residual-reading loop for the gaps after the first (lines 912–921). -/
def readResidualsRest (d : List Token) : Nat → Nat → Int → List Int × Nat
  | 0, pos, _ => ([], pos)
  | n + 1, pos, prev =>
    let v : Int := prev + (readTok d pos : Int) + 1
    let rest := readResidualsRest d n (pos + 1) v
    (v :: rest.1, rest.2)

/-- Residual reading (lines 905–922): the first residual is
`x + nat2int(g)`, the rest add `gap + 1` each. -/
def readResiduals (d : List Token) (x : Nat) : Nat → Nat → List Int × Nat
  | 0, pos => ([], pos)
  | n + 1, pos =>
    let r0 : Int := (x : Int) + nat2int (readTok d pos)
    let rest := readResidualsRest d n (pos + 1) r0
    (r0 :: rest.1, rest.2)

/-- The interval expansion of `decode_list` (lines 926–947): each interval
`(left, len)` contributes `left, …, left+len−1` in order (the source loop
diverges only for a `len = 0` entry, which cannot be produced when
`L_min ≥ 1`). -/
def expandIntervalsInt : List (Int × Nat) → List Int
  | [] => []
  | (a, m) :: rest =>
    (List.range' 0 m).map (fun t => a + ((t : Nat) : Int)) ++ expandIntervalsInt rest

/-- The residual/interval merge of `decode_list` (lines 949–977), which takes
the residual side on ties (`<=`). -/
def mergeLE : List Int → List Int → List Int
  | [], l2 => l2
  | l1, [] => l1
  | a :: l1, b :: l2 =>
    if a ≤ b then a :: mergeLE l1 (b :: l2) else b :: mergeLE (a :: l1) l2

/-- The block/extra merge of `decode_list` (lines 1054–1080), which takes the
extra side on ties (`<`). -/
def mergeLT : List Nat → List Nat → List Nat
  | [], l2 => l2
  | l1, [] => l1
  | a :: l1, b :: l2 =>
    if a < b then a :: mergeLT l1 (b :: l2) else b :: mergeLT (a :: l1) l2

/-- The copy-mask loop of `decode_list` (lines 1016–1044): `left` counts the
remainder of the current copy block (`-1`: copy to the end, `0`: stop and
skip the rest), `bs` is the unconsumed suffix of the block vector, and the
iterator is the unconsumed suffix of the reference list; `nth(b − 1)`
consumes `b` elements. -/
def maskLoop : Int → List Nat → List Nat → List Nat
  | left, bs, refl =>
    if left = 0 then []
    else
      match refl with
      | [] => []
      | y :: rl =>
        if left = -1 then y :: maskLoop (-1) bs rl
        else if left - 1 = 0 then
          match bs with
          | [] => y :: maskLoop 0 [] rl
          | b :: bs2 =>
            match bs2 with
            | b2 :: bs3 => y :: maskLoop (b2 : Int) bs3 (rl.drop b)
            | [] => y :: maskLoop (-1) [] (rl.drop b)
        else y :: maskLoop (left - 1) bs rl
  termination_by _ _ refl => refl.length
  decreasing_by
    all_goals simp only [List.length_drop, List.length_cons]
    all_goals omega

/-- The pre-loop setup of the copy-mask walk (lines 996–1014): loads the
first block; when it is an empty copy block, immediately skips the following
ignore block and loads the next copy block (or `-1`). -/
def maskSelect (block : List Nat) (refl : List Nat) : List Nat :=
  match block with
  | [] => maskLoop (-1) [] refl
  | b0 :: bs =>
    if b0 = 0 then
      match bs with
      | [] => maskLoop 0 [] refl
      | b1 :: bs2 =>
        match bs2 with
        | b2 :: bs3 => maskLoop (b2 : Int) bs3 (refl.drop b1)
        | [] => maskLoop (-1) [] (refl.drop b1)
    else maskLoop (b0 : Int) bs refl

/-- `decode_list` (lines 795–1081) in its sequential/iterator mode
(`window = Some`): reads node `x`'s record at `pos` of the token stream `d`,
looking the reference list up in the cyclic `window`/`outd` buffers; returns
the decoded successor list, the next position, and the updated `outd`. -/
def decodeList (W Lmin : Nat) (d : List Token) (x pos : Nat)
    (window : List (List Nat)) (outd : List Nat) :
    List Nat × Nat × List Nat :=
  let cbs := W + 1
  let degree := readTok d pos
  let outd1 := outd.set (x % cbs) degree
  let pos1 := pos + 1
  if degree = 0 then ([], pos1, outd1)
  else
    let refpos : Int × Nat := if 0 < W then ((readTok d pos1 : Int), pos1 + 1) else (-1, pos1)
    let reference := refpos.1
    let pos2 := refpos.2
    let refIndex := (((x : Int) - reference + (cbs : Int)).toNat) % cbs
    let blockpos : List Nat × Nat :=
      if 0 < reference then
        readBlocksFrom d (readTok d pos2) (pos2 + 1) 0
      else ([], pos2)
    let blocks := blockpos.1
    let pos3 := blockpos.2
    let extraCount :=
      if 0 < reference then degree - copiedCount blocks (outd1.getD refIndex 0)
      else degree
    let intpos : Nat × List Int × List Nat × Nat :=
      if extraCount ≠ 0 ∧ Lmin ≠ 0 then
        let ic := readTok d pos3
        let r := readIntervals d Lmin x ic (pos3 + 1)
        (ic, r.1, r.2.1, r.2.2)
      else (0, [], [], pos3)
    let ic := intpos.1
    let lefts := intpos.2.1
    let lens := intpos.2.2.1
    let pos4 := intpos.2.2.2
    let extraCount2 := extraCount - lens.sum
    let respos : List Int × Nat :=
      if extraCount2 ≠ 0 then readResiduals d x extraCount2 pos4 else ([], pos4)
    let residuals := respos.1
    let pos5 := respos.2
    let extraList : List Int :=
      if ic ≠ 0 then
        if extraCount2 ≠ 0 then mergeLE residuals (expandIntervalsInt (lefts.zip lens))
        else expandIntervalsInt (lefts.zip lens)
      else residuals
    let blockList : List Nat :=
      if 0 < reference then
        maskSelect blocks ((window.getD refIndex []).take (outd1.getD refIndex 0))
      else []
    if reference ≤ 0 then (extraList.map Int.toNat, pos5, outd1)
    else if extraList = [] then (blockList, pos5, outd1)
    else (mergeLT blockList (extraList.map Int.toNat), pos5, outd1)

/-- The sequential iteration of `BVGraphNodeIterator::next` (lines 352–379):
decodes `count` nodes starting at node `x`, maintaining the cyclic
window/outdegree buffers; returns the successor lists in order. -/
def decodeGraphAux (W Lmin : Nat) (d : List Token) :
    Nat → Nat → Nat → List (List Nat) → List Nat → List (List Nat)
  | 0, _, _, _, _ => []
  | n + 1, x, pos, window, outd =>
    let r := decodeList W Lmin d x pos window outd
    r.1 :: decodeGraphAux W Lmin d n (x + 1) r.2.1 (window.set (x % (W + 1)) r.1) r.2.2

/-- Full-stream decoding of an `n`-node graph (the `iter()` construction of
lines 746–770 starts at node 0, position 0, with empty buffers). -/
def decodeGraph (W Lmin n : Nat) (d : List Token) : List (List Nat) :=
  decodeGraphAux W Lmin d n 0 0 (List.replicate (W + 1) []) (List.replicate (W + 1) 0)

/-! ## The encoder (`diff_comp`, `compress`), token level -/

/-- `write_reference` (lines 1804–1816): fails iff the reference exceeds the
window size, else writes the reference. -/
def writeReference (W reference : Nat) : Except String Nat :=
  if W < reference then
    .error "The required reference is incompatible with the window size"
  else .ok reference

/-- Emission of the copy blocks after the first (lines 1425–1434): block `i`
goes to context `BLOCKS_IDX_BEGIN + i % 2 + 1`, decremented by one. -/
def blockTokensRest : Nat → List Nat → List Token
  | _, [] => []
  | i, b :: rest =>
    Token.mk (TokenKind.huff (BLOCKS_IDX_BEGIN + i % 2 + 1)) (b - 1) ::
      blockTokensRest (i + 1) rest

/-- Emission of the copy blocks (lines 1417–1446): the first as-is into slot
0, the rest decremented into slots 1/2 alternating. -/
def blockTokens : List Nat → List Token
  | [] => []
  | b :: rest => Token.mk (TokenKind.huff BLOCKS_IDX_BEGIN) b :: blockTokensRest 1 rest

/-- Interval emission for `i ≥ 1` (lines 1490–1536): the left is coded as the
gap to the end of the previous interval minus one, in the context keyed by the
previously encoded left value; the length minus `L_min` in the context keyed
by the previously encoded length value. -/
def intervalTokensRest (Lmin : Nat) : List (Nat × Nat) → Nat → Nat → Nat → List Token
  | [], _, _, _ => []
  | (a, m) :: rest, prev, lastLeft, lastLen =>
    Token.mk (TokenKind.huff (INTERVALS_LEFT_IDX_BEGIN + (1 + min (zuckBucket lastLeft) 30)))
        (a - prev - 1) ::
      Token.mk (TokenKind.huff (INTERVALS_LEN_IDX_BEGIN + (1 + min (zuckBucket lastLen) 30)))
        (m - Lmin) ::
      intervalTokensRest Lmin rest (a + m) (a - prev - 1) (m - Lmin)

/-- Interval emission (lines 1471–1545): the first left is folded against the
current node (`int2nat(left − x)`, context slot 0), the first length minus
`L_min` into slot 0. -/
def intervalTokens (Lmin x : Nat) : List (Nat × Nat) → List Token
  | [] => []
  | (a, m) :: rest =>
    Token.mk (TokenKind.huff INTERVALS_LEFT_IDX_BEGIN) (int2nat ((a : Int) - (x : Int))) ::
      Token.mk (TokenKind.huff INTERVALS_LEN_IDX_BEGIN) (m - Lmin) ::
      intervalTokensRest Lmin rest (a + m) (int2nat ((a : Int) - (x : Int))) (m - Lmin)

/-- Residual emission after the first (lines 1568–1584): a repeated
successor (equal adjacent residuals) is a hard error; otherwise the gap minus
one, in the context keyed by the previously encoded residual value. -/
def residualTokensRest : List Nat → Nat → Nat → Except String (List Token)
  | [], _, _ => .ok []
  | r :: rest, prev, prevRes =>
    if r = prev then .error "Repeated successor"
    else
      match residualTokensRest rest r (r - prev - 1) with
      | .error e => .error e
      | .ok ts =>
        .ok (Token.mk (TokenKind.huff (RESIDUALS_IDX_BEGIN + (32 + min (zuckBucket prevRes) 79)))
              (r - prev - 1) :: ts)

/-- Residual emission (lines 1555–1584): the first residual is folded against
the current node, in the context keyed by the residual count. -/
def residualTokens (x : Nat) : List Nat → Except String (List Token)
  | [] => .ok []
  | r :: rest =>
    match residualTokensRest rest r (int2nat ((r : Int) - (x : Int))) with
    | .error e => .error e
    | .ok ts =>
      .ok (Token.mk (TokenKind.huff (RESIDUALS_IDX_BEGIN + min (zuckBucket (rest.length + 1)) 31))
            (int2nat ((r : Int) - (x : Int))) :: ts)

/-- `diff_comp` with a Huffman encoder (pass 2, lines 1296–1612), emitting the
token stream for one node: reference (when `W > 0`, failing if it exceeds the
window), block count and blocks (when the reference is non-zero), then — when
there are extras — interval count, intervals and residuals (`L_min ≠ 0`) or
just the extras as residuals (`L_min = 0`). -/
def diffCompTokens (W Lmin x reference : Nat) (refList currList : List Nat) :
    Except String (List Token) :=
  let be := diffBlocksExtras currList refList reference
  match (if 0 < W then writeReference W reference else .ok reference) with
  | .error e => .error e
  | .ok _ =>
    let refToks := if 0 < W then [Token.mk TokenKind.uni reference] else []
    let blockToks :=
      if reference ≠ 0 then
        Token.mk TokenKind.uni be.1.length :: blockTokens be.1
      else []
    if be.2.length ≠ 0 then
      if Lmin ≠ 0 then
        let r := intervalize Lmin be.2
        match residualTokens x r.2.2 with
        | .error e => .error e
        | .ok rToks =>
          .ok (refToks ++ blockToks ++
            Token.mk TokenKind.uni r.1.length :: (intervalTokens Lmin x (r.1.zip r.2.1) ++ rToks))
      else
        match residualTokens x be.2 with
        | .error e => .error e
        | .ok rToks => .ok (refToks ++ blockToks ++ rToks)
    else .ok (refToks ++ blockToks)

/-- Bit length of the copy blocks after the first under Gamma (huff-less
path, lines 1436–1444). -/
def blockLensRest : List Nat → Nat
  | [] => 0
  | b :: rest => gammaLen (b - 1) + blockLensRest rest

/-- Bit length of the copy blocks under Gamma. -/
def blockLens : List Nat → Nat
  | [] => 0
  | b :: rest => gammaLen b + blockLensRest rest

/-- Bit length of the intervals after the first under Gamma (lines
1503–1543). -/
def intervalLensRest (Lmin : Nat) : List (Nat × Nat) → Nat → Nat
  | [], _ => 0
  | (a, m) :: rest, prev =>
    gammaLen (a - prev - 1) + gammaLen (m - Lmin) + intervalLensRest Lmin rest (a + m)

/-- Bit length of the intervals under Gamma (lines 1471–1545). -/
def intervalLens (Lmin x : Nat) : List (Nat × Nat) → Nat
  | [] => 0
  | (a, m) :: rest =>
    gammaLen (int2nat ((a : Int) - (x : Int))) + gammaLen (m - Lmin) +
      intervalLensRest Lmin rest (a + m)

/-- Bit length of the residuals after the first under Zeta(k), with the
repeated-successor check (lines 1592–1606). -/
def residualLensRest (k : Nat) : List Nat → Nat → Except String Nat
  | [], _ => .ok 0
  | r :: rest, prev =>
    if r = prev then .error "Repeated successor"
    else
      match residualLensRest k rest r with
      | .error e => .error e
      | .ok n => .ok (zetaLen k (r - prev - 1) + n)

/-- Bit length of the residuals under Zeta(k) (lines 1586–1606). -/
def residualLens (k x : Nat) : List Nat → Except String Nat
  | [] => .ok 0
  | r :: rest =>
    match residualLensRest k rest r with
    | .error e => .error e
    | .ok n => .ok (zetaLen k (int2nat ((r : Int) - (x : Int))) + n)

/-- `diff_comp` without a Huffman encoder (pass 1, lines 1296–1612): the
coded bit length under the default universal codes — Unary reference and
Gamma block count (the codings the Huffman pipeline fixes, cf. the property
check in `src/bin/decompress_huff.rs`), Gamma blocks and intervals, Zeta(k)
residuals. The code-length formulas are modelled from the spec (§4.2), the
code layer being outside this snapshot. -/
def diffCompLen (W Lmin k x reference : Nat) (refList currList : List Nat) :
    Except String Nat :=
  let be := diffBlocksExtras currList refList reference
  match (if 0 < W then writeReference W reference else .ok reference) with
  | .error e => .error e
  | .ok _ =>
    let refBits := if 0 < W then unaryLen reference else 0
    let blockBits := if reference ≠ 0 then gammaLen be.1.length + blockLens be.1 else 0
    if be.2.length ≠ 0 then
      if Lmin ≠ 0 then
        let r := intervalize Lmin be.2
        match residualLens k x r.2.2 with
        | .error e => .error e
        | .ok rb =>
          .ok (refBits + blockBits + gammaLen r.1.length +
            intervalLens Lmin x (r.1.zip r.2.1) + rb)
      else
        match residualLens k x be.2 with
        | .error e => .error e
        | .ok rb => .ok (refBits + blockBits + rb)
    else .ok (refBits + blockBits)

/-- The outdegree context (lines 1116–1124 and, verbatim again, 1212–1218):
slot 0 for node 0 and multiples of 32, else `1 + bucket((x mod 32) + 1)`
clamped to 30. -/
def outdCtx (currNode : Nat) : Nat :=
  if currNode = 0 ∨ currNode % 32 = 0 then 0
  else 1 + min (zuckBucket ((currNode % 32) + 1)) 30

/-- `i64::MAX`, the initial best-compression sentinel (line 1135). -/
def I64MAX : Int := 9223372036854775807

/-- The candidate scan of pass 1 (lines 1142–1163): for `r` in `[0, cbs)`,
candidate slot `(x + cbs − r) % cbs` is considered when its chain depth is
below `R_max` and its list is non-empty; a strictly smaller coded length
updates the best `(comp, cand, ref)` triple. -/
def selectLoop (Rmax : Int) (refCount : List Int) (listLen : List Nat)
    (lenAt : Nat → Except String Nat) (x cbs : Nat) :
    Nat → Nat → Int × Int × Int → Except String (Int × Int × Int)
  | _, 0, st => .ok st
  | r, fuel + 1, st =>
    let cand := (x + cbs - r) % cbs
    if refCount.getD cand 0 < Rmax ∧ listLen.getD cand 0 ≠ 0 then
      match lenAt r with
      | .error e => .error e
      | .ok len =>
        if (len : Int) < st.1 then
          selectLoop Rmax refCount listLen lenAt x cbs (r + 1) fuel
            ((len : Int), (cand : Int), (r : Int))
        else selectLoop Rmax refCount listLen lenAt x cbs (r + 1) fuel st
    else selectLoop Rmax refCount listLen lenAt x cbs (r + 1) fuel st

/-- Pass 1 of `compress` (lines 1111–1179): iterates the nodes, maintaining
the cyclic window (`list`/`list_len`) and chain depths (`ref_count`,
with the current slot set to `-1` during its own scan), selecting the best
`(cand, ref)` pair for every node with outdegree > 0 (`(0, 0)` otherwise,
the `best_candidates` initial value). An `unwrap`ed `diff_comp` error is
surfaced as an error. -/
def pass1Aux (W Rmax Lmin k : Nat) :
    List (List Nat) → Nat → List (List Nat) → List Nat → List Int →
    Except String (List (Nat × Nat))
  | [], _, _, _, _ => .ok []
  | S :: rest, x, list, listLen, refCount =>
    let cbs := W + 1
    let outd := S.length
    let curr := x % cbs
    let list1 := list.set curr S
    let listLen1 := listLen.set curr outd
    if outd > 0 then
      let refCount0 := refCount.set curr (-1)
      match selectLoop (Rmax : Int) refCount0 listLen1
          (fun r => diffCompLen W Lmin k x r (list1.getD ((x + cbs - r) % cbs) []) S)
          x cbs 0 cbs (I64MAX, -1, -1) with
      | .error e => .error e
      | .ok st =>
        let refCount1 := refCount0.set curr (refCount0.getD st.2.1.toNat 0 + 1)
        match pass1Aux W Rmax Lmin k rest (x + 1) list1 listLen1 refCount1 with
        | .error e => .error e
        | .ok bcs => .ok ((st.2.1.toNat, st.2.2.toNat) :: bcs)
    else
      match pass1Aux W Rmax Lmin k rest (x + 1) list1 listLen1 refCount with
      | .error e => .error e
      | .ok bcs => .ok ((0, 0) :: bcs)

/-- Pass 2 of `compress` (lines 1198–1243): emits, per node, the outdegree
token in its context followed by the `diff_comp` tokens against the stored
best candidate. -/
def pass2Aux (W Lmin : Nat) (bestCands : List (Nat × Nat)) :
    List (List Nat) → Nat → List (List Nat) →
    Except String (List (List Token))
  | [], _, _ => .ok []
  | S :: rest, x, list =>
    let cbs := W + 1
    let outd := S.length
    let curr := x % cbs
    let outdTok := Token.mk (TokenKind.huff (OUTD_IDX_BEGIN + outdCtx x)) outd
    let list1 := list.set curr S
    if outd > 0 then
      let bc := bestCands.getD x (0, 0)
      match diffCompTokens W Lmin x bc.2 (list1.getD bc.1 []) S with
      | .error e => .error e
      | .ok toks =>
        match pass2Aux W Lmin bestCands rest (x + 1) list1 with
        | .error e => .error e
        | .ok ns => .ok ((outdTok :: toks) :: ns)
    else
      match pass2Aux W Lmin bestCands rest (x + 1) list1 with
      | .error e => .error e
      | .ok ns => .ok ([outdTok] :: ns)

/-- `compress` (lines 1084–1247) at token level: pass 1 selects the
references, pass 2 emits one token list per node (the offset stream is
modelled by `pass2OffsetsAux` below). -/
def compressTokens (W Rmax Lmin k : Nat) (G : List (List Nat)) :
    Except String (List (List Token)) :=
  match pass1Aux W Rmax Lmin k G 0 (List.replicate (W + 1) [])
      (List.replicate (W + 1) 0) (List.replicate (W + 1) 0) with
  | .error e => .error e
  | .ok bcs => pass2Aux W Lmin bcs G 0 (List.replicate (W + 1) [])

/-- The offset writes of pass 2 (lines 1199–1246): before each node the delta
of `written_bits` against the previous node's start is written, and one final
delta after the loop; `written` starts at the header size. `tokenBits` gives
the bit size of each written token (the Huffman engine is outside this
snapshot, so it is a parameter). -/
def pass2OffsetsAux (tokenBits : Token → Nat) :
    List (List Token) → Nat → Nat → List Nat
  | [], written, bitOffset => [written - bitOffset]
  | ts :: rest, written, bitOffset =>
    (written - bitOffset) ::
      pass2OffsetsAux tokenBits rest (written + (ts.map tokenBits).sum) written

/-- The cumulative sum of `load_offsets` (lines 2055–2077). -/
def loadOffsetsAux : List Nat → Nat → List Nat
  | [], _ => []
  | d :: rest, curr => (curr + d) :: loadOffsetsAux rest (curr + d)

/-- `load_offsets`: cumulative-sums the written deltas. -/
def loadOffsets (deltas : List Nat) : List Nat := loadOffsetsAux deltas 0

/-! ## Semantics of the copy-block pattern -/

/-- Alternating take/drop interpretation of a block vector: copy `b₀`, skip
`b₁`, copy `b₂`, …; an exhausted even-length vector copies the trailing
segment, an odd-length one skips it. -/
def copySel : List Nat → List Nat → List Nat
  | [], refl => refl
  | [b], refl => refl.take b
  | b0 :: b1 :: bs, refl => refl.take b0 ++ copySel bs ((refl.drop b0).drop b1)

theorem copySel_nil : ∀ B : List Nat, copySel B [] = []
  | [] => rfl
  | [_] => by simp [copySel]
  | _ :: _ :: bs => by simp [copySel, copySel_nil bs]

theorem maskLoop_neg1 (refl : List Nat) : maskLoop (-1) [] refl = refl := by
  induction refl with
  | nil => rw [maskLoop.eq_def]; simp
  | cons y rl ih => rw [maskLoop.eq_def]; simp [ih]

theorem maskLoop_zero (bs refl : List Nat) : maskLoop 0 bs refl = [] := by
  rw [maskLoop.eq_def]; simp

theorem take_cons_pos {b : Nat} {y : Nat} {rl : List Nat} (h : 1 ≤ b) :
    List.take b (y :: rl) = y :: List.take (b - 1) rl := by
  obtain ⟨c, rfl⟩ : ∃ c, b = c + 1 := ⟨b - 1, by omega⟩
  simp

theorem drop_cons_pos {b : Nat} {y : Nat} {rl : List Nat} (h : 1 ≤ b) :
    List.drop b (y :: rl) = List.drop (b - 1) rl := by
  obtain ⟨c, rfl⟩ : ∃ c, b = c + 1 := ⟨b - 1, by omega⟩
  simp

/-- The decoder's copy-mask loop agrees with the alternating take/drop
semantics for a positive current block and positive later blocks. -/
theorem maskLoop_copySel_bounded (n : Nat) :
    ∀ (refl : List Nat), refl.length ≤ n →
      ∀ (b : Nat) (bs : List Nat), 1 ≤ b → (∀ y ∈ bs, 1 ≤ y) →
        maskLoop (b : Int) bs refl = copySel (b :: bs) refl := by
  induction n with
  | zero =>
    intro refl hlen b bs hb _
    have : refl = [] := List.length_eq_zero.mp (by omega)
    subst this
    rw [maskLoop.eq_def]
    have h0 : ¬ ((b : Int) = 0) := by omega
    simp only [h0, if_false]
    rw [copySel_nil]
  | succ n ih =>
    intro refl hlen b bs hb hbs
    rcases refl with _ | ⟨y, rl⟩
    · rw [maskLoop.eq_def]
      have h0 : ¬ ((b : Int) = 0) := by omega
      simp only [h0, if_false]
      rw [copySel_nil]
    · have hrl : rl.length ≤ n := by simp at hlen; omega
      rw [maskLoop.eq_def]
      have h0 : ¬ ((b : Int) = 0) := by omega
      have h1 : ¬ ((b : Int) = -1) := by omega
      simp only [h0, h1, if_false]
      by_cases hb1 : b = 1
      · subst hb1
        rw [if_pos (show ((1 : Nat) : Int) - 1 = 0 by norm_num)]
        rcases bs with _ | ⟨c, bs2⟩
        · simp [maskLoop_zero, copySel]
        · rcases bs2 with _ | ⟨c2, bs3⟩
          · simp only [maskLoop_neg1]
            simp [copySel]
          · have hc2 : 1 ≤ c2 := hbs c2 (by simp)
            have hdrop : (rl.drop c).length ≤ n := by
              simp only [List.length_drop]
              omega
            have hrec := ih (rl.drop c) hdrop c2 bs3 hc2
              (fun y hy => hbs y (by simp [hy]))
            simp only []
            rw [hrec]
            simp [copySel]
      · have hb2 : ¬ ((b : Int) - 1 = 0) := by omega
        simp only [hb2, if_false]
        have hcast : ((b : Int) - 1) = ((b - 1 : Nat) : Int) := by omega
        rw [hcast, ih rl hrl (b - 1) bs (by omega) hbs]
        rcases bs with _ | ⟨c, bs2⟩
        · simp only [copySel]
          rw [take_cons_pos hb]
        · simp only [copySel]
          rw [take_cons_pos hb, drop_cons_pos hb]
          simp

theorem maskLoop_copySel (refl : List Nat) (b : Nat) (bs : List Nat)
    (hb : 1 ≤ b) (hbs : ∀ y ∈ bs, 1 ≤ y) :
    maskLoop (b : Int) bs refl = copySel (b :: bs) refl :=
  maskLoop_copySel_bounded refl.length refl le_rfl b bs hb hbs

/-- The full mask walk (pre-loop setup plus loop) agrees with the
alternating take/drop semantics when all blocks after the first are
positive — which decoded blocks always are (`read + 1`). -/
theorem maskSelect_copySel (B refl : List Nat) (hB : ∀ y ∈ B.tail, 1 ≤ y) :
    maskSelect B refl = copySel B refl := by
  rcases B with _ | ⟨b0, bs⟩
  · simp [maskSelect, maskLoop_neg1, copySel]
  · by_cases h0 : b0 = 0
    · subst h0
      rcases bs with _ | ⟨b1, bs2⟩
      · simp [maskSelect, maskLoop_zero, copySel]
      · rcases bs2 with _ | ⟨b2, bs3⟩
        · simp [maskSelect, maskLoop_neg1, copySel]
        · have hb2 : 1 ≤ b2 := hB b2 (by simp)
          have hrec := maskLoop_copySel (refl.drop b1) b2 bs3 hb2
            (fun y hy => hB y (by simp [hy]))
          simp [maskSelect, hrec, copySel]
    · simp only [maskSelect, h0, if_false]
      exact maskLoop_copySel refl b0 bs (by omega) (fun y hy => hB y hy)

/-- Length of the alternating take/drop selection: even-indexed blocks, plus
the trailing segment for an even block count — the decoder's `copied`
computation. -/
theorem copySel_length : ∀ (B refl : List Nat), B.sum ≤ refl.length →
    (copySel B refl).length = copiedCount B refl.length := by
  intro B refl
  induction B, refl using copySel.induct with
  | case1 refl =>
    intro _
    simp [copySel, copiedCount, sumEven]
  | case2 b refl =>
    intro hsum
    simp only [List.sum_cons, List.sum_nil] at hsum
    simp only [copySel, copiedCount, sumEven, List.length_take, List.length_cons,
      List.length_nil]
    norm_num
    omega
  | case3 b0 b1 bs refl ih =>
    intro hsum
    simp only [List.sum_cons] at hsum
    have hsum2 : bs.sum ≤ ((refl.drop b0).drop b1).length := by
      simp only [List.length_drop]
      omega
    have hIH := ih hsum2
    simp only [copySel, List.length_append, List.length_take]
    rw [hIH]
    simp only [copiedCount, sumEven, List.sum_cons, List.length_cons, List.length_drop]
    have hpar : (bs.length + 1 + 1) % 2 = bs.length % 2 := by omega
    rw [hpar]
    by_cases hp : bs.length % 2 = 0
    · rw [if_pos hp, if_pos hp]
      omega
    · rw [if_neg hp, if_neg hp]
      omega

/-! ## Specification of the `diff_comp` merge loop -/

/-- Mid-loop reading of the emitted blocks: from a copying state with `cbl`
already copied, the first flushed block continues the current run; from an
ignore state, the first flushed block closes the current skip run. -/
def selState : Bool → Nat → List Nat → List Nat → List Nat
  | true, _, [], rl => rl
  | true, cbl, b :: bs, rl => copySel ((b - cbl) :: bs) rl
  | false, _, [], _ => []
  | false, cbl, b :: bs, rl => copySel bs (rl.drop (b - cbl))

/-- The reference head is strictly below the current head (the state on
entering an ignore block). -/
def headsRlt : List Nat → List Nat → Prop
  | c :: _, r :: _ => r < c
  | _, _ => True

/-- Both heads exist and are equal. -/
def headsEq : List Nat → List Nat → Prop
  | c :: _, r :: _ => c = r
  | _, _ => False

theorem filter_mem_cons_of_lt {r : Nat} {rl : List Nat} :
    ∀ (cl : List Nat), (∀ e ∈ cl, r < e) →
      cl.filter (fun e => decide (e ∈ r :: rl)) = cl.filter (fun e => decide (e ∈ rl)) := by
  intro cl h
  apply List.filter_congr
  intro e he
  have hre := h e he
  have hne : ¬ (e = r) := by omega
  simp [List.mem_cons, hne]

theorem filter_nmem_cons_of_lt {r : Nat} {rl : List Nat} :
    ∀ (cl : List Nat), (∀ e ∈ cl, r < e) →
      cl.filter (fun e => decide (e ∉ r :: rl)) = cl.filter (fun e => decide (e ∉ rl)) := by
  intro cl h
  apply List.filter_congr
  intro e he
  have hre := h e he
  have hne : ¬ (e = r) := by omega
  simp [List.mem_cons, hne]

theorem filter_cons_pos {p : Nat → Bool} {c : Nat} {l : List Nat} (h : p c = true) :
    (c :: l).filter p = c :: l.filter p := by
  simp [List.filter_cons, h]

theorem filter_cons_neg {p : Nat → Bool} {c : Nat} {l : List Nat} (h : p c = false) :
    (c :: l).filter p = l.filter p := by
  simp [List.filter_cons, h]

/-- The full specification of the merge loop of `diff_comp`/`add_vals`, by
functional induction over `diffLoop`: the extras are the current elements
missing from the reference, the blocks select exactly the common elements,
blocks after the first are positive, the blocks never overrun the reference,
and a copying state with equal heads flushes a positive first block. -/
theorem diffLoop_spec :
    ∀ (cl rl : List Nat) (copying : Bool) (cbl : Nat),
      List.Chain' (· < ·) cl → List.Chain' (· < ·) rl →
      (copying = false → cbl = 0 → headsRlt cl rl) →
      ((diffLoop cl rl copying cbl).2 = cl.filter (fun e => decide (e ∉ rl))) ∧
      (selState copying cbl (diffLoop cl rl copying cbl).1 rl =
        cl.filter (fun e => decide (e ∈ rl))) ∧
      (match (diffLoop cl rl copying cbl).1 with
       | [] => True
       | b :: bs => (if copying then cbl ≤ b else max 1 cbl ≤ b) ∧ ∀ y ∈ bs, 1 ≤ y) ∧
      ((diffLoop cl rl copying cbl).1.sum ≤ cbl + rl.length) ∧
      (copying = true → headsEq cl rl →
        (match (diffLoop cl rl copying cbl).1 with
         | [] => True
         | b :: _ => 1 ≤ b)) := by
  intro cl rl copying cbl
  induction cl, rl, copying, cbl using diffLoop.induct with
  | case1 rl copying cbl =>
    intro _ _ _
    rw [diffLoop]
    by_cases h : copying = true ∧ rl ≠ []
    · simp only [if_pos h]
      obtain ⟨hc, hr⟩ := h
      subst hc
      refine ⟨by simp, ?_, ?_, ?_, ?_⟩
      · simp only [selState]
        rcases rl with _ | ⟨r, rl⟩
        · simp [copySel]
        · simp [copySel]
      · simp
      · simp only [List.sum_cons, List.sum_nil]
        omega
      · intro _ hEq
        exact absurd hEq (by simp [headsEq])
    · simp only [if_neg h]
      refine ⟨by simp, ?_, by simp, by simp, by simp [headsEq]⟩
      rcases copying with _ | _
      · simp [selState]
      · simp only [selState]
        have : rl = [] := by
          by_contra hne
          exact h ⟨rfl, hne⟩
        subst this
        simp
  | case2 c cl copying cbl =>
    intro _ _ _
    rw [diffLoop]
    refine ⟨by simp, ?_, by simp, by simp, by simp [headsEq]⟩
    rcases copying with _ | _ <;> simp [selState]
  | case3 c cl r rl cbl hrc ih =>
    intro hcc hcr _
    obtain ⟨ih1, ih2, ih3, ih4, ih5⟩ := ih hcc hcr (by intro _ _; simp [headsRlt]; omega)
    rw [diffLoop]
    simp only [dif_pos hrc]
    refine ⟨?_, ?_, ?_, ?_, ?_⟩
    · exact ih1
    · dsimp only
      simp only [selState]
      rcases hB : (diffLoop (c :: cl) (r :: rl) false 0).1 with _ | ⟨b, bs⟩
      · rw [hB] at ih2
        simp only [selState] at ih2
        simp only [Nat.sub_self]
        rw [← ih2]
        simp [copySel]
      · rw [hB] at ih2
        simp only [selState, Nat.sub_zero] at ih2
        simp only [Nat.sub_self]
        rw [← ih2]
        simp [copySel]
    · dsimp only
      rcases hB : (diffLoop (c :: cl) (r :: rl) false 0).1 with _ | ⟨b, bs⟩
      · simp
      · rw [hB] at ih3
        simp only at ih3 ⊢
        constructor
        · simp
        · intro y hy
          rcases List.mem_cons.mp hy with rfl | hy
          · have h31 := ih3.1
            simp at h31
            omega
          · exact ih3.2 y hy
    · dsimp only
      simp only [List.sum_cons]
      omega
    · intro _ hEq
      simp only [headsEq] at hEq
      omega
  | case4 c cl r rl cbl hnrc hcr ih =>
    intro hcc hrr _
    obtain ⟨ih1, ih2, ih3, ih4, ih5⟩ := ih (hcc.tail) hrr (by simp)
    have hcnotin : c ∉ r :: rl := by
      intro hmem
      have := sorted_head_le hrr hmem
      omega
    rw [diffLoop]
    simp only [dif_neg hnrc, dif_pos hcr]
    refine ⟨?_, ?_, ?_, ?_, ?_⟩
    · dsimp only
      rw [filter_cons_pos (by simp [hcnotin]), ih1]
    · dsimp only
      rw [filter_cons_neg (p := fun e => decide (e ∈ r :: rl)) (by simp [hcnotin])]
      exact ih2
    · exact ih3
    · exact ih4
    · intro _ hEq
      simp only [headsEq] at hEq
      omega
  | case5 c cl r rl cbl hnrc hncr ih =>
    intro hcc hrr _
    have hceq : c = r := by omega
    subst hceq
    obtain ⟨ih1, ih2, ih3, ih4, ih5⟩ := ih (hcc.tail) (hrr.tail) (by simp)
    have hclgt : ∀ e ∈ cl, c < e := by
      intro e he
      have hpw := List.chain'_iff_pairwise.mp hcc
      exact (List.pairwise_cons.mp hpw).1 e he
    rw [diffLoop]
    simp only [dif_neg hnrc, dif_neg hncr]
    refine ⟨?_, ?_, ?_, ?_, ?_⟩
    · rw [filter_cons_neg (p := fun e => decide (e ∉ c :: rl)) (by simp), ih1,
        filter_nmem_cons_of_lt cl hclgt]
    · rw [filter_cons_pos (p := fun e => decide (e ∈ c :: rl)) (by simp),
        filter_mem_cons_of_lt cl hclgt, ← ih2]
      rcases hB : (diffLoop cl rl true (cbl + 1)).1 with _ | ⟨b, bs⟩
      · simp [selState]
      · rw [hB] at ih3
        simp only [selState]
        simp only at ih3
        have hble : cbl + 1 ≤ b := by
          have h31 := ih3.1
          simp at h31
          omega
        rcases bs with _ | ⟨b1, bs2⟩
        · simp only [copySel]
          rw [take_cons_pos (by omega), Nat.sub_sub]
        · simp only [copySel]
          rw [take_cons_pos (by omega), drop_cons_pos (by omega)]
          rw [List.cons_append, Nat.sub_sub]
    · rcases hB : (diffLoop cl rl true (cbl + 1)).1 with _ | ⟨b, bs⟩
      · simp [hB]
      · rw [hB] at ih3
        simp only at ih3 ⊢
        refine ⟨?_, ih3.2⟩
        have h31 := ih3.1
        simp at h31 ⊢
        omega
    · simp only [List.length_cons] at ih4 ⊢
      omega
    · intro _ _
      rcases hB : (diffLoop cl rl true (cbl + 1)).1 with _ | ⟨b, bs⟩
      · simp [hB]
      · rw [hB] at ih3
        simp only at ih3 ⊢
        have h31 := ih3.1
        simp at h31
        omega
  | case6 c cl r rl cbl hcr ih =>
    intro hcc hrr hz
    have hz2 : cbl = 0 → headsRlt cl (r :: rl) := by
      intro h0
      rcases cl with _ | ⟨c2, cl2⟩
      · simp [headsRlt]
      · simp only [headsRlt]
        have hc2 : c < c2 := (List.chain'_cons.mp hcc).1
        have := hz rfl h0
        simp only [headsRlt] at this
        omega
    obtain ⟨ih1, ih2, ih3, ih4, ih5⟩ := ih (hcc.tail) hrr (fun _ h0 => hz2 h0)
    have hcnotin : c ∉ r :: rl := by
      intro hmem
      have := sorted_head_le hrr hmem
      omega
    rw [diffLoop]
    simp only [dif_pos hcr]
    refine ⟨?_, ?_, ?_, ?_, ?_⟩
    · dsimp only
      rw [filter_cons_pos (by simp [hcnotin]), ih1]
    · dsimp only
      rw [filter_cons_neg (p := fun e => decide (e ∈ r :: rl)) (by simp [hcnotin])]
      exact ih2
    · exact ih3
    · exact ih4
    · intro h _
      simp at h
  | case7 c cl r rl cbl hncr hrc ih =>
    intro hcc hrr _
    obtain ⟨ih1, ih2, ih3, ih4, ih5⟩ := ih hcc (hrr.tail) (by simp)
    have hlt : ∀ e ∈ c :: cl, r < e := by
      intro e he
      have := sorted_head_le hcc he
      omega
    rw [diffLoop]
    simp only [dif_neg hncr, dif_pos hrc]
    refine ⟨?_, ?_, ?_, ?_, ?_⟩
    · rw [ih1, filter_nmem_cons_of_lt _ hlt]
    · rw [filter_mem_cons_of_lt _ hlt, ← ih2]
      rcases hB : (diffLoop (c :: cl) rl false (cbl + 1)).1 with _ | ⟨b, bs⟩
      · simp only [selState]
      · rw [hB] at ih3
        simp only [selState]
        simp only at ih3
        have hble : cbl + 1 ≤ b := by
          have h31 := ih3.1
          simp at h31
          omega
        rw [drop_cons_pos (show 1 ≤ b - cbl by omega)]
        have heq : b - cbl - 1 = b - (cbl + 1) := by omega
        rw [heq]
    · rcases hB : (diffLoop (c :: cl) rl false (cbl + 1)).1 with _ | ⟨b, bs⟩
      · simp [hB]
      · rw [hB] at ih3
        simp only at ih3 ⊢
        refine ⟨?_, ih3.2⟩
        have h31 := ih3.1
        simp at h31 ⊢
        omega
    · simp only [List.length_cons] at ih4 ⊢
      omega
    · intro h _
      simp at h
  | case8 c cl r rl cbl hncr hnrc ih =>
    intro hcc hrr hz
    have hceq : c = r := by omega
    obtain ⟨ih1, ih2, ih3, ih4, ih5⟩ := ih hcc hrr (by simp)
    have hcbl : 1 ≤ cbl := by
      by_contra h0
      push_neg at h0
      have := hz rfl (by omega)
      simp only [headsRlt] at this
      omega
    rw [diffLoop]
    simp only [dif_neg hncr, dif_neg hnrc]
    refine ⟨?_, ?_, ?_, ?_, ?_⟩
    · exact ih1
    · dsimp only
      simp only [selState, Nat.sub_self]
      rcases hB : (diffLoop (c :: cl) (r :: rl) true 0).1 with _ | ⟨b, bs⟩
      · rw [hB] at ih2
        simp only [selState] at ih2
        simp only [List.drop_zero]
        rw [← ih2]
        simp [copySel]
      · rw [hB] at ih2
        simp only [selState, Nat.sub_zero] at ih2
        simp only [List.drop_zero]
        rw [← ih2]
    · dsimp only
      rcases hB : (diffLoop (c :: cl) (r :: rl) true 0).1 with _ | ⟨b, bs⟩
      · simp
        omega
      · rw [hB] at ih3 ih5
        simp only at ih3 ⊢
        have hb1 : 1 ≤ b := by
          have := ih5 rfl (by simp [headsEq, hceq])
          simpa using this
        constructor
        · simp
          omega
        · intro y hy
          rcases List.mem_cons.mp hy with rfl | hy
          · exact hb1
          · exact ih3.2 y hy
    · dsimp only
      simp only [List.sum_cons]
      omega
    · intro h _
      simp at h

/-! ## Error classification (C10) -/

/-- Every error of the residual-gap length coder is the repeated-successor
invariant error. -/
theorem residualLensRest_err (k : Nat) :
    ∀ (l : List Nat) (prev : Nat) (e : String),
      residualLensRest k l prev = .error e → e = "Repeated successor" := by
  intro l
  induction l with
  | nil =>
    intro prev e h
    simp [residualLensRest] at h
  | cons r rest ih =>
    intro prev e h
    rw [residualLensRest] at h
    by_cases hrp : r = prev
    · rw [if_pos hrp] at h
      injection h with h
      exact h.symm
    · rw [if_neg hrp] at h
      rcases hm : residualLensRest k rest r with e2 | n
      · rw [hm] at h
        injection h with h
        exact h ▸ ih r e2 hm
      · rw [hm] at h
        exact absurd h (by simp)

/-- Every error of the residual length coder is the repeated-successor
invariant error. -/
theorem residualLens_err (k x : Nat) :
    ∀ (l : List Nat) (e : String),
      residualLens k x l = .error e → e = "Repeated successor" := by
  intro l e h
  rcases l with _ | ⟨r, rest⟩
  · simp [residualLens] at h
  · rw [residualLens] at h
    rcases hm : residualLensRest k rest r with e2 | n
    · rw [hm] at h
      injection h with h
      exact h ▸ residualLensRest_err k rest r e2 hm
    · rw [hm] at h
      exact absurd h (by simp)

/-- Every error of the residual-gap token emitter is the repeated-successor
invariant error. -/
theorem residualTokensRest_err :
    ∀ (l : List Nat) (prev prevRes : Nat) (e : String),
      residualTokensRest l prev prevRes = .error e → e = "Repeated successor" := by
  intro l
  induction l with
  | nil =>
    intro prev prevRes e h
    simp [residualTokensRest] at h
  | cons r rest ih =>
    intro prev prevRes e h
    rw [residualTokensRest] at h
    by_cases hrp : r = prev
    · rw [if_pos hrp] at h
      injection h with h
      exact h.symm
    · rw [if_neg hrp] at h
      rcases hm : residualTokensRest rest r (r - prev - 1) with e2 | ts
      · rw [hm] at h
        injection h with h
        exact h ▸ ih r (r - prev - 1) e2 hm
      · rw [hm] at h
        exact absurd h (by simp)

/-- Every error of the residual token emitter is the repeated-successor
invariant error. -/
theorem residualTokens_err (x : Nat) :
    ∀ (l : List Nat) (e : String),
      residualTokens x l = .error e → e = "Repeated successor" := by
  intro l e h
  rcases l with _ | ⟨r, rest⟩
  · simp [residualTokens] at h
  · rw [residualTokens] at h
    rcases hm : residualTokensRest rest r (int2nat ((r : Int) - (x : Int))) with e2 | ts
    · rw [hm] at h
      injection h with h
      exact h ▸ residualTokensRest_err rest r _ e2 hm
    · rw [hm] at h
      exact absurd h (by simp)

/-- With a reference inside the window, the only error `diff_comp`'s length
pass can produce is the repeated-successor invariant error. -/
theorem diffCompLen_err (W Lmin k x r : Nat) (refl S : List Nat) (hr : r ≤ W) :
    ∀ e, diffCompLen W Lmin k x r refl S = .error e → e = "Repeated successor" := by
  intro e h
  unfold diffCompLen at h
  have hwr : (if 0 < W then writeReference W r else Except.ok r) = Except.ok r := by
    split
    · rw [writeReference, if_neg (by omega)]
    · rfl
  simp only [hwr] at h
  split at h
  · split at h
    · split at h
      · rename_i e2 heq
        injection h with h
        exact h ▸ residualLens_err k x _ e2 heq
      · exact absurd h (by simp)
    · split at h
      · rename_i e2 heq
        injection h with h
        exact h ▸ residualLens_err k x _ e2 heq
      · exact absurd h (by simp)
  · exact absurd h (by simp)

/-- With a reference inside the window, the only error `diff_comp`'s emit
pass can produce is the repeated-successor invariant error. -/
theorem diffCompTokens_err (W Lmin x r : Nat) (refl S : List Nat) (hr : r ≤ W) :
    ∀ e, diffCompTokens W Lmin x r refl S = .error e → e = "Repeated successor" := by
  intro e h
  unfold diffCompTokens at h
  have hwr : (if 0 < W then writeReference W r else Except.ok r) = Except.ok r := by
    split
    · rw [writeReference, if_neg (by omega)]
    · rfl
  simp only [hwr] at h
  split at h
  · split at h
    · split at h
      · rename_i e2 heq
        injection h with h
        exact h ▸ residualTokens_err x _ e2 heq
      · exact absurd h (by simp)
    · split at h
      · rename_i e2 heq
        injection h with h
        exact h ▸ residualTokens_err x _ e2 heq
      · exact absurd h (by simp)
  · exact absurd h (by simp)

/-- Every error surfaced by the candidate scan comes from a coded-length call
at a reference below `cbs`. -/
theorem selectLoop_err (Rmax : Int) (refCount : List Int) (listLen : List Nat)
    (lenAt : Nat → Except String Nat) (x cbs : Nat)
    (hlen : ∀ r, r < cbs → ∀ e, lenAt r = .error e → e = "Repeated successor") :
    ∀ (fuel r : Nat) (st : Int × Int × Int) (e : String), r + fuel ≤ cbs →
      selectLoop Rmax refCount listLen lenAt x cbs r fuel st = .error e →
      e = "Repeated successor" := by
  intro fuel
  induction fuel with
  | zero =>
    intro r st e _ h
    simp only [selectLoop] at h
    exact absurd h (by simp)
  | succ n ih =>
    intro r st e hb h
    simp only [selectLoop] at h
    split at h
    · split at h
      · rename_i e2 heq
        injection h with h
        exact h ▸ hlen r (by omega) e2 heq
      · split at h
        · exact ih (r + 1) _ e (by omega) h
        · exact ih (r + 1) _ e (by omega) h
    · exact ih (r + 1) _ e (by omega) h

/-- The candidate scan keeps the chosen reference below `cbs`: starting from a
state whose reference is below `cbs`, the result's reference stays below. -/
theorem selectLoop_ref_lt (Rmax : Int) (refCount : List Int) (listLen : List Nat)
    (lenAt : Nat → Except String Nat) (x cbs : Nat) :
    ∀ (fuel r : Nat) (st st' : Int × Int × Int),
      r + fuel ≤ cbs → st.2.2 < (cbs : Int) →
      selectLoop Rmax refCount listLen lenAt x cbs r fuel st = .ok st' →
      st'.2.2 < (cbs : Int) := by
  intro fuel
  induction fuel with
  | zero =>
    intro r st st' _ hst h
    simp only [selectLoop] at h
    injection h with h
    exact h ▸ hst
  | succ n ih =>
    intro r st st' hb hst h
    simp only [selectLoop] at h
    split at h
    · split at h
      · exact absurd h (by simp)
      · split at h
        · exact ih (r + 1) _ st' (by omega)
            (by show (r : Int) < (cbs : Int); omega) h
        · exact ih (r + 1) _ st' (by omega) hst h
    · exact ih (r + 1) _ st' (by omega) hst h

/-- Every error surfaced by pass 1 of `compress` is the repeated-successor
invariant error. -/
theorem pass1Aux_err (W Rmax Lmin k : Nat) :
    ∀ (G : List (List Nat)) (x : Nat) (list : List (List Nat))
      (listLen : List Nat) (refCount : List Int) (e : String),
      pass1Aux W Rmax Lmin k G x list listLen refCount = .error e →
      e = "Repeated successor" := by
  intro G
  induction G with
  | nil =>
    intro x list listLen refCount e h
    simp [pass1Aux] at h
  | cons S rest ih =>
    intro x list listLen refCount e h
    simp only [pass1Aux] at h
    split at h
    · split at h
      · rename_i e2 heq
        injection h with h
        exact h ▸ selectLoop_err _ _ _ _ x (W + 1)
          (fun r hr e' he' => diffCompLen_err W Lmin k x r _ S (by omega) e' he')
          (W + 1) 0 _ e2 (by omega) heq
      · split at h
        · rename_i e2 heq
          injection h with h
          exact h ▸ ih (x + 1) _ _ _ e2 heq
        · exact absurd h (by simp)
    · split at h
      · rename_i e2 heq
        injection h with h
        exact h ▸ ih (x + 1) _ _ _ e2 heq
      · exact absurd h (by simp)

/-- Pass 1 only ever selects references inside the window: every stored best
candidate has `ref ≤ W`. -/
theorem pass1Aux_ref_le (W Rmax Lmin k : Nat) :
    ∀ (G : List (List Nat)) (x : Nat) (list : List (List Nat))
      (listLen : List Nat) (refCount : List Int) (bcs : List (Nat × Nat)),
      pass1Aux W Rmax Lmin k G x list listLen refCount = .ok bcs →
      ∀ p ∈ bcs, p.2 ≤ W := by
  intro G
  induction G with
  | nil =>
    intro x list listLen refCount bcs h p hp
    simp only [pass1Aux] at h
    injection h with h
    subst h
    simp at hp
  | cons S rest ih =>
    intro x list listLen refCount bcs h p hp
    simp only [pass1Aux] at h
    split at h
    · split at h
      · exact absurd h (by simp)
      · rename_i st heq
        split at h
        · exact absurd h (by simp)
        · rename_i bcs2 heq2
          injection h with h
          subst h
          rcases List.mem_cons.mp hp with hp1 | hp2
          · subst hp1
            have hlt := selectLoop_ref_lt _ _ _ _ x (W + 1) (W + 1) 0 _ st (by omega)
              (by show (-1 : Int) < ((W + 1 : Nat) : Int); omega) heq
            show st.2.2.toNat ≤ W
            omega
          · exact ih _ _ _ _ bcs2 heq2 p hp2
    · split at h
      · exact absurd h (by simp)
      · rename_i bcs2 heq2
        injection h with h
        subst h
        rcases List.mem_cons.mp hp with hp1 | hp2
        · subst hp1
          show (0 : Nat) ≤ W
          omega
        · exact ih _ _ _ _ bcs2 heq2 p hp2

/-- With every stored candidate reference inside the window, every error
surfaced by pass 2 of `compress` is the repeated-successor invariant error. -/
theorem pass2Aux_err (W Lmin : Nat) (bcs : List (Nat × Nat))
    (hb : ∀ p ∈ bcs, p.2 ≤ W) :
    ∀ (G : List (List Nat)) (x : Nat) (list : List (List Nat)) (e : String),
      pass2Aux W Lmin bcs G x list = .error e → e = "Repeated successor" := by
  intro G
  induction G with
  | nil =>
    intro x list e h
    simp [pass2Aux] at h
  | cons S rest ih =>
    intro x list e h
    have hble : (bcs.getD x (0, 0)).2 ≤ W := by
      rcases Nat.lt_or_ge x bcs.length with hx | hx
      · rw [List.getD_eq_getElem _ _ hx]
        exact hb _ (List.getElem_mem _)
      · rw [List.getD_eq_default _ _ hx]
        omega
    simp only [pass2Aux] at h
    split at h
    · split at h
      · rename_i e2 heq
        injection h with h
        exact h ▸ diffCompTokens_err W Lmin x _ _ S hble e2 heq
      · split at h
        · rename_i e2 heq
          injection h with h
          exact h ▸ ih (x + 1) _ e2 heq
        · exact absurd h (by simp)
    · split at h
      · rename_i e2 heq
        injection h with h
        exact h ▸ ih (x + 1) _ e2 heq
      · exact absurd h (by simp)

/-! ## Reference selection (C4) -/

/-- Eligibility of candidate `r` in the scan of pass 1 (lines 1142–1145):
its window slot has chain depth below `R_max` and a non-empty list. -/
def eligSel (Rmax : Int) (refCount : List Int) (listLen : List Nat) (x cbs r : Nat) : Prop :=
  refCount.getD ((x + cbs - r) % cbs) 0 < Rmax ∧ listLen.getD ((x + cbs - r) % cbs) 0 ≠ 0

instance (Rmax : Int) (refCount : List Int) (listLen : List Nat) (x cbs r : Nat) :
    Decidable (eligSel Rmax refCount listLen x cbs r) := by
  unfold eligSel; infer_instance

/-- State invariant of the candidate scan once the candidates below `r0` have
been examined: either none was eligible and the sentinel persists, or the
state holds the least-index minimiser of the coded length seen so far. -/
def selInv (Rmax : Int) (refCount : List Int) (listLen : List Nat) (lenVal : Nat → Nat)
    (x cbs r0 : Nat) (st : Int × Int × Int) : Prop :=
  (st = (I64MAX, -1, -1) ∧ ∀ r, r < r0 → ¬ eligSel Rmax refCount listLen x cbs r) ∨
  (∃ rb, rb < r0 ∧ eligSel Rmax refCount listLen x cbs rb ∧
    st = ((lenVal rb : Int), (((x + cbs - rb) % cbs : Nat) : Int), (rb : Int)) ∧
    ∀ r, r < r0 → eligSel Rmax refCount listLen x cbs r →
      (lenVal rb < lenVal r ∨ (lenVal rb = lenVal r ∧ rb ≤ r)))

/-- The candidate scan maintains `selInv`: from a state satisfying the
invariant at `r0` it runs to completion and returns a state satisfying it at
`cbs`, provided the coded length of every eligible candidate is defined and
below the sentinel. -/
theorem selectLoop_spec (Rmax : Int) (refCount : List Int) (listLen : List Nat)
    (lenAt : Nat → Except String Nat) (lenVal : Nat → Nat) (x cbs : Nat)
    (hok : ∀ r, r < cbs → eligSel Rmax refCount listLen x cbs r → lenAt r = .ok (lenVal r))
    (hsmall : ∀ r, r < cbs → eligSel Rmax refCount listLen x cbs r →
      ((lenVal r : Nat) : Int) < I64MAX) :
    ∀ (fuel r0 : Nat) (st : Int × Int × Int), r0 + fuel = cbs →
      selInv Rmax refCount listLen lenVal x cbs r0 st →
      ∃ st', selectLoop Rmax refCount listLen lenAt x cbs r0 fuel st = .ok st' ∧
        selInv Rmax refCount listLen lenVal x cbs cbs st' := by
  intro fuel
  induction fuel with
  | zero =>
    intro r0 st hc hinv
    refine ⟨st, by simp only [selectLoop], ?_⟩
    have hrc : r0 = cbs := by omega
    subst hrc
    exact hinv
  | succ n ih =>
    intro r0 st hc hinv
    simp only [selectLoop]
    by_cases he : refCount.getD ((x + cbs - r0) % cbs) 0 < Rmax ∧
        listLen.getD ((x + cbs - r0) % cbs) 0 ≠ 0
    · rw [if_pos he]
      simp only [hok r0 (by omega) he]
      rcases hinv with ⟨hst, hnone⟩ | ⟨rb, hrb, herb, hst, hmin⟩
      · subst hst
        dsimp only
        rw [if_pos (hsmall r0 (by omega) he)]
        refine ih (r0 + 1) _ (by omega) (Or.inr ⟨r0, by omega, he, rfl, ?_⟩)
        intro r hr hel
        rcases Nat.lt_or_ge r r0 with h1 | h1
        · exact absurd hel (hnone r h1)
        · have hre : r = r0 := by omega
          subst hre
          right
          exact ⟨rfl, le_refl r⟩
      · subst hst
        dsimp only
        by_cases hlt : ((lenVal r0 : Nat) : Int) < ((lenVal rb : Nat) : Int)
        · rw [if_pos hlt]
          refine ih (r0 + 1) _ (by omega) (Or.inr ⟨r0, by omega, he, rfl, ?_⟩)
          intro r hr hel
          have hn : lenVal r0 < lenVal rb := by exact_mod_cast hlt
          rcases Nat.lt_or_ge r r0 with h1 | h1
          · rcases hmin r h1 hel with h2 | ⟨h2, _⟩
            · left; omega
            · left; omega
          · have hre : r = r0 := by omega
            subst hre
            right
            exact ⟨rfl, le_refl r⟩
        · rw [if_neg hlt]
          refine ih (r0 + 1) _ (by omega) (Or.inr ⟨rb, by omega, herb, rfl, ?_⟩)
          intro r hr hel
          have hn : lenVal rb ≤ lenVal r0 := by
            have hn2 := not_lt.mp hlt
            exact_mod_cast hn2
          rcases Nat.lt_or_ge r r0 with h1 | h1
          · exact hmin r h1 hel
          · have hre : r = r0 := by omega
            subst hre
            rcases Nat.lt_or_ge (lenVal rb) (lenVal r) with h2 | h2
            · left; exact h2
            · right; exact ⟨by omega, by omega⟩
    · rw [if_neg he]
      refine ih (r0 + 1) st (by omega) ?_
      rcases hinv with ⟨hst, hnone⟩ | ⟨rb, hrb, herb, hst, hmin⟩
      · refine Or.inl ⟨hst, ?_⟩
        intro r hr
        rcases Nat.lt_or_ge r r0 with h1 | h1
        · exact hnone r h1
        · have hre : r = r0 := by omega
          subst hre
          exact he
      · refine Or.inr ⟨rb, by omega, herb, hst, ?_⟩
        intro r hr hel
        rcases Nat.lt_or_ge r r0 with h1 | h1
        · exact hmin r h1 hel
        · have hre : r = r0 := by omega
          subst hre
          exact absurd hel he

/-- **C4**: reference selection. During pass 1, for a node `x` with a
non-empty list (candidate `r = 0` is eligible: its slot was just set to the
current list with `ref_count` −1), the scan considers exactly the candidates
`r ∈ [0, W]` whose slot has `ref_count < R_max` and a non-empty list,
computes each one's coded length with `diff_comp` against the bit-length-only
writer (`diffCompLen`, under the default universal codes), and returns the
eligible candidate of minimal coded length, breaking ties by the smallest
`r`. -/
theorem C4_reference_selection (W Rmax Lmin k x : Nat) (refCount : List Int)
    (listLen : List Nat) (list : List (List Nat)) (S : List Nat) (lenVal : Nat → Nat)
    (hok : ∀ r, r < W + 1 → eligSel (Rmax : Int) refCount listLen x (W + 1) r →
      diffCompLen W Lmin k x r (list.getD ((x + (W + 1) - r) % (W + 1)) []) S =
        Except.ok (lenVal r))
    (hsmall : ∀ r, r < W + 1 → eligSel (Rmax : Int) refCount listLen x (W + 1) r →
      ((lenVal r : Nat) : Int) < I64MAX)
    (hex : eligSel (Rmax : Int) refCount listLen x (W + 1) 0) :
    ∃ rb, rb < W + 1 ∧ eligSel (Rmax : Int) refCount listLen x (W + 1) rb ∧
      selectLoop (Rmax : Int) refCount listLen
        (fun r => diffCompLen W Lmin k x r (list.getD ((x + (W + 1) - r) % (W + 1)) []) S)
        x (W + 1) 0 (W + 1) (I64MAX, -1, -1) =
        Except.ok ((lenVal rb : Int), (((x + (W + 1) - rb) % (W + 1) : Nat) : Int),
          (rb : Int)) ∧
      ∀ r, r < W + 1 → eligSel (Rmax : Int) refCount listLen x (W + 1) r →
        (lenVal rb < lenVal r ∨ (lenVal rb = lenVal r ∧ rb ≤ r)) := by
  obtain ⟨st', hrun, hinv⟩ := selectLoop_spec (Rmax : Int) refCount listLen _ lenVal x (W + 1)
    hok hsmall (W + 1) 0 (I64MAX, -1, -1) (by omega)
    (Or.inl ⟨rfl, by intro r hr; exact absurd hr (Nat.not_lt_zero r)⟩)
  rcases hinv with ⟨hst, hnone⟩ | ⟨rb, hrb, herb, hst, hmin⟩
  · exact absurd hex (hnone 0 (by omega))
  · subst hst
    exact ⟨rb, hrb, herb, hrun, fun r hr hel => hmin r hr hel⟩

theorem C4_reference_selection_witness :
    ∃ rb, rb < 1 + 1 ∧ eligSel ((3 : Nat) : Int) [0, -1] [0, 1] 1 (1 + 1) rb ∧
      selectLoop ((3 : Nat) : Int) [0, -1] [0, 1]
        (fun r => diffCompLen 1 2 3 1 r ([[], []].getD ((1 + (1 + 1) - r) % (1 + 1)) []) [2])
        1 (1 + 1) 0 (1 + 1) (I64MAX, -1, -1) =
        Except.ok (((5 : Nat) : Int), (((1 + (1 + 1) - rb) % (1 + 1) : Nat) : Int),
          (rb : Int)) ∧
      ∀ r, r < 1 + 1 → eligSel ((3 : Nat) : Int) [0, -1] [0, 1] 1 (1 + 1) r →
        ((5 : Nat) < 5 ∨ ((5 : Nat) = 5 ∧ rb ≤ r)) :=
  C4_reference_selection 1 3 2 3 1 [0, -1] [0, 1] [[], []] [2] (fun _ => 5)
    (by
      intro r hr hel
      interval_cases r
      · simp [diffCompLen, diffBlocksExtras, diffLoop, writeReference, unaryLen, gammaLen,
          intervalize, residualLens, residualLensRest, zetaLen, int2nat, Nat.log2,
          intervalLens]
      · exact absurd hel (by decide))
    (by intro r hr hel; norm_num [I64MAX])
    (by decide)

/-! ## Repeated-successor rejection (C6) -/

/-- The residual emitter after the first residual errors exactly when the
residual list (with its predecessor prepended) has two adjacent equal
entries. -/
theorem residualTokensRest_error_iff :
    ∀ (l : List Nat) (prev prevRes : Nat),
      (∃ e, residualTokensRest l prev prevRes = .error e) ↔
        ¬ List.Chain' (· ≠ ·) (prev :: l) := by
  intro l
  induction l with
  | nil =>
    intro prev prevRes
    simp [residualTokensRest]
  | cons r rest ih =>
    intro prev prevRes
    rw [residualTokensRest]
    by_cases hrp : r = prev
    · rw [if_pos hrp]
      subst hrp
      constructor
      · intro _
        rw [List.chain'_cons]
        tauto
      · intro _
        exact ⟨"Repeated successor", rfl⟩
    · rw [if_neg hrp]
      rcases hm : residualTokensRest rest r (r - prev - 1) with e2 | ts
      · constructor
        · intro _
          rw [List.chain'_cons]
          have h2 := (ih r (r - prev - 1)).mp ⟨e2, hm⟩
          tauto
        · intro _
          exact ⟨e2, rfl⟩
      · constructor
        · intro ⟨e, he⟩
          exact absurd he (by simp)
        · intro hch
          exfalso
          apply hch
          rw [List.chain'_cons]
          refine ⟨fun hpr => hrp hpr.symm, ?_⟩
          by_contra hnc
          obtain ⟨e, he⟩ := (ih r (r - prev - 1)).mpr hnc
          rw [hm] at he
          exact absurd he (by simp)

/-- The residual emitter errors exactly when the residual list has two
adjacent equal entries. -/
theorem residualTokens_error_iff (x : Nat) (l : List Nat) :
    (∃ e, residualTokens x l = .error e) ↔ ¬ List.Chain' (· ≠ ·) l := by
  rcases l with _ | ⟨r, rest⟩
  · simp [residualTokens]
  · rw [residualTokens]
    rcases hm : residualTokensRest rest r (int2nat ((r : Int) - (x : Int))) with e2 | ts
    · constructor
      · intro _
        exact (residualTokensRest_error_iff rest r _).mp ⟨e2, hm⟩
      · intro _
        exact ⟨e2, rfl⟩
    · constructor
      · intro ⟨e, he⟩
        exact absurd he (by simp)
      · intro hch
        exfalso
        obtain ⟨e, he⟩ := (residualTokensRest_error_iff rest r _).mpr hch
        rw [hm] at he
        exact absurd he (by simp)

/-- A reference of `0` drains the whole current list into the extras. -/
theorem diffBlocksExtras_zero (S refl : List Nat) :
    diffBlocksExtras S refl 0 = ([], S) := by
  cases S with
  | nil => simp [diffBlocksExtras, diffLoop]
  | cons c cl => simp [diffBlocksExtras, diffLoop]

/-- **C6** (amended): the repeated-successor error is raised exactly when the
*residual* list produced by the intervalizer has two adjacent equal entries —
not whenever the input list has a repeated element. A duplicate that
intervalization splits between a residual and an interval goes undetected: in
particular, with `W=3, R_max=3, L_min=2, k=3`, encoding `S(0)=[1,1]` fails
with the invariant error, while `S(0)=[1,1,2]` (the spec's E6 example, with
the duplicated `1`) compresses without error (see the counterexample). -/
theorem C6_repeated_successor (W Lmin x : Nat) (refl S : List Nat)
    (hS : S ≠ []) (hL : Lmin ≠ 0) :
    ((∃ e, diffCompTokens W Lmin x 0 refl S = .error e) ↔
      ¬ List.Chain' (· ≠ ·) (intervalize Lmin S).2.2) ∧
    compressTokens 3 3 2 3 [[1, 1]] = Except.error "Repeated successor" := by
  constructor
  · have hbe : diffBlocksExtras S refl 0 = ([], S) := diffBlocksExtras_zero S refl
    have hwr : (if 0 < W then writeReference W 0 else Except.ok 0) = Except.ok 0 := by
      split
      · rw [writeReference, if_neg (by omega)]
      · rfl
    unfold diffCompTokens
    simp only [hbe, hwr]
    rw [if_pos (show S.length ≠ 0 from fun h => hS (List.eq_nil_of_length_eq_zero h)),
      if_pos hL]
    rcases hm : residualTokens x (intervalize Lmin S).2.2 with e2 | ts
    · constructor
      · intro _
        exact (residualTokens_error_iff x _).mp ⟨e2, hm⟩
      · intro _
        exact ⟨e2, rfl⟩
    · constructor
      · intro ⟨e, he⟩
        exact absurd he (by simp)
      · intro hch
        exfalso
        obtain ⟨e, he⟩ := (residualTokens_error_iff x _).mpr hch
        rw [hm] at he
        exact absurd he (by simp)
  · simp [compressTokens, pass1Aux, pass2Aux, selectLoop, diffCompLen, diffCompTokens,
      diffBlocksExtras, diffLoop, writeReference, unaryLen, gammaLen, intervalize, runLen,
      residualLens, residualLensRest, residualTokens, residualTokensRest, zetaLen, int2nat,
      Nat.log2, intervalLens, intervalLensRest, intervalTokens, intervalTokensRest,
      blockLens, blockTokens, outdCtx, zuckBucket, I64MAX]

theorem C6_repeated_successor_witness :
    (([1, 1, 2] : List Nat) ≠ [] ∧ (2 : Nat) ≠ 0) ∧
    (((∃ e, diffCompTokens 3 2 0 0 [] [1, 1, 2] = .error e) ↔
        ¬ List.Chain' (· ≠ ·) (intervalize 2 [1, 1, 2]).2.2) ∧
      compressTokens 3 3 2 3 [[1, 1]] = Except.error "Repeated successor") :=
  ⟨⟨by decide, by decide⟩, C6_repeated_successor 3 2 0 [] [1, 1, 2] (by decide) (by decide)⟩

/-- The spec's E6 scenario refuted: with `W=3, R_max=3, L_min=2, k=3`,
encoding `S(0)=[1,1,2]` — a successor list with a repeated element — does not
fail: the duplicate splits between the residual `[1]` and the interval
`(1,2)`, and `compress` returns a token stream. -/
theorem C6_counterexample :
    compressTokens 3 3 2 3 [[1, 1, 2]] =
      Except.ok [[Token.mk (TokenKind.huff 0) 3, Token.mk TokenKind.uni 0,
        Token.mk TokenKind.uni 1, Token.mk (TokenKind.huff 147) 2,
        Token.mk (TokenKind.huff 179) 0, Token.mk (TokenKind.huff 36) 2]] := by
  simp [compressTokens, pass1Aux, pass2Aux, selectLoop, diffCompLen, diffCompTokens,
    diffBlocksExtras, diffLoop, writeReference, unaryLen, gammaLen, intervalize, runLen,
    residualLens, residualLensRest, residualTokens, residualTokensRest, zetaLen, int2nat,
    Nat.log2, intervalLens, intervalLensRest, intervalTokens, intervalTokensRest,
    blockLens, blockTokens, outdCtx, zuckBucket, I64MAX,
    OUTD_IDX_BEGIN, BLOCKS_IDX_BEGIN, RESIDUALS_IDX_BEGIN, INTERVALS_LEFT_IDX_BEGIN,
    INTERVALS_LEN_IDX_BEGIN, OUTD_IDX_LEN, BLOCKS_IDX_LEN, RESIDUALS_IDX_LEN,
    INTERVALS_LEFT_IDX_LEN]

/-! ## The E3 scenario (C7) -/

/-- The token stream `compress` emits for the E3 graph (`n=3`,
`S(0)=S(1)=S(2)=[1,2,3,4]`, `W=3, R_max=3, L_min=2, k=3`): node 0 is coded as
one interval, nodes 1 and 2 as reference copies with block count 0. -/
def E3toks : List (List Token) :=
  [[Token.mk (TokenKind.huff 0) 4, Token.mk TokenKind.uni 0, Token.mk TokenKind.uni 1,
    Token.mk (TokenKind.huff 147) 2, Token.mk (TokenKind.huff 179) 2],
   [Token.mk (TokenKind.huff 3) 4, Token.mk TokenKind.uni 1, Token.mk TokenKind.uni 0],
   [Token.mk (TokenKind.huff 4) 4, Token.mk TokenKind.uni 1, Token.mk TokenKind.uni 0]]

/-- **C7** (amended): in the E3 scenario, pass 1 picks reference `r = 1` for
`x = 1` and `x = 2` (best candidates `(slot 0, r 1)` and `(slot 1, r 1)`), and
the emitted records for nodes 1 and 2 are exactly `outdegree 4, reference 1,
block count 0` — the identical list is copied *implicitly* by the
even-block-count rule, with an empty blocks vector and zero extras, not by an
explicit copy block of length 4. Decoding the stream returns the input graph,
each copy record is shorter than node 0's record, and under the pass-1
universal codes node 1's coded length (3 bits, reference 1 in unary plus
block count 0 in gamma) is strictly smaller than node 0's (10 bits). -/
theorem C7_E3_reference_copy :
    pass1Aux 3 3 2 3 [[1, 2, 3, 4], [1, 2, 3, 4], [1, 2, 3, 4]] 0
        (List.replicate 4 []) (List.replicate 4 0) (List.replicate 4 0) =
      Except.ok [(0, 0), (0, 1), (1, 1)] ∧
    compressTokens 3 3 2 3 [[1, 2, 3, 4], [1, 2, 3, 4], [1, 2, 3, 4]] =
      Except.ok E3toks ∧
    decodeGraph 3 2 3 E3toks.flatten = [[1, 2, 3, 4], [1, 2, 3, 4], [1, 2, 3, 4]] ∧
    (E3toks.getD 1 []).length < (E3toks.getD 0 []).length ∧
    diffCompLen 3 2 3 1 1 [1, 2, 3, 4] [1, 2, 3, 4] = Except.ok 3 ∧
    diffCompLen 3 2 3 0 0 [] [1, 2, 3, 4] = Except.ok 10 := by
  have el00 : diffCompLen 3 2 3 0 0 [1, 2, 3, 4] [1, 2, 3, 4] = Except.ok 10 := by
    simp [diffCompLen, diffBlocksExtras, diffLoop, writeReference, unaryLen, gammaLen,
      intervalize, runLen, residualLens, residualLensRest, zetaLen, int2nat, Nat.log2,
      intervalLens, intervalLensRest, blockLens, blockLensRest]
  have el10 : diffCompLen 3 2 3 1 0 [1, 2, 3, 4] [1, 2, 3, 4] = Except.ok 8 := by
    simp [diffCompLen, diffBlocksExtras, diffLoop, writeReference, unaryLen, gammaLen,
      intervalize, runLen, residualLens, residualLensRest, zetaLen, int2nat, Nat.log2,
      intervalLens, intervalLensRest, blockLens, blockLensRest]
  have el11 : diffCompLen 3 2 3 1 1 [1, 2, 3, 4] [1, 2, 3, 4] = Except.ok 3 := by
    simp [diffCompLen, diffBlocksExtras, diffLoop, writeReference, unaryLen, gammaLen,
      intervalize, runLen, residualLens, residualLensRest, zetaLen, int2nat, Nat.log2,
      intervalLens, intervalLensRest, blockLens, blockLensRest]
  have el20 : diffCompLen 3 2 3 2 0 [1, 2, 3, 4] [1, 2, 3, 4] = Except.ok 10 := by
    simp [diffCompLen, diffBlocksExtras, diffLoop, writeReference, unaryLen, gammaLen,
      intervalize, runLen, residualLens, residualLensRest, zetaLen, int2nat, Nat.log2,
      intervalLens, intervalLensRest, blockLens, blockLensRest]
  have el21 : diffCompLen 3 2 3 2 1 [1, 2, 3, 4] [1, 2, 3, 4] = Except.ok 3 := by
    simp [diffCompLen, diffBlocksExtras, diffLoop, writeReference, unaryLen, gammaLen,
      intervalize, runLen, residualLens, residualLensRest, zetaLen, int2nat, Nat.log2,
      intervalLens, intervalLensRest, blockLens, blockLensRest]
  have el22 : diffCompLen 3 2 3 2 2 [1, 2, 3, 4] [1, 2, 3, 4] = Except.ok 4 := by
    simp [diffCompLen, diffBlocksExtras, diffLoop, writeReference, unaryLen, gammaLen,
      intervalize, runLen, residualLens, residualLensRest, zetaLen, int2nat, Nat.log2,
      intervalLens, intervalLensRest, blockLens, blockLensRest]
  have hp1 : pass1Aux 3 3 2 3 [[1, 2, 3, 4], [1, 2, 3, 4], [1, 2, 3, 4]] 0
      [[], [], [], []] [0, 0, 0, 0] [0, 0, 0, 0] =
      Except.ok [(0, 0), (0, 1), (1, 1)] := by
    simp [pass1Aux, selectLoop, el00, el10, el11, el20, el21, el22, I64MAX]
  have et0 : diffCompTokens 3 2 0 0 [1, 2, 3, 4] [1, 2, 3, 4] =
      Except.ok [Token.mk TokenKind.uni 0, Token.mk TokenKind.uni 1,
        Token.mk (TokenKind.huff 147) 2, Token.mk (TokenKind.huff 179) 2] := by
    simp [diffCompTokens, diffBlocksExtras, diffLoop, writeReference, intervalize, runLen,
      residualTokens, residualTokensRest, int2nat, intervalTokens, intervalTokensRest,
      blockTokens, blockTokensRest, INTERVALS_LEFT_IDX_BEGIN, INTERVALS_LEN_IDX_BEGIN,
      RESIDUALS_IDX_BEGIN, BLOCKS_IDX_BEGIN, OUTD_IDX_BEGIN, OUTD_IDX_LEN, BLOCKS_IDX_LEN,
      RESIDUALS_IDX_LEN, INTERVALS_LEFT_IDX_LEN]
  have et1 : diffCompTokens 3 2 1 1 [1, 2, 3, 4] [1, 2, 3, 4] =
      Except.ok [Token.mk TokenKind.uni 1, Token.mk TokenKind.uni 0] := by
    simp [diffCompTokens, diffBlocksExtras, diffLoop, writeReference, intervalize, runLen,
      residualTokens, residualTokensRest, int2nat, intervalTokens, intervalTokensRest,
      blockTokens, blockTokensRest]
  have et2 : diffCompTokens 3 2 2 1 [1, 2, 3, 4] [1, 2, 3, 4] =
      Except.ok [Token.mk TokenKind.uni 1, Token.mk TokenKind.uni 0] := by
    simp [diffCompTokens, diffBlocksExtras, diffLoop, writeReference, intervalize, runLen,
      residualTokens, residualTokensRest, int2nat, intervalTokens, intervalTokensRest,
      blockTokens, blockTokensRest]
  have hp2 : compressTokens 3 3 2 3 [[1, 2, 3, 4], [1, 2, 3, 4], [1, 2, 3, 4]] =
      Except.ok E3toks := by
    have hg1 : ([[1, 2, 3, 4], [1, 2, 3, 4], [1, 2, 3, 4], []] : List (List Nat))[1] =
        [1, 2, 3, 4] := rfl
    have hg0 : ([[1, 2, 3, 4], [], [], []] : List (List Nat))[0] = [1, 2, 3, 4] := rfl
    have hg0b : ([[1, 2, 3, 4], [1, 2, 3, 4], [], []] : List (List Nat))[0] =
        [1, 2, 3, 4] := rfl
    simp [compressTokens, hp1, pass2Aux, et0, et1, et2, outdCtx, zuckBucket, E3toks,
      List.replicate, OUTD_IDX_BEGIN, hg0, hg0b, hg1]
  refine ⟨by simpa [List.replicate] using hp1, hp2, ?_, by simp [E3toks], el11, ?_⟩
  · simp [E3toks, decodeGraph, decodeGraphAux, decodeList, readTok, readBlocksFrom,
      sumEven, copiedCount, readIntervals, readIntervalsRest, readResiduals,
      readResidualsRest, expandIntervalsInt, mergeLE, mergeLT, maskSelect, maskLoop,
      nat2int, int2nat, List.range', Token.val]
  · simp [diffCompLen, diffBlocksExtras, diffLoop, writeReference, unaryLen, gammaLen,
      intervalize, runLen, residualLens, residualLensRest, zetaLen, int2nat, Nat.log2,
      intervalLens, intervalLensRest, blockLens, blockLensRest]

/-- The E3 scenario refutes the claim's "one copy block of length 4": for
`x = 1` against the identical reference list, the merge loop produces an
*empty* blocks vector (the whole reference is copied implicitly, the block
count written is 0) and zero extras, and the emitted record holds no
block-length token at all. -/
theorem C7_counterexample :
    diffBlocksExtras [1, 2, 3, 4] [1, 2, 3, 4] 1 = ([], []) ∧
    diffCompTokens 3 2 1 1 [1, 2, 3, 4] [1, 2, 3, 4] =
      Except.ok [Token.mk TokenKind.uni 1, Token.mk TokenKind.uni 0] := by
  constructor
  · simp [diffBlocksExtras, diffLoop]
  · simp [diffCompTokens, diffBlocksExtras, diffLoop, writeReference, blockTokens,
      blockTokensRest, intervalize, runLen, residualTokens, residualTokensRest, int2nat]

/-! ## Offset consistency (C2) -/

/-- Absolute start positions of the per-node records: node 0 starts at `w`
(the bits written before the loop, i.e. the header), each following node
right after the previous node's tokens; one final end-of-stream position. -/
def offsetsAbs (tokenBits : Token → Nat) : List (List Token) → Nat → List Nat
  | [], w => [w]
  | ts :: rest, w => w :: offsetsAbs tokenBits rest (w + (ts.map tokenBits).sum)

theorem offsetsAbs_getD_zero (tokenBits : Token → Nat) :
    ∀ (tss : List (List Token)) (w : Nat), (offsetsAbs tokenBits tss w).getD 0 0 = w := by
  intro tss w
  cases tss <;> simp [offsetsAbs]

/-- Cumulative-summing (`load_offsets`) the deltas written by pass 2
recovers the absolute record start positions. -/
theorem loadOffsetsAux_pass2 (tokenBits : Token → Nat) :
    ∀ (tss : List (List Token)) (written bitOffset : Nat), bitOffset ≤ written →
      loadOffsetsAux (pass2OffsetsAux tokenBits tss written bitOffset) bitOffset =
        offsetsAbs tokenBits tss written := by
  intro tss
  induction tss with
  | nil =>
    intro written bitOffset h
    simp only [pass2OffsetsAux, loadOffsetsAux, offsetsAbs]
    congr 1
    omega
  | cons ts rest ih =>
    intro written bitOffset h
    simp only [pass2OffsetsAux, loadOffsetsAux, offsetsAbs]
    have hbw : bitOffset + (written - bitOffset) = written := by omega
    rw [hbw, ih (written + (ts.map tokenBits).sum) written (by omega)]

theorem offsetsAbs_length (tokenBits : Token → Nat) :
    ∀ (tss : List (List Token)) (w : Nat),
      (offsetsAbs tokenBits tss w).length = tss.length + 1 := by
  intro tss
  induction tss with
  | nil => intro w; simp [offsetsAbs]
  | cons ts rest ih => intro w; simp [offsetsAbs, ih]

theorem offsetsAbs_chain (tokenBits : Token → Nat) :
    ∀ (tss : List (List Token)) (w : Nat),
      List.Chain' (· ≤ ·) (offsetsAbs tokenBits tss w) := by
  intro tss
  induction tss with
  | nil => intro w; simp [offsetsAbs]
  | cons ts rest ih =>
    intro w
    rw [offsetsAbs]
    rcases hr : offsetsAbs tokenBits rest (w + (ts.map tokenBits).sum) with _ | ⟨y, l⟩
    · simp
    · rw [List.chain'_cons]
      refine ⟨?_, hr ▸ ih (w + (ts.map tokenBits).sum)⟩
      have hz := offsetsAbs_getD_zero tokenBits rest (w + (ts.map tokenBits).sum)
      rw [hr] at hz
      simp at hz
      omega

theorem offsetsAbs_step (tokenBits : Token → Nat) :
    ∀ (tss : List (List Token)) (w i : Nat), i < tss.length →
      (offsetsAbs tokenBits tss w).getD (i + 1) 0 =
        (offsetsAbs tokenBits tss w).getD i 0 + ((tss.getD i []).map tokenBits).sum := by
  intro tss
  induction tss with
  | nil => intro w i h; simp at h
  | cons ts rest ih =>
    intro w i h
    rcases i with _ | i
    · rw [offsetsAbs]
      simp only [List.getD_cons_succ, List.getD_cons_zero]
      exact offsetsAbs_getD_zero tokenBits rest _
    · rw [offsetsAbs]
      simp only [List.getD_cons_succ]
      exact ih (w + (ts.map tokenBits).sum) i (by simpa using h)

/-- **C2**: offset consistency. For every token stream produced by
`compress`, cumulative-summing the written offset deltas (`load_offsets`)
yields a monotonically non-decreasing sequence of `n + 1` positions whose
first entry is the bit position after the header, and for every node `i` the
difference `offset[i+1] − offset[i]` is exactly the total bit size of the
tokens pass 2 wrote for node `i` (`tokenBits` gives each token's coded size;
the bit layer is outside this snapshot). -/
theorem C2_offset_consistency (tokenBits : Token → Nat) (W Rmax Lmin k H : Nat)
    (G : List (List Nat)) (tss : List (List Token))
    (hc : compressTokens W Rmax Lmin k G = Except.ok tss) :
    List.Chain' (· ≤ ·) (loadOffsets (pass2OffsetsAux tokenBits tss H 0)) ∧
    (loadOffsets (pass2OffsetsAux tokenBits tss H 0)).length = tss.length + 1 ∧
    (loadOffsets (pass2OffsetsAux tokenBits tss H 0)).getD 0 0 = H ∧
    ∀ i, i < tss.length →
      (loadOffsets (pass2OffsetsAux tokenBits tss H 0)).getD (i + 1) 0 =
        (loadOffsets (pass2OffsetsAux tokenBits tss H 0)).getD i 0 +
          ((tss.getD i []).map tokenBits).sum := by
  have hL : loadOffsets (pass2OffsetsAux tokenBits tss H 0) = offsetsAbs tokenBits tss H :=
    loadOffsetsAux_pass2 tokenBits tss H 0 (Nat.zero_le H)
  rw [hL]
  exact ⟨offsetsAbs_chain tokenBits tss H, offsetsAbs_length tokenBits tss H,
    offsetsAbs_getD_zero tokenBits tss H, fun i hi => offsetsAbs_step tokenBits tss H i hi⟩

theorem C2_offset_consistency_witness :
    List.Chain' (· ≤ ·)
      (loadOffsets (pass2OffsetsAux Token.val
        [[Token.mk (TokenKind.huff 0) 2, Token.mk TokenKind.uni 0, Token.mk TokenKind.uni 1,
          Token.mk (TokenKind.huff 147) 2, Token.mk (TokenKind.huff 179) 0]] 7 0)) ∧
    (loadOffsets (pass2OffsetsAux Token.val
      [[Token.mk (TokenKind.huff 0) 2, Token.mk TokenKind.uni 0, Token.mk TokenKind.uni 1,
        Token.mk (TokenKind.huff 147) 2, Token.mk (TokenKind.huff 179) 0]] 7 0)).length =
      [[Token.mk (TokenKind.huff 0) 2, Token.mk TokenKind.uni 0, Token.mk TokenKind.uni 1,
        Token.mk (TokenKind.huff 147) 2, Token.mk (TokenKind.huff 179) 0]].length + 1 ∧
    (loadOffsets (pass2OffsetsAux Token.val
      [[Token.mk (TokenKind.huff 0) 2, Token.mk TokenKind.uni 0, Token.mk TokenKind.uni 1,
        Token.mk (TokenKind.huff 147) 2, Token.mk (TokenKind.huff 179) 0]] 7 0)).getD 0 0 =
      7 ∧
    ∀ i, i < [[Token.mk (TokenKind.huff 0) 2, Token.mk TokenKind.uni 0,
        Token.mk TokenKind.uni 1, Token.mk (TokenKind.huff 147) 2,
        Token.mk (TokenKind.huff 179) 0]].length →
      (loadOffsets (pass2OffsetsAux Token.val
        [[Token.mk (TokenKind.huff 0) 2, Token.mk TokenKind.uni 0, Token.mk TokenKind.uni 1,
          Token.mk (TokenKind.huff 147) 2, Token.mk (TokenKind.huff 179) 0]] 7 0)).getD
          (i + 1) 0 =
        (loadOffsets (pass2OffsetsAux Token.val
          [[Token.mk (TokenKind.huff 0) 2, Token.mk TokenKind.uni 0, Token.mk TokenKind.uni 1,
            Token.mk (TokenKind.huff 147) 2, Token.mk (TokenKind.huff 179) 0]] 7 0)).getD
            i 0 +
          (([[Token.mk (TokenKind.huff 0) 2, Token.mk TokenKind.uni 0, Token.mk TokenKind.uni 1,
            Token.mk (TokenKind.huff 147) 2,
            Token.mk (TokenKind.huff 179) 0]].getD i []).map Token.val).sum :=
  C2_offset_consistency Token.val 3 3 2 3 7 [[1, 2]]
    [[Token.mk (TokenKind.huff 0) 2, Token.mk TokenKind.uni 0, Token.mk TokenKind.uni 1,
      Token.mk (TokenKind.huff 147) 2, Token.mk (TokenKind.huff 179) 0]]
    (by simp [compressTokens, pass1Aux, pass2Aux, selectLoop, diffCompLen, diffCompTokens,
      diffBlocksExtras, diffLoop, writeReference, unaryLen, gammaLen, intervalize, runLen,
      residualLens, residualLensRest, residualTokens, residualTokensRest, zetaLen, int2nat,
      Nat.log2, intervalLens, intervalLensRest, intervalTokens, intervalTokensRest,
      blockLens, blockTokens, outdCtx, zuckBucket, I64MAX,
      OUTD_IDX_BEGIN, BLOCKS_IDX_BEGIN, RESIDUALS_IDX_BEGIN, INTERVALS_LEFT_IDX_BEGIN,
      INTERVALS_LEN_IDX_BEGIN, OUTD_IDX_LEN, BLOCKS_IDX_LEN, RESIDUALS_IDX_LEN,
      INTERVALS_LEFT_IDX_LEN])

/-! ## Reference chain depth (C5) -/

theorem getD_set_eq {α : Type} (l : List α) : ∀ (i : Nat) (a d : α), i < l.length →
    (l.set i a).getD i d = a := by
  induction l with
  | nil => intro i a d h; simp at h
  | cons b l ih =>
    intro i a d h
    rcases i with _ | i
    · rfl
    · simp only [List.set_cons_succ, List.getD_cons_succ]
      exact ih i a d (by simpa using h)

theorem getD_set_ne {α : Type} (l : List α) : ∀ (i j : Nat) (a d : α), i ≠ j →
    (l.set i a).getD j d = l.getD j d := by
  induction l with
  | nil => intro i j a d _; rfl
  | cons b l ih =>
    intro i j a d h
    rcases i with _ | i
    · rcases j with _ | j
      · exact absurd rfl h
      · rfl
    · rcases j with _ | j
      · rfl
      · simp only [List.set_cons_succ, List.getD_cons_succ]
        exact ih i j a d (fun he => h (by omega))

theorem drop_eq_getD_cons {α : Type} (d : α) :
    ∀ (l : List α) (x : Nat), x < l.length → l.drop x = l.getD x d :: l.drop (x + 1) := by
  intro l
  induction l with
  | nil => intro x h; simp at h
  | cons a l ih =>
    intro x h
    rcases x with _ | x
    · simp
    · simp only [List.drop_succ_cons, List.getD_cons_succ]
      exact ih x (by simpa using h)

theorem getD_replicate {α : Type} (a : α) (n i : Nat) :
    (List.replicate n a).getD i a = a := by
  rcases Nat.lt_or_ge i n with h | h
  · rw [List.getD_eq_getElem _ _ (by simpa using h)]
    simp
  · rw [List.getD_eq_default]
    simpa using h

/-- The window slot of candidate `r ≥ 1` is never the current node's slot. -/
theorem slot_ne_curr (x r cbs : Nat) (h1 : 1 ≤ r) (h2 : r < cbs) :
    (x + cbs - r) % cbs ≠ x % cbs := by
  intro h
  have hs : x + cbs - r = x + (cbs - r) := by omega
  rw [hs] at h
  have hd : cbs ∣ cbs - r := by
    have hmod : x % cbs = (x + (cbs - r)) % cbs := h.symm
    have h3 := (Nat.modEq_iff_dvd' (Nat.le_add_right x (cbs - r))).mp hmod
    simpa using h3
  have := Nat.le_of_dvd (by omega) hd
  omega

/-- The reference chosen for node `y` by pass 1 (`0` when `y` is out of
range or has no successors). -/
def refsOf (bcs : List (Nat × Nat)) (y : Nat) : Nat := (bcs.getD y (0, 0)).2

/-- Transitive reference chain length of node `y`, with explicit fuel:
`0` at a node encoded with `r = 0`, else one more than the depth of the
referenced node `y − r`. -/
def chainDepthF (bcs : List (Nat × Nat)) : Nat → Nat → Nat
  | 0, _ => 0
  | fuel + 1, y => if refsOf bcs y = 0 then 0 else chainDepthF bcs fuel (y - refsOf bcs y) + 1

/-- Transitive reference chain length of node `y` (`y + 1` fuel suffices when
every reference points strictly backwards). -/
def chainDepth (bcs : List (Nat × Nat)) (y : Nat) : Nat := chainDepthF bcs (y + 1) y

theorem chainDepthF_fuel (bcs : List (Nat × Nat)) (href : ∀ y, refsOf bcs y ≤ y) :
    ∀ (y f1 f2 : Nat), y < f1 → y < f2 → chainDepthF bcs f1 y = chainDepthF bcs f2 y := by
  intro y
  induction y using Nat.strong_induction_on with
  | _ y ih =>
    intro f1 f2 h1 h2
    rcases f1 with _ | f1
    · omega
    rcases f2 with _ | f2
    · omega
    simp only [chainDepthF]
    by_cases hz : refsOf bcs y = 0
    · rw [if_pos hz, if_pos hz]
    · rw [if_neg hz, if_neg hz]
      have hle := href y
      rw [ih (y - refsOf bcs y) (by omega) f1 f2 (by omega) (by omega)]

theorem chainDepth_zero (bcs : List (Nat × Nat)) (y : Nat) (h : refsOf bcs y = 0) :
    chainDepth bcs y = 0 := by
  unfold chainDepth
  simp only [chainDepthF]
  rw [if_pos h]

/-- The chain-depth recurrence: a referenced node is one deeper than its
reference target. -/
theorem chainDepth_step (bcs : List (Nat × Nat)) (href : ∀ y, refsOf bcs y ≤ y) (y : Nat)
    (h : refsOf bcs y ≠ 0) :
    chainDepth bcs y = chainDepth bcs (y - refsOf bcs y) + 1 := by
  have hle := href y
  unfold chainDepth
  conv_lhs => rw [chainDepthF]
  rw [if_neg h]
  rw [chainDepthF_fuel bcs href (y - refsOf bcs y) y (y - refsOf bcs y + 1)
    (by omega) (by omega)]

/-- A successful candidate scan either kept its starting state or chose an
eligible candidate, recording its slot and reference. -/
theorem selectLoop_ok_cases (Rmax : Int) (refCount : List Int) (listLen : List Nat)
    (lenAt : Nat → Except String Nat) (x cbs : Nat) :
    ∀ (fuel r : Nat) (st st' : Int × Int × Int),
      selectLoop Rmax refCount listLen lenAt x cbs r fuel st = .ok st' →
      st' = st ∨ ∃ rr, r ≤ rr ∧ rr < r + fuel ∧
        refCount.getD ((x + cbs - rr) % cbs) 0 < Rmax ∧
        listLen.getD ((x + cbs - rr) % cbs) 0 ≠ 0 ∧
        st'.2.1 = (((x + cbs - rr) % cbs : Nat) : Int) ∧ st'.2.2 = (rr : Int) := by
  intro fuel
  induction fuel with
  | zero =>
    intro r st st' h
    simp only [selectLoop] at h
    injection h with h
    exact Or.inl h.symm
  | succ n ih =>
    intro r st st' h
    simp only [selectLoop] at h
    split at h
    · rename_i hel
      split at h
      · exact absurd h (by simp)
      · split at h
        · rcases ih (r + 1) _ st' h with h1 | ⟨rr, hr1, hr2, hc1, hc2, hs1, hs2⟩
          · subst h1
            exact Or.inr ⟨r, le_refl r, by omega, hel.1, hel.2, rfl, rfl⟩
          · exact Or.inr ⟨rr, by omega, by omega, hc1, hc2, hs1, hs2⟩
        · rcases ih (r + 1) _ st' h with h1 | ⟨rr, hr1, hr2, hc1, hc2, hs1, hs2⟩
          · exact Or.inl h1
          · exact Or.inr ⟨rr, by omega, by omega, hc1, hc2, hs1, hs2⟩
    · rcases ih (r + 1) _ st' h with h1 | ⟨rr, hr1, hr2, hc1, hc2, hs1, hs2⟩
      · exact Or.inl h1
      · exact Or.inr ⟨rr, by omega, by omega, hc1, hc2, hs1, hs2⟩

/-- Pass 1 returns one best-candidate pair per node. -/
theorem pass1Aux_length (W Rmax Lmin k : Nat) :
    ∀ (rest : List (List Nat)) (x : Nat) (list : List (List Nat)) (listLen : List Nat)
      (refCount : List Int) (out : List (Nat × Nat)),
      pass1Aux W Rmax Lmin k rest x list listLen refCount = .ok out →
      out.length = rest.length := by
  intro rest
  induction rest with
  | nil =>
    intro x list listLen refCount out h
    simp only [pass1Aux] at h
    injection h with h
    subst h
    rfl
  | cons S rest ih =>
    intro x list listLen refCount out h
    simp only [pass1Aux] at h
    split at h
    · split at h
      · exact absurd h (by simp)
      · split at h
        · exact absurd h (by simp)
        · rename_i bcs2 heq2
          injection h with h
          subst h
          simp [ih _ _ _ _ bcs2 heq2]
    · split at h
      · exact absurd h (by simp)
      · rename_i bcs2 heq2
        injection h with h
        subst h
        simp [ih _ _ _ _ bcs2 heq2]

/-- Every reference pass 1 chooses points backwards: node `x + i`'s stored
reference is at most `x + i`. -/
theorem pass1Aux_refs_le (W Rmax Lmin k : Nat) :
    ∀ (rest : List (List Nat)) (x : Nat) (list : List (List Nat)) (listLen : List Nat)
      (refCount : List Int) (out : List (Nat × Nat)),
      pass1Aux W Rmax Lmin k rest x list listLen refCount = .ok out →
      listLen.length = W + 1 →
      (∀ r, 1 ≤ r → r < W + 1 → listLen.getD ((x + (W + 1) - r) % (W + 1)) 0 ≠ 0 →
        r ≤ x) →
      ∀ i, i < out.length → (out.getD i (0, 0)).2 ≤ x + i := by
  intro rest
  induction rest with
  | nil =>
    intro x list listLen refCount out h _ _ i hi
    simp only [pass1Aux] at h
    injection h with h
    subst h
    simp at hi
  | cons S rest ih =>
    intro x list listLen refCount out h hlen hB
    simp only [pass1Aux] at h
    have hlen1 : (listLen.set (x % (W + 1)) S.length).length = W + 1 := by
      simp [hlen]
    have hB1 : ∀ r, 1 ≤ r → r < W + 1 →
        (listLen.set (x % (W + 1)) S.length).getD ((x + 1 + (W + 1) - r) % (W + 1)) 0 ≠ 0 →
        r ≤ x + 1 := by
      intro r h1 h2 hne
      rcases Nat.eq_or_lt_of_le h1 with h1e | h1lt
      · omega
      · have hslot : (x + 1 + (W + 1) - r) % (W + 1) =
            (x + (W + 1) - (r - 1)) % (W + 1) := by
          congr 1
          omega
        rw [hslot, getD_set_ne _ _ _ _ _
          (Ne.symm (slot_ne_curr x (r - 1) (W + 1) (by omega) (by omega)))] at hne
        have := hB (r - 1) (by omega) (by omega) hne
        omega
    split at h
    · split at h
      · exact absurd h (by simp)
      · rename_i st heq
        split at h
        · exact absurd h (by simp)
        · rename_i bcs2 heq2
          injection h with h
          subst h
          intro i hi
          rcases i with _ | i
          · rcases selectLoop_ok_cases _ _ _ _ x (W + 1) (W + 1) 0 _ st heq with
              hinit | ⟨rr, _, hrr2, hcA, hcB, hs1, hs2⟩
            · simp [hinit]
            · simp only [List.getD_cons_zero]
              show st.2.2.toNat ≤ x + 0
              rw [hs2]
              simp only [Int.toNat_natCast]
              rcases Nat.eq_zero_or_pos rr with h0 | hpos
              · omega
              · rw [getD_set_ne _ _ _ _ _
                  (Ne.symm (slot_ne_curr x rr (W + 1) hpos (by omega)))] at hcB
                have := hB rr hpos (by omega) hcB
                omega
          · simp only [List.getD_cons_succ]
            have hi2 : i < bcs2.length := by
              simp only [List.length_cons] at hi
              omega
            have := ih (x + 1) _ _ _ bcs2 heq2 hlen1 hB1 i hi2
            omega
    · split at h
      · exact absurd h (by simp)
      · rename_i bcs2 heq2
        injection h with h
        subst h
        intro i hi
        rcases i with _ | i
        · simp
        · simp only [List.getD_cons_succ]
          have hi2 : i < bcs2.length := by
            simp only [List.length_cons] at hi
            omega
          have := ih (x + 1) _ _ _ bcs2 heq2 hlen1 hB1 i hi2
          omega

/-- Top-level form of `pass1Aux_refs_le`: in a full run from node 0 every
stored reference points backwards. -/
theorem pass1_refs_le (W Rmax Lmin k : Nat) (G : List (List Nat)) (bcs : List (Nat × Nat))
    (hc : pass1Aux W Rmax Lmin k G 0 (List.replicate (W + 1) [])
      (List.replicate (W + 1) 0) (List.replicate (W + 1) 0) = Except.ok bcs) :
    ∀ y, refsOf bcs y ≤ y := by
  intro y
  by_cases hy : y < bcs.length
  · have h2 := pass1Aux_refs_le W Rmax Lmin k G 0 _ _ _ bcs hc (by simp)
      (fun r h1 h2 hne => absurd (getD_replicate 0 (W + 1) _) hne) y hy
    simpa [refsOf] using h2
  · have hd : bcs.getD y (0, 0) = (0, 0) := by
      rw [List.getD_eq_default]
      omega
    have hz : refsOf bcs y = 0 := by
      unfold refsOf
      rw [hd]
    omega

/-- Pass 1 maintains the chain-depth bound: from a state whose window slots
bound the depths of the nodes they hold, every node processed from `x` on
gets a transitive reference chain of length at most `R_max`. -/
theorem pass1Aux_depth (W Rmax Lmin k : Nat) (bcs : List (Nat × Nat))
    (href : ∀ y, refsOf bcs y ≤ y) :
    ∀ (rest : List (List Nat)) (x : Nat) (list : List (List Nat)) (listLen : List Nat)
      (refCount : List Int),
      pass1Aux W Rmax Lmin k rest x list listLen refCount = .ok (bcs.drop x) →
      bcs.length = x + rest.length →
      listLen.length = W + 1 → refCount.length = W + 1 →
      (∀ j, 0 ≤ refCount.getD j 0) →
      (∀ r, 1 ≤ r → r < W + 1 → listLen.getD ((x + (W + 1) - r) % (W + 1)) 0 ≠ 0 →
        r ≤ x ∧ ((chainDepth bcs (x - r) : Nat) : Int) ≤
          refCount.getD ((x + (W + 1) - r) % (W + 1)) 0) →
      ∀ y, x ≤ y → y < bcs.length → chainDepth bcs y ≤ Rmax := by
  intro rest
  induction rest with
  | nil =>
    intro x list listLen refCount _ hlen _ _ _ _ y hxy hylen
    simp only [List.length_nil] at hlen
    omega
  | cons S rest ih =>
    intro x list listLen refCount h hlen hL1 hL2 hA hB y hxy hylen
    have hxlt : x < bcs.length := by
      simp only [List.length_cons] at hlen
      omega
    have hcbs : 0 < W + 1 := Nat.succ_pos W
    have hcurr : x % (W + 1) < W + 1 := Nat.mod_lt _ hcbs
    rw [drop_eq_getD_cons (0, 0) bcs x hxlt] at h
    simp only [pass1Aux] at h
    have hlen1 : (listLen.set (x % (W + 1)) S.length).length = W + 1 := by simp [hL1]
    have hlenb : bcs.length = (x + 1) + rest.length := by
      simp only [List.length_cons] at hlen
      omega
    split at h
    · rename_i houtd
      split at h
      · exact absurd h (by simp)
      · rename_i st heq
        split at h
        · exact absurd h (by simp)
        · rename_i bcs2 heq2
          injection h with h
          injection h with hpair hrest
          subst hrest
          have hrefx : refsOf bcs x = st.2.2.toNat := by
            unfold refsOf
            rw [← hpair]
          obtain ⟨hdxle, hvcurr⟩ :
              chainDepth bcs x ≤ Rmax ∧
              ((chainDepth bcs x : Nat) : Int) ≤
                (refCount.set (x % (W + 1)) (-1)).getD st.2.1.toNat 0 + 1 := by
            rcases selectLoop_ok_cases _ _ _ _ x (W + 1) (W + 1) 0 _ st heq with
              hinit | ⟨rr, _, hrr2, hcA, hcB, hs1, hs2⟩
            · have hr0 : refsOf bcs x = 0 := by rw [hrefx, hinit]; decide
              rw [chainDepth_zero bcs x hr0]
              refine ⟨Nat.zero_le _, ?_⟩
              by_cases hc0 : x % (W + 1) = st.2.1.toNat
              · rw [← hc0, getD_set_eq _ _ _ _ (by rw [hL2]; exact hcurr)]
                norm_num
              · rw [getD_set_ne _ _ _ _ _ hc0]
                have := hA st.2.1.toNat
                push_cast
                omega
            · have hs2n : st.2.2.toNat = rr := by rw [hs2]; simp
              have hs1n : st.2.1.toNat = (x + (W + 1) - rr) % (W + 1) := by
                rw [hs1]
                omega
              rcases Nat.eq_zero_or_pos rr with hrr0 | hrrpos
              · subst hrr0
                have hslot : (x + (W + 1) - 0) % (W + 1) = x % (W + 1) := by
                  have he : x + (W + 1) - 0 = x + (W + 1) := by omega
                  rw [he, Nat.add_mod_right]
                have hr0 : refsOf bcs x = 0 := by rw [hrefx, hs2n]
                rw [chainDepth_zero bcs x hr0]
                refine ⟨Nat.zero_le _, ?_⟩
                rw [hs1n, hslot, getD_set_eq _ _ _ _ (by rw [hL2]; exact hcurr)]
                norm_num
              · have hslotne : (x + (W + 1) - rr) % (W + 1) ≠ x % (W + 1) :=
                  slot_ne_curr x rr (W + 1) hrrpos (by omega)
                rw [getD_set_ne _ _ _ _ _ (Ne.symm hslotne)] at hcB
                obtain ⟨hrx, hdep⟩ := hB rr hrrpos (by omega) hcB
                rw [getD_set_ne _ _ _ _ _ (Ne.symm hslotne)] at hcA
                have hrne : refsOf bcs x ≠ 0 := by rw [hrefx, hs2n]; omega
                have hstep := chainDepth_step bcs href x hrne
                have hsub : x - refsOf bcs x = x - rr := by rw [hrefx, hs2n]
                rw [hstep, hsub]
                constructor
                · have hlt : ((chainDepth bcs (x - rr) : Nat) : Int) < (Rmax : Int) :=
                    lt_of_le_of_lt hdep hcA
                  omega
                · rw [hs1n, getD_set_ne _ _ _ _ _ (Ne.symm hslotne)]
                  push_cast
                  push_cast at hdep
                  omega
          have hAnew : ∀ j, (0 : Int) ≤
              ((refCount.set (x % (W + 1)) (-1)).set (x % (W + 1))
                ((refCount.set (x % (W + 1)) (-1)).getD st.2.1.toNat 0 + 1)).getD j 0 := by
            intro j
            by_cases hj : x % (W + 1) = j
            · rw [← hj, getD_set_eq _ _ _ _ (by simp [hL2]; exact hcurr)]
              have hd0 : (0 : Int) ≤ ((chainDepth bcs x : Nat) : Int) := by positivity
              omega
            · rw [getD_set_ne _ _ _ _ _ hj, getD_set_ne _ _ _ _ _ hj]
              exact hA j
          have hBnew : ∀ r, 1 ≤ r → r < W + 1 →
              (listLen.set (x % (W + 1)) S.length).getD
                ((x + 1 + (W + 1) - r) % (W + 1)) 0 ≠ 0 →
              r ≤ x + 1 ∧ ((chainDepth bcs (x + 1 - r) : Nat) : Int) ≤
                ((refCount.set (x % (W + 1)) (-1)).set (x % (W + 1))
                  ((refCount.set (x % (W + 1)) (-1)).getD st.2.1.toNat 0 + 1)).getD
                  ((x + 1 + (W + 1) - r) % (W + 1)) 0 := by
            intro r h1 h2 hne
            rcases Nat.eq_or_lt_of_le h1 with h1e | h1lt
            · have hr1 : r = 1 := h1e.symm
              subst hr1
              have hslot : (x + 1 + (W + 1) - 1) % (W + 1) = x % (W + 1) := by
                have he : x + 1 + (W + 1) - 1 = x + (W + 1) := by omega
                rw [he, Nat.add_mod_right]
              rw [hslot]
              refine ⟨by omega, ?_⟩
              have hx1 : x + 1 - 1 = x := by omega
              rw [hx1, getD_set_eq _ _ _ _ (by simp [hL2]; exact hcurr)]
              exact hvcurr
            · have hslot : (x + 1 + (W + 1) - r) % (W + 1) =
                  (x + (W + 1) - (r - 1)) % (W + 1) := by
                congr 1
                omega
              have hslotne2 : (x + (W + 1) - (r - 1)) % (W + 1) ≠ x % (W + 1) :=
                slot_ne_curr x (r - 1) (W + 1) (by omega) (by omega)
              rw [hslot, getD_set_ne _ _ _ _ _ (Ne.symm hslotne2)] at hne
              obtain ⟨hr1x, hdep1⟩ := hB (r - 1) (by omega) (by omega) hne
              rw [hslot, getD_set_ne _ _ _ _ _ (Ne.symm hslotne2),
                getD_set_ne _ _ _ _ _ (Ne.symm hslotne2)]
              have hxr : x + 1 - r = x - (r - 1) := by omega
              rw [hxr]
              exact ⟨by omega, hdep1⟩
          rcases Nat.eq_or_lt_of_le hxy with hxe | hxlt2
          · exact hxe ▸ hdxle
          · exact ih (x + 1) _ _ _ heq2 hlenb hlen1 (by simp [hL2]) hAnew hBnew y hxlt2 hylen
    · rename_i houtd
      split at h
      · exact absurd h (by simp)
      · rename_i bcs2 heq2
        injection h with h
        injection h with hpair hrest
        subst hrest
        have hr0 : refsOf bcs x = 0 := by
          unfold refsOf
          rw [← hpair]
        have hout0 : S.length = 0 := by omega
        have hBnew : ∀ r, 1 ≤ r → r < W + 1 →
            (listLen.set (x % (W + 1)) S.length).getD
              ((x + 1 + (W + 1) - r) % (W + 1)) 0 ≠ 0 →
            r ≤ x + 1 ∧ ((chainDepth bcs (x + 1 - r) : Nat) : Int) ≤
              refCount.getD ((x + 1 + (W + 1) - r) % (W + 1)) 0 := by
          intro r h1 h2 hne
          rcases Nat.eq_or_lt_of_le h1 with h1e | h1lt
          · exfalso
            have hr1 : r = 1 := h1e.symm
            subst hr1
            have hslot : (x + 1 + (W + 1) - 1) % (W + 1) = x % (W + 1) := by
              have he : x + 1 + (W + 1) - 1 = x + (W + 1) := by omega
              rw [he, Nat.add_mod_right]
            rw [hslot, getD_set_eq _ _ _ _ (by rw [hL1]; exact hcurr)] at hne
            exact hne hout0
          · have hslot : (x + 1 + (W + 1) - r) % (W + 1) =
                (x + (W + 1) - (r - 1)) % (W + 1) := by
              congr 1
              omega
            have hslotne2 : (x + (W + 1) - (r - 1)) % (W + 1) ≠ x % (W + 1) :=
              slot_ne_curr x (r - 1) (W + 1) (by omega) (by omega)
            rw [hslot, getD_set_ne _ _ _ _ _ (Ne.symm hslotne2)] at hne
            obtain ⟨hr1x, hdep1⟩ := hB (r - 1) (by omega) (by omega) hne
            rw [hslot]
            have hxr : x + 1 - r = x - (r - 1) := by omega
            rw [hxr]
            exact ⟨by omega, hdep1⟩
        rcases Nat.eq_or_lt_of_le hxy with hxe | hxlt2
        · have hd0 : chainDepth bcs x = 0 := chainDepth_zero bcs x hr0
          have : chainDepth bcs x ≤ Rmax := by rw [hd0]; exact Nat.zero_le Rmax
          exact hxe ▸ this
        · exact ih (x + 1) _ _ _ heq2 hlenb hlen1 hL2 hA hBnew y hxlt2 hylen

/-- **C5**: reference depth bound. For every best-candidate table produced by
pass 1 of `compress`, every stored reference points strictly backwards, a
referenced node's chain depth is one more than its target's
(`ref_count[x] = ref_count[cand] + 1`, `0` for `r = 0`), and every node's
transitive reference chain (following the chosen references until a node
encoded with `r = 0`) has length at most `R_max`. -/
theorem C5_reference_depth (W Rmax Lmin k : Nat) (G : List (List Nat))
    (bcs : List (Nat × Nat))
    (hc : pass1Aux W Rmax Lmin k G 0 (List.replicate (W + 1) [])
      (List.replicate (W + 1) 0) (List.replicate (W + 1) 0) = Except.ok bcs) :
    (∀ y, refsOf bcs y ≤ y) ∧
    (∀ y, refsOf bcs y ≠ 0 → chainDepth bcs y = chainDepth bcs (y - refsOf bcs y) + 1) ∧
    (∀ y, y < G.length → chainDepth bcs y ≤ Rmax) := by
  have href := pass1_refs_le W Rmax Lmin k G bcs hc
  have hblen : bcs.length = G.length := pass1Aux_length W Rmax Lmin k G 0 _ _ _ bcs hc
  refine ⟨href, fun y hy => chainDepth_step bcs href y hy, ?_⟩
  intro y hylen
  exact pass1Aux_depth W Rmax Lmin k bcs href G 0 _ _ _ (by simpa using hc)
    (by rw [hblen]; omega) (by simp) (by simp)
    (fun j => by simp [getD_replicate])
    (fun r h1 h2 hne => absurd (getD_replicate 0 (W + 1) _) hne)
    y (Nat.zero_le y) (by rw [hblen]; exact hylen)

theorem C5_reference_depth_witness :
    (∀ y, refsOf [(0, 0), (0, 1), (1, 1)] y ≤ y) ∧
    (∀ y, refsOf [(0, 0), (0, 1), (1, 1)] y ≠ 0 →
      chainDepth [(0, 0), (0, 1), (1, 1)] y =
        chainDepth [(0, 0), (0, 1), (1, 1)] (y - refsOf [(0, 0), (0, 1), (1, 1)] y) + 1) ∧
    (∀ y, y < ([[1, 2, 3, 4], [1, 2, 3, 4], [1, 2, 3, 4]] : List (List Nat)).length →
      chainDepth [(0, 0), (0, 1), (1, 1)] y ≤ 3) :=
  C5_reference_depth 3 3 2 3 [[1, 2, 3, 4], [1, 2, 3, 4], [1, 2, 3, 4]]
    [(0, 0), (0, 1), (1, 1)]
    (by
      have el00 : diffCompLen 3 2 3 0 0 [1, 2, 3, 4] [1, 2, 3, 4] = Except.ok 10 := by
        simp [diffCompLen, diffBlocksExtras, diffLoop, writeReference, unaryLen, gammaLen,
          intervalize, runLen, residualLens, residualLensRest, zetaLen, int2nat, Nat.log2,
          intervalLens, intervalLensRest, blockLens, blockLensRest]
      have el10 : diffCompLen 3 2 3 1 0 [1, 2, 3, 4] [1, 2, 3, 4] = Except.ok 8 := by
        simp [diffCompLen, diffBlocksExtras, diffLoop, writeReference, unaryLen, gammaLen,
          intervalize, runLen, residualLens, residualLensRest, zetaLen, int2nat, Nat.log2,
          intervalLens, intervalLensRest, blockLens, blockLensRest]
      have el11 : diffCompLen 3 2 3 1 1 [1, 2, 3, 4] [1, 2, 3, 4] = Except.ok 3 := by
        simp [diffCompLen, diffBlocksExtras, diffLoop, writeReference, unaryLen, gammaLen,
          intervalize, runLen, residualLens, residualLensRest, zetaLen, int2nat, Nat.log2,
          intervalLens, intervalLensRest, blockLens, blockLensRest]
      have el20 : diffCompLen 3 2 3 2 0 [1, 2, 3, 4] [1, 2, 3, 4] = Except.ok 10 := by
        simp [diffCompLen, diffBlocksExtras, diffLoop, writeReference, unaryLen, gammaLen,
          intervalize, runLen, residualLens, residualLensRest, zetaLen, int2nat, Nat.log2,
          intervalLens, intervalLensRest, blockLens, blockLensRest]
      have el21 : diffCompLen 3 2 3 2 1 [1, 2, 3, 4] [1, 2, 3, 4] = Except.ok 3 := by
        simp [diffCompLen, diffBlocksExtras, diffLoop, writeReference, unaryLen, gammaLen,
          intervalize, runLen, residualLens, residualLensRest, zetaLen, int2nat, Nat.log2,
          intervalLens, intervalLensRest, blockLens, blockLensRest]
      have el22 : diffCompLen 3 2 3 2 2 [1, 2, 3, 4] [1, 2, 3, 4] = Except.ok 4 := by
        simp [diffCompLen, diffBlocksExtras, diffLoop, writeReference, unaryLen, gammaLen,
          intervalize, runLen, residualLens, residualLensRest, zetaLen, int2nat, Nat.log2,
          intervalLens, intervalLensRest, blockLens, blockLensRest]
      have hp1 : pass1Aux 3 3 2 3 [[1, 2, 3, 4], [1, 2, 3, 4], [1, 2, 3, 4]] 0
          [[], [], [], []] [0, 0, 0, 0] [0, 0, 0, 0] =
          Except.ok [(0, 0), (0, 1), (1, 1)] := by
        simp [pass1Aux, selectLoop, el00, el10, el11, el20, el21, el22, I64MAX]
      simpa [List.replicate] using hp1)

/-! ## Cache transparency (C9) -/

/-- The `cached_node`/`cached_outdegree`/`cached_ptr` cells (random-access
mode). -/
structure Cache where
  node : Option Nat
  outdeg : Option Nat
  ptr : Option Nat

/-- `outdegree_internal` (lines 772–792): a cache hit returns the cached
outdegree (`unwrap` modelled as `none` on a missing value); a miss positions
the reader at `offsets[x]` (an out-of-range index panics, modelled as
`none`), reads the degree and refills all three cells. -/
def outdegreeInternal (d : List Token) (offsets : List Nat) (x : Nat) (c : Cache) :
    Option (Nat × Cache) :=
  if c.node = some x then
    match c.outdeg with
    | some v => some (v, c)
    | none => none
  else
    match offsets.get? x with
    | none => none
    | some pos =>
      let deg := readTok d pos
      some (deg, ⟨some x, some deg, some (pos + 1)⟩)

/-- `outdegree` (lines 156–179): the cache is consulted *before* the range
check; a miss on `x ≥ n` returns `None`, otherwise the degree is read at
`offsets[x]` and the cells refilled. -/
def outdegreeM (d : List Token) (offsets : List Nat) (n x : Nat) (c : Cache) :
    Option Nat × Cache :=
  if c.node = some x then (c.outdeg, c)
  else if n ≤ x then (none, c)
  else
    match offsets.get? x with
    | none => (none, c)
    | some pos =>
      let deg := readTok d pos
      (some deg, ⟨some x, some deg, some (pos + 1)⟩)

/-- The interval/residual part of a record (lines 867–985), from the extra
count and the read position to the merged extra list (random-access mode
reads the same token layout as the sequential mode). -/
def extrasPart (d : List Token) (Lmin x extraCount pos3 : Nat) : List Int :=
  let intpos : Nat × List Int × List Nat × Nat :=
    if extraCount ≠ 0 ∧ Lmin ≠ 0 then
      let ic := readTok d pos3
      let r := readIntervals d Lmin x ic (pos3 + 1)
      (ic, r.1, r.2.1, r.2.2)
    else (0, [], [], pos3)
  let ic := intpos.1
  let lefts := intpos.2.1
  let lens := intpos.2.2.1
  let pos4 := intpos.2.2.2
  let extraCount2 := extraCount - lens.sum
  let residuals := (if extraCount2 ≠ 0 then readResiduals d x extraCount2 pos4
    else ([], pos4)).1
  if ic ≠ 0 then
    if extraCount2 ≠ 0 then mergeLE residuals (expandIntervalsInt (lefts.zip lens))
    else expandIntervalsInt (lefts.zip lens)
  else residuals

/-- The reference read of `decode_list` (lines 816–820): `(reference, next
position)`, reading one token when the window is non-trivial. -/
def refposN (d : List Token) (W pos1 : Nat) : Int × Nat :=
  if 0 < W then ((readTok d pos1 : Int), pos1 + 1) else (-1, pos1)

/-- The block read of `decode_list` (lines 829–851): `(blocks, next
position)`, reading them only for a positive reference. -/
def blockposN (d : List Token) (reference : Int) (pos2 : Nat) : List Nat × Nat :=
  if 0 < reference then readBlocksFrom d (readTok d pos2) (pos2 + 1) 0 else ([], pos2)

/-- The implicit-trailing-copy outdegree fetch of `decode_list` in
random-access mode (lines 853–860): for a positive reference with an even
block count the reference's outdegree is read through `outdegree_internal`
(a negative target, whose `usize` cast would panic on indexing, is `none`);
otherwise the value is unused (`0`) and the cache untouched. -/
def refOutdN (d : List Token) (offsets : List Nat) (x : Nat) (reference : Int)
    (blocks : List Nat) (c1 : Cache) : Option (Nat × Cache) :=
  if 0 < reference then
    if (x : Int) - reference < 0 then none
    else if blocks.length % 2 = 0 then
      outdegreeInternal d offsets ((x : Int) - reference).toNat c1
    else some (0, c1)
  else some (0, c1)

/-- `decode_list` in random-access mode (`window = None`, lines 795–1081):
the degree comes from `outdegree_internal`, the reader is positioned at
`cached_ptr`, the implicit trailing copy reads the reference's outdegree via
`outdegree_internal`, and the reference list is decoded by a recursive
random-access call. The fuel bounds the reference recursion. -/
def decodeListNone (d : List Token) (offsets : List Nat) (W Lmin : Nat) :
    Nat → Nat → Cache → Option (List Nat × Cache)
  | 0, _, _ => none
  | fuel + 1, x, c =>
    match outdegreeInternal d offsets x c with
    | none => none
    | some dc =>
      match dc.2.ptr with
      | none => none
      | some pos1 =>
        if dc.1 = 0 then some ([], dc.2)
        else
          match refOutdN d offsets x (refposN d W pos1).1
              (blockposN d (refposN d W pos1).1 (refposN d W pos1).2).1 dc.2 with
          | none => none
          | some oc =>
            if 0 < (refposN d W pos1).1 then
              if (x : Int) - (refposN d W pos1).1 < 0 then none
              else
                match decodeListNone d offsets W Lmin fuel
                    ((x : Int) - (refposN d W pos1).1).toNat oc.2 with
                | none => none
                | some rl =>
                  if extrasPart d Lmin x
                      (dc.1 - copiedCount
                        (blockposN d (refposN d W pos1).1 (refposN d W pos1).2).1 oc.1)
                      (blockposN d (refposN d W pos1).1 (refposN d W pos1).2).2 = [] then
                    some (maskSelect
                      (blockposN d (refposN d W pos1).1 (refposN d W pos1).2).1 rl.1, rl.2)
                  else
                    some (mergeLT
                      (maskSelect
                        (blockposN d (refposN d W pos1).1 (refposN d W pos1).2).1 rl.1)
                      ((extrasPart d Lmin x
                        (dc.1 - copiedCount
                          (blockposN d (refposN d W pos1).1 (refposN d W pos1).2).1 oc.1)
                        (blockposN d (refposN d W pos1).1 (refposN d W pos1).2).2).map
                        Int.toNat), rl.2)
            else
              some ((extrasPart d Lmin x dc.1
                (blockposN d (refposN d W pos1).1 (refposN d W pos1).2).2).map
                Int.toNat, oc.2)

/-- `successors` (lines 185–196): asserts `x < n` (modelled as `none`) and
decodes in random-access mode. -/
def successorsM (d : List Token) (offsets : List Nat) (W Lmin n x : Nat) (c : Cache) :
    Option (List Nat × Cache) :=
  if x < n then decodeListNone d offsets W Lmin (x + 1) x c else none

/-- A cache state is valid when its cells, if filled, record exactly the
outdegree read at `offsets[cached_node]` and the position right after it —
the invariant every cache produced by earlier `outdegree`/`successors` calls
satisfies. -/
def CacheValid (d : List Token) (offsets : List Nat) (c : Cache) : Prop :=
  ∀ cn, c.node = some cn → cn < offsets.length ∧
    c.outdeg = some (readTok d (offsets.getD cn 0)) ∧
    c.ptr = some (offsets.getD cn 0 + 1)

theorem getElem?_eq_some_getD (l : List Nat) (x : Nat) (h : x < l.length) :
    l[x]? = some (l.getD x 0) := by
  rw [List.getD_eq_getElem l 0 h]
  exact List.getElem?_eq_getElem h

theorem get?_eq_some_getD (l : List Nat) (x : Nat) (h : x < l.length) :
    l.get? x = some (l.getD x 0) := by
  rw [List.get?_eq_getElem?]
  exact getElem?_eq_some_getD l x h

/-- On a valid cache, `outdegree_internal` is a pure function of the streams:
hit or miss, it returns the degree read at `offsets[x]` and leaves the cache
in the same canonical filled state. -/
theorem outdegreeInternal_spec (d : List Token) (offsets : List Nat) (x : Nat) (c : Cache)
    (hv : CacheValid d offsets c) :
    outdegreeInternal d offsets x c =
      if x < offsets.length then
        some (readTok d (offsets.getD x 0),
          ⟨some x, some (readTok d (offsets.getD x 0)), some (offsets.getD x 0 + 1)⟩)
      else none := by
  obtain ⟨cn, co, cp⟩ := c
  by_cases hc : cn = some x
  · obtain ⟨hlt, hod, hptr⟩ := hv x (by simpa using hc)
    simp only at hod hptr
    subst hc
    subst hod
    subst hptr
    unfold outdegreeInternal
    dsimp only
    rw [if_pos rfl, if_pos hlt]
  · unfold outdegreeInternal
    dsimp only
    rw [if_neg hc]
    by_cases hx : x < offsets.length
    · rw [get?_eq_some_getD offsets x hx, if_pos hx]
    · have hnone : offsets.get? x = none := by
        rw [List.get?_eq_getElem?]
        exact List.getElem?_eq_none (by omega)
      rw [hnone, if_neg hx]

/-- The canonical filled cache is valid. -/
theorem cacheValid_canonical (d : List Token) (offsets : List Nat) (x : Nat)
    (hx : x < offsets.length) :
    CacheValid d offsets
      ⟨some x, some (readTok d (offsets.getD x 0)), some (offsets.getD x 0 + 1)⟩ := by
  intro cn hcn
  simp only at hcn
  injection hcn with hcn
  subst hcn
  exact ⟨hx, rfl, rfl⟩

/-- Random-access decoding is independent of the starting cache: two valid
cache states yield literally the same result (list and final cache). -/
theorem decodeListNone_cache_indep (d : List Token) (offsets : List Nat) (W Lmin : Nat) :
    ∀ (fuel x : Nat) (c1 c2 : Cache), CacheValid d offsets c1 → CacheValid d offsets c2 →
      decodeListNone d offsets W Lmin fuel x c1 = decodeListNone d offsets W Lmin fuel x c2 := by
  intro fuel x c1 c2 hv1 hv2
  rcases fuel with _ | fuel
  · rfl
  · rw [decodeListNone, decodeListNone,
      outdegreeInternal_spec d offsets x c1 hv1, outdegreeInternal_spec d offsets x c2 hv2]

/-- A successful `outdegree_internal` call leaves a valid cache. -/
theorem outdegreeInternal_valid (d : List Token) (offsets : List Nat) (x : Nat) (c : Cache)
    (hv : CacheValid d offsets c) (p : Nat × Cache)
    (h : outdegreeInternal d offsets x c = some p) : CacheValid d offsets p.2 := by
  rw [outdegreeInternal_spec d offsets x c hv] at h
  split at h
  · injection h with h
    rw [← h]
    exact cacheValid_canonical d offsets x (by assumption)
  · exact absurd h (by simp)

/-- A successful trailing-copy outdegree fetch leaves a valid cache. -/
theorem refOutdN_valid (d : List Token) (offsets : List Nat) (x : Nat) (reference : Int)
    (blocks : List Nat) (c1 : Cache) (hv : CacheValid d offsets c1) (oc : Nat × Cache)
    (h : refOutdN d offsets x reference blocks c1 = some oc) : CacheValid d offsets oc.2 := by
  unfold refOutdN at h
  split at h
  · split at h
    · exact absurd h (by simp)
    · split at h
      · exact outdegreeInternal_valid d offsets _ c1 hv oc h
      · injection h with h
        rw [← h]
        exact hv
  · injection h with h
    rw [← h]
    exact hv

/-- Random-access decoding preserves cache validity. -/
theorem decodeListNone_cache_valid (d : List Token) (offsets : List Nat) (W Lmin : Nat) :
    ∀ (fuel x : Nat) (c : Cache) (l : List Nat) (c' : Cache), CacheValid d offsets c →
      decodeListNone d offsets W Lmin fuel x c = some (l, c') →
      CacheValid d offsets c' := by
  intro fuel
  induction fuel with
  | zero =>
    intro x c l c' _ h
    exact absurd h (by simp [decodeListNone])
  | succ n ih =>
    intro x c l c' hv h
    rw [decodeListNone] at h
    split at h
    · exact absurd h (by simp)
    · rename_i dc hdc
      have hvdc : CacheValid d offsets dc.2 :=
        outdegreeInternal_valid d offsets x c hv dc hdc
      split at h
      · exact absurd h (by simp)
      · split at h
        · injection h with h
          injection h with h1 h2
          rw [← h2]
          exact hvdc
        · split at h
          · exact absurd h (by simp)
          · rename_i oc hoc
            have hvoc : CacheValid d offsets oc.2 :=
              refOutdN_valid d offsets x _ _ dc.2 hvdc oc hoc
            split at h
            · split at h
              · exact absurd h (by simp)
              · split at h
                · exact absurd h (by simp)
                · rename_i rl hrl
                  have hvrl : CacheValid d offsets rl.2 := by
                    rcases rl with ⟨rlist, rc⟩
                    exact ih _ _ rlist rc hvoc hrl
                  split at h
                  · injection h with h
                    injection h with h1 h2
                    rw [← h2]
                    exact hvrl
                  · injection h with h
                    injection h with h1 h2
                    rw [← h2]
                    exact hvrl
            · injection h with h
              injection h with h1 h2
              rw [← h2]
              exact hvoc

/-- **C9**: cache transparency. The results of `outdegree(x)` and
`successors(x)` do not depend on the prior contents of the
`cached_node`/`cached_outdegree`/`cached_ptr` cells as produced by earlier
calls (any valid cache state): two runs that differ only in cache state
return equal results, the cache stays valid, and repeated `successors(x)`
calls return equal lists. -/
theorem C9_cache_transparency (d : List Token) (offsets : List Nat) (W Lmin n x : Nat)
    (c1 c2 : Cache) (hv1 : CacheValid d offsets c1) (hv2 : CacheValid d offsets c2)
    (hn : offsets.length = n) :
    ((outdegreeM d offsets n x c1).1 = (outdegreeM d offsets n x c2).1) ∧
    (successorsM d offsets W Lmin n x c1 = successorsM d offsets W Lmin n x c2) ∧
    (∀ l c', successorsM d offsets W Lmin n x c1 = some (l, c') →
      CacheValid d offsets c' ∧
      (successorsM d offsets W Lmin n x c').map Prod.fst = some l) := by
  have houtd : ∀ c, CacheValid d offsets c →
      (outdegreeM d offsets n x c).1 =
        if x < n then some (readTok d (offsets.getD x 0)) else none := by
    intro c hv
    obtain ⟨cn, co, cp⟩ := c
    by_cases hc : cn = some x
    · obtain ⟨hlt, hod, hptr⟩ := hv x (by simpa using hc)
      simp only at hod hptr
      subst hc
      subst hod
      subst hptr
      unfold outdegreeM
      dsimp only
      rw [if_pos rfl, if_pos (show x < n by omega)]
    · unfold outdegreeM
      dsimp only
      rw [if_neg hc]
      by_cases hx : x < n
      · rw [if_neg (show ¬ n ≤ x by omega),
          get?_eq_some_getD offsets x (by omega), if_pos hx]
      · rw [if_pos (show n ≤ x by omega), if_neg hx]
  have hsucc : ∀ ca cb, CacheValid d offsets ca → CacheValid d offsets cb →
      successorsM d offsets W Lmin n x ca = successorsM d offsets W Lmin n x cb := by
    intro ca cb hva hvb
    unfold successorsM
    split
    · exact decodeListNone_cache_indep d offsets W Lmin (x + 1) x ca cb hva hvb
    · rfl
  refine ⟨by rw [houtd c1 hv1, houtd c2 hv2], hsucc c1 c2 hv1 hv2, ?_⟩
  intro l c' hrun
  have hvc' : CacheValid d offsets c' := by
    unfold successorsM at hrun
    split at hrun
    · exact decodeListNone_cache_valid d offsets W Lmin (x + 1) x c1 l c' hv1 hrun
    · exact absurd hrun (by simp)
  refine ⟨hvc', ?_⟩
  rw [hsucc c' c1 hvc' hv1, hrun]
  rfl

theorem C9_cache_transparency_witness :
    ((outdegreeM [Token.mk (TokenKind.huff 0) 0] [0] 1 0 ⟨none, none, none⟩).1 =
      (outdegreeM [Token.mk (TokenKind.huff 0) 0] [0] 1 0 ⟨some 0, some 0, some 1⟩).1) ∧
    (successorsM [Token.mk (TokenKind.huff 0) 0] [0] 3 2 1 0 ⟨none, none, none⟩ =
      successorsM [Token.mk (TokenKind.huff 0) 0] [0] 3 2 1 0 ⟨some 0, some 0, some 1⟩) ∧
    (∀ l c', successorsM [Token.mk (TokenKind.huff 0) 0] [0] 3 2 1 0 ⟨none, none, none⟩ =
        some (l, c') →
      CacheValid [Token.mk (TokenKind.huff 0) 0] [0] c' ∧
      (successorsM [Token.mk (TokenKind.huff 0) 0] [0] 3 2 1 0 c').map Prod.fst = some l) :=
  C9_cache_transparency [Token.mk (TokenKind.huff 0) 0] [0] 3 2 1 0
    ⟨none, none, none⟩ ⟨some 0, some 0, some 1⟩
    (by intro cn h; exact absurd h (by simp))
    (cacheValid_canonical [Token.mk (TokenKind.huff 0) 0] [0] 0 (by decide))
    rfl

/-! ## Context coverage: `add_vals` vs the Huffman emission (C8) -/

/-- One block-length push of `add_vals` (lines 1648–1656, 1686–1694,
1704–1712): the first into context slot 0 as-is, later ones decremented into
slot 1 (`is_even_block`) or slot 2. -/
def blockPair (isFirst isEven : Bool) (cbl : Nat) : Nat × Nat :=
  if isFirst then (BLOCKS_IDX_BEGIN, cbl)
  else if isEven then (BLOCKS_IDX_BEGIN + 1, cbl - 1)
  else (BLOCKS_IDX_BEGIN + 2, cbl - 1)

/-- The merge loop of `add_vals` (lines 1645–1722) with its `is_first` and
`is_even_block` flags: returns the pushed `(context, value)` block pairs and
the extras. -/
def addLoop : List Nat → List Nat → Bool → Nat → Bool → Bool → List (Nat × Nat) × List Nat
  | [], rl, copying, cbl, isFirst, isEven =>
    (if copying ∧ rl ≠ [] then [blockPair isFirst isEven cbl] else [], [])
  | c :: cl, [], _, _, _, _ => ([], c :: cl)
  | c :: cl, r :: rl, true, cbl, isFirst, isEven =>
    if _h : r < c then
      let rest := addLoop (c :: cl) (r :: rl) false 0 false (!isEven)
      (blockPair isFirst isEven cbl :: rest.1, rest.2)
    else if _h2 : c < r then
      let rest := addLoop cl (r :: rl) true cbl isFirst isEven
      (rest.1, c :: rest.2)
    else addLoop cl rl true (cbl + 1) isFirst isEven
  | c :: cl, r :: rl, false, cbl, isFirst, isEven =>
    if _h : c < r then
      let rest := addLoop cl (r :: rl) false cbl isFirst isEven
      (rest.1, c :: rest.2)
    else if _h2 : r < c then addLoop (c :: cl) rl false (cbl + 1) isFirst isEven
    else
      let rest := addLoop (c :: cl) (r :: rl) true 0 false (!isEven)
      (blockPair isFirst isEven cbl :: rest.1, rest.2)
  termination_by cl rl copying _ _ _ => 2 * (cl.length + rl.length) + diffPhase cl rl copying
  decreasing_by
  · have hne : ¬ c = r := by omega
    simp [diffPhase, _h, hne]
  · have := diffPhase_le_one cl (r :: rl) true
    simp only [List.length_cons]
    omega
  · have := diffPhase_le_one cl rl true
    simp only [List.length_cons]
    omega
  · have := diffPhase_le_one cl (r :: rl) false
    simp only [List.length_cons]
    omega
  · have := diffPhase_le_one (c :: cl) rl false
    simp only [List.length_cons]
    omega
  · have hc : c = r := by omega
    have hnlt : ¬ r < c := by omega
    simp [diffPhase, hc, hnlt]

/-- The block pairs obtained by pushing a block list under the flag
discipline of `add_vals`. -/
def pairsFrom : Bool → Bool → List Nat → List (Nat × Nat)
  | _, _, [] => []
  | isFirst, isEven, b :: bs => blockPair isFirst isEven b :: pairsFrom false (!isEven) bs

/-- The interval pushes of `add_vals` after the first (lines 1744–1779). -/
def valsIntervalPairsRest (Lmin : Nat) : List (Nat × Nat) → Nat → Nat → Nat →
    List (Nat × Nat)
  | [], _, _, _ => []
  | (a, m) :: rest, prev, lastLeft, lastLen =>
    (INTERVALS_LEFT_IDX_BEGIN + (1 + min (zuckBucket lastLeft) 30), a - prev - 1) ::
      (INTERVALS_LEN_IDX_BEGIN + (1 + min (zuckBucket lastLen) 30), m - Lmin) ::
      valsIntervalPairsRest Lmin rest (a + m) (a - prev - 1) (m - Lmin)

/-- The interval pushes of `add_vals` (lines 1731–1779). -/
def valsIntervalPairs (Lmin x : Nat) : List (Nat × Nat) → List (Nat × Nat)
  | [] => []
  | (a, m) :: rest =>
    (INTERVALS_LEFT_IDX_BEGIN, int2nat ((a : Int) - (x : Int))) ::
      (INTERVALS_LEN_IDX_BEGIN, m - Lmin) ::
      valsIntervalPairsRest Lmin rest (a + m) (int2nat ((a : Int) - (x : Int))) (m - Lmin)

/-- The residual pushes of `add_vals` after the first (lines 1795–1801; the
repeated-successor condition is only a debug assertion here). -/
def valsResidualPairsRest : List Nat → Nat → Nat → List (Nat × Nat)
  | [], _, _ => []
  | r :: rest, prev, prevRes =>
    (RESIDUALS_IDX_BEGIN + (32 + min (zuckBucket prevRes) 79), r - prev - 1) ::
      valsResidualPairsRest rest r (r - prev - 1)

/-- The residual pushes of `add_vals` (lines 1787–1801). -/
def valsResidualPairs (x : Nat) : List Nat → List (Nat × Nat)
  | [] => []
  | r :: rest =>
    (RESIDUALS_IDX_BEGIN + min (zuckBucket (rest.length + 1)) 31,
      int2nat ((r : Int) - (x : Int))) ::
      valsResidualPairsRest rest r (int2nat ((r : Int) - (x : Int)))

/-- `add_vals` (lines 1614–1802) as the ordered list of `(context, value)`
pushes into the 211 histograms: the block pairs from the merge loop, then —
when there are extras — the interval pairs and residual pairs. -/
def addValsPairs (Lmin x reference : Nat) (refList currList : List Nat) :
    List (Nat × Nat) :=
  let be := addLoop currList (if reference = 0 then [] else refList) true 0 true true
  if be.2.length > 0 then
    if Lmin ≠ 0 then
      let r := intervalize Lmin be.2
      be.1 ++ valsIntervalPairs Lmin x (r.1.zip r.2.1) ++ valsResidualPairs x r.2.2
    else be.1 ++ valsResidualPairs x be.2
  else be.1

/-- The `(context, value)` pairs a token stream feeds to the Huffman coder
(universal-coded tokens carry no context). -/
def huffPairs (toks : List Token) : List (Nat × Nat) :=
  toks.filterMap (fun t => match t.kind with
    | TokenKind.huff ctx => some (ctx, t.val)
    | TokenKind.uni => none)

/-- The merge loop of `add_vals` pushes exactly the blocks of `diff_comp`'s
merge loop, under the flag discipline, and collects the same extras. -/
theorem addLoop_diffLoop :
    ∀ (cl rl : List Nat) (copying : Bool) (cbl : Nat) (isFirst isEven : Bool),
      (addLoop cl rl copying cbl isFirst isEven).1 =
        pairsFrom isFirst isEven (diffLoop cl rl copying cbl).1 ∧
      (addLoop cl rl copying cbl isFirst isEven).2 = (diffLoop cl rl copying cbl).2 := by
  intro cl rl copying cbl isFirst isEven
  induction cl, rl, copying, cbl, isFirst, isEven using addLoop.induct with
  | case1 rl copying cbl isFirst isEven =>
    rw [addLoop, diffLoop]
    by_cases h : copying = true ∧ rl ≠ []
    · rw [if_pos h, if_pos h]
      simp [pairsFrom]
    · rw [if_neg h, if_neg h]
      simp [pairsFrom]
  | case2 c cl copying cbl isFirst isEven =>
    rw [addLoop, diffLoop]
    simp [pairsFrom]
  | case3 c cl r rl cbl isFirst isEven h ih =>
    rw [addLoop, diffLoop]
    simp only [dif_pos h]
    exact ⟨by rw [pairsFrom, ih.1], ih.2⟩
  | case4 c cl r rl cbl isFirst isEven h h2 ih =>
    rw [addLoop, diffLoop]
    simp only [dif_neg h, dif_pos h2]
    exact ⟨ih.1, by rw [ih.2]⟩
  | case5 c cl r rl cbl isFirst isEven h h2 ih =>
    rw [addLoop, diffLoop]
    simp only [dif_neg h, dif_neg h2]
    exact ih
  | case6 c cl r rl cbl isFirst isEven h ih =>
    rw [addLoop, diffLoop]
    simp only [dif_pos h]
    exact ⟨ih.1, by rw [ih.2]⟩
  | case7 c cl r rl cbl isFirst isEven h h2 ih =>
    rw [addLoop, diffLoop]
    simp only [dif_neg h, dif_pos h2]
    exact ih
  | case8 c cl r rl cbl isFirst isEven h h2 ih =>
    rw [addLoop, diffLoop]
    simp only [dif_neg h, dif_neg h2]
    exact ⟨by rw [pairsFrom, ih.1], ih.2⟩

theorem parity_flip (i : Nat) : (!decide (i % 2 = 0)) = decide ((i + 1) % 2 = 0) := by
  rcases Nat.mod_two_eq_zero_or_one i with h | h <;> simp [h, Nat.add_mod]

theorem huffPairs_huff_cons (c v : Nat) (ts : List Token) :
    huffPairs (Token.mk (TokenKind.huff c) v :: ts) = (c, v) :: huffPairs ts := by
  simp [huffPairs]

/-- The later copy blocks feed the Huffman coder exactly as the flag
discipline pushes them. -/
theorem huffPairs_blockTokensRest :
    ∀ (bs : List Nat) (i : Nat),
      huffPairs (blockTokensRest i bs) = pairsFrom false (decide (i % 2 = 0)) bs := by
  intro bs
  induction bs with
  | nil => intro i; rfl
  | cons b bs ih =>
    intro i
    rw [blockTokensRest, pairsFrom, huffPairs_huff_cons, ih (i + 1), ← parity_flip i]
    rcases Nat.mod_two_eq_zero_or_one i with h | h <;> simp [h, blockPair]

/-- The copy blocks feed the Huffman coder exactly as `add_vals` pushes
them. -/
theorem huffPairs_blockTokens (bs : List Nat) :
    huffPairs (blockTokens bs) = pairsFrom true true bs := by
  rcases bs with _ | ⟨b, rest⟩
  · rfl
  · rw [blockTokens, pairsFrom, huffPairs_huff_cons, huffPairs_blockTokensRest rest 1]
    simp [blockPair]

/-- The later intervals feed the Huffman coder exactly as `add_vals` pushes
them. -/
theorem huffPairs_intervalTokensRest (Lmin : Nat) :
    ∀ (l : List (Nat × Nat)) (prev lastLeft lastLen : Nat),
      huffPairs (intervalTokensRest Lmin l prev lastLeft lastLen) =
        valsIntervalPairsRest Lmin l prev lastLeft lastLen := by
  intro l
  induction l with
  | nil => intro prev lastLeft lastLen; rfl
  | cons p rest ih =>
    intro prev lastLeft lastLen
    rcases p with ⟨a, m⟩
    rw [intervalTokensRest, valsIntervalPairsRest, huffPairs_huff_cons, huffPairs_huff_cons,
      ih (a + m) (a - prev - 1) (m - Lmin)]

/-- The intervals feed the Huffman coder exactly as `add_vals` pushes
them. -/
theorem huffPairs_intervalTokens (Lmin x : Nat) (l : List (Nat × Nat)) :
    huffPairs (intervalTokens Lmin x l) = valsIntervalPairs Lmin x l := by
  rcases l with _ | ⟨⟨a, m⟩, rest⟩
  · rfl
  · rw [intervalTokens, valsIntervalPairs, huffPairs_huff_cons, huffPairs_huff_cons,
      huffPairs_intervalTokensRest Lmin rest (a + m) (int2nat ((a : Int) - (x : Int)))
        (m - Lmin)]

/-- The later residuals feed the Huffman coder exactly as `add_vals` pushes
them. -/
theorem huffPairs_residualTokensRest :
    ∀ (l : List Nat) (prev prevRes : Nat) (ts : List Token),
      residualTokensRest l prev prevRes = .ok ts →
      huffPairs ts = valsResidualPairsRest l prev prevRes := by
  intro l
  induction l with
  | nil =>
    intro prev prevRes ts h
    rw [residualTokensRest] at h
    injection h with h
    rw [← h]
    rfl
  | cons r rest ih =>
    intro prev prevRes ts h
    rw [residualTokensRest] at h
    by_cases hrp : r = prev
    · rw [if_pos hrp] at h
      exact absurd h (by simp)
    · rw [if_neg hrp] at h
      rcases hm : residualTokensRest rest r (r - prev - 1) with e2 | ts2
      · rw [hm] at h
        exact absurd h (by simp)
      · rw [hm] at h
        injection h with h
        rw [← h, valsResidualPairsRest, huffPairs_huff_cons, ih r (r - prev - 1) ts2 hm]

/-- The residuals feed the Huffman coder exactly as `add_vals` pushes
them. -/
theorem huffPairs_residualTokens (x : Nat) (l : List Nat) (ts : List Token)
    (h : residualTokens x l = .ok ts) :
    huffPairs ts = valsResidualPairs x l := by
  rcases l with _ | ⟨r, rest⟩
  · rw [residualTokens] at h
    injection h with h
    rw [← h]
    rfl
  · rw [residualTokens] at h
    rcases hm : residualTokensRest rest r (int2nat ((r : Int) - (x : Int))) with e2 | ts2
    · rw [hm] at h
      exact absurd h (by simp)
    · rw [hm] at h
      injection h with h
      rw [← h, valsResidualPairs, huffPairs_huff_cons,
        huffPairs_residualTokensRest rest r _ ts2 hm]

theorem huffPairs_append (a b : List Token) :
    huffPairs (a ++ b) = huffPairs a ++ huffPairs b := by
  simp [huffPairs]

theorem huffPairs_uni_cons (v : Nat) (ts : List Token) :
    huffPairs (Token.mk TokenKind.uni v :: ts) = huffPairs ts := by
  simp [huffPairs]

/-- **C8**: context coverage. For every node record pass 2 emits, the
statistics pass (`add_vals`, plus the outdegree routed by the same context
formula) pushes into the 211 context histograms exactly the `(context,
value)` pairs — in order — that the Huffman encoder later writes: outdegree
bucket, block slots 0/1/2 alternating by parity with lengths after the first
decremented, interval-left and interval-length contexts, and the residual
contexts with their Zuckerli-bucket clamps. So every emitted value has a
code in the header of its context. -/
theorem C8_context_coverage (W Lmin x reference : Nat) (refList currList : List Nat)
    (toks : List Token)
    (hc : diffCompTokens W Lmin x reference refList currList = Except.ok toks) :
    (OUTD_IDX_BEGIN + outdCtx x, currList.length) ::
        addValsPairs Lmin x reference refList currList =
      huffPairs (Token.mk (TokenKind.huff (OUTD_IDX_BEGIN + outdCtx x)) currList.length ::
        toks) := by
  rw [show huffPairs (Token.mk (TokenKind.huff (OUTD_IDX_BEGIN + outdCtx x))
      currList.length :: toks) =
      (OUTD_IDX_BEGIN + outdCtx x, currList.length) :: huffPairs toks by
    simp [huffPairs]]
  refine congrArg _ ?_
  simp only [diffCompTokens] at hc
  split at hc
  · exact absurd hc (by simp)
  · have hbe := addLoop_diffLoop currList (if reference = 0 then [] else refList) true 0
      true true
    have hbe2 : (addLoop currList (if reference = 0 then [] else refList) true 0
        true true).2 = (diffBlocksExtras currList refList reference).2 := hbe.2
    have hbe1 : (addLoop currList (if reference = 0 then [] else refList) true 0
        true true).1 =
        pairsFrom true true (diffBlocksExtras currList refList reference).1 := hbe.1
    have hrefToks : huffPairs (if 0 < W then [Token.mk TokenKind.uni reference] else []) =
        [] := by
      split <;> rfl
    have hblockToks : huffPairs (if reference ≠ 0 then
        Token.mk TokenKind.uni (diffBlocksExtras currList refList reference).1.length ::
          blockTokens (diffBlocksExtras currList refList reference).1
        else ([] : List Token)) =
        pairsFrom true true (diffBlocksExtras currList refList reference).1 := by
      split
      · rw [huffPairs_uni_cons, huffPairs_blockTokens]
      · rename_i hr0
        have hr0e : reference = 0 := by omega
        rw [hr0e, diffBlocksExtras_zero]
        rfl
    split at hc
    · rename_i hlen
      split at hc
      · rename_i hLmin
        rcases hm : residualTokens x
            (intervalize Lmin (diffBlocksExtras currList refList reference).2).2.2 with
          e | rToks
        · rw [hm] at hc
          exact absurd hc (by simp)
        · rw [hm] at hc
          injection hc with hc
          rw [← hc]
          simp only [addValsPairs, hbe1, hbe2]
          rw [if_pos (show 0 < (diffBlocksExtras currList refList reference).2.length
            by omega)]
          rw [if_pos hLmin]
          rw [huffPairs_append, huffPairs_append, hrefToks, hblockToks, huffPairs_uni_cons,
            huffPairs_append, huffPairs_intervalTokens,
            huffPairs_residualTokens x _ rToks hm]
          simp
      · rename_i hLmin
        rcases hm : residualTokens x (diffBlocksExtras currList refList reference).2 with
          e | rToks
        · rw [hm] at hc
          exact absurd hc (by simp)
        · rw [hm] at hc
          injection hc with hc
          rw [← hc]
          simp only [addValsPairs, hbe1, hbe2]
          rw [if_pos (show 0 < (diffBlocksExtras currList refList reference).2.length
            by omega)]
          rw [if_neg hLmin]
          rw [huffPairs_append, huffPairs_append, hrefToks, hblockToks,
            huffPairs_residualTokens x _ rToks hm]
          simp
    · rename_i hlen
      injection hc with hc
      rw [← hc]
      simp only [addValsPairs, hbe1, hbe2]
      rw [if_neg (show ¬ 0 < (diffBlocksExtras currList refList reference).2.length
        by omega)]
      rw [huffPairs_append, hrefToks, hblockToks]
      simp

theorem C8_context_coverage_witness :
    (OUTD_IDX_BEGIN + outdCtx 2, ([1, 2, 3, 4] : List Nat).length) ::
        addValsPairs 2 2 1 [1, 2, 3, 4] [1, 2, 3, 4] =
      huffPairs (Token.mk (TokenKind.huff (OUTD_IDX_BEGIN + outdCtx 2))
        ([1, 2, 3, 4] : List Nat).length ::
        [Token.mk TokenKind.uni 1, Token.mk TokenKind.uni 0]) :=
  C8_context_coverage 3 2 2 1 [1, 2, 3, 4] [1, 2, 3, 4]
    [Token.mk TokenKind.uni 1, Token.mk TokenKind.uni 0]
    (by simp [diffCompTokens, diffBlocksExtras, diffLoop, writeReference, intervalize,
      runLen, residualTokens, residualTokensRest, int2nat, intervalTokens,
      intervalTokensRest, blockTokens, blockTokensRest])

/-! ## Round-trip identity (C1): token-position infrastructure -/

/-- A placeholder token for out-of-range lookups. -/
def defaultTok : Token := Token.mk TokenKind.uni 0

/-- The stream `d` carries the token values of `ts` starting at `pos`. -/
def tokensAt (d : List Token) (pos : Nat) (ts : List Token) : Prop :=
  ∀ i, i < ts.length → readTok d (pos + i) = (ts.getD i defaultTok).val

theorem tokensAt_nil (d : List Token) (pos : Nat) : tokensAt d pos [] := by
  intro i hi
  simp at hi

theorem tokensAt_cons (d : List Token) (pos : Nat) (t : Token) (ts : List Token)
    (h : tokensAt d pos (t :: ts)) :
    readTok d pos = t.val ∧ tokensAt d (pos + 1) ts := by
  constructor
  · have := h 0 (by simp)
    simpa using this
  · intro i hi
    have := h (i + 1) (by simp; omega)
    rw [show pos + 1 + i = pos + (i + 1) by omega]
    simpa using this

theorem tokensAt_append (d : List Token) (pos : Nat) (a b : List Token)
    (h : tokensAt d pos (a ++ b)) :
    tokensAt d pos a ∧ tokensAt d (pos + a.length) b := by
  constructor
  · intro i hi
    have := h i (by simp; omega)
    rwa [List.getD_append _ _ _ _ hi] at this
  · intro i hi
    have h2 := h (a.length + i) (by simp; omega)
    rw [show pos + a.length + i = pos + (a.length + i) by omega, h2]
    unfold List.getD
    congr 1
    rw [List.get?_eq_getElem?, List.get?_eq_getElem?,
      List.getElem?_append_right (show a.length ≤ a.length + i by omega),
      Nat.add_sub_cancel_left]

theorem readTok_append_right (pre rest : List Token) (i : Nat) :
    readTok (pre ++ rest) (pre.length + i) = readTok rest i := by
  unfold readTok
  congr 1
  rw [List.get?_eq_getElem?, List.get?_eq_getElem?,
    List.getElem?_append_right (show pre.length ≤ pre.length + i by omega),
    Nat.add_sub_cancel_left]

/-- The flattened stream carries each record at its start position. -/
theorem tokensAt_of_prefix (pre ts post : List Token) :
    tokensAt (pre ++ (ts ++ post)) pre.length ts := by
  intro i hi
  rw [readTok_append_right]
  unfold readTok List.getD
  rw [List.get?_eq_getElem?, List.getElem?_append_left hi]
  rcases h : ts[i]? with _ | t
  · rw [List.getElem?_eq_none_iff] at h
    omega
  · rw [List.get?_eq_getElem?, h]
    rfl

/-! ## Round-trip: the individual readers -/

theorem blockTokensRest_length : ∀ (bs : List Nat) (i : Nat),
    (blockTokensRest i bs).length = bs.length := by
  intro bs
  induction bs with
  | nil => intro i; rfl
  | cons b bs ih => intro i; simp [blockTokensRest, ih]

theorem blockTokens_length (bs : List Nat) : (blockTokens bs).length = bs.length := by
  rcases bs with _ | ⟨b, rest⟩
  · rfl
  · simp [blockTokens, blockTokensRest_length]

/-- Reading back the copy blocks after the first: each was stored
decremented, so positive blocks round-trip. -/
theorem readBlocksFrom_rest_spec (d : List Token) :
    ∀ (bs : List Nat) (pos j : Nat), j ≠ 0 →
      tokensAt d pos (blockTokensRest j bs) → (∀ y ∈ bs, 1 ≤ y) →
      readBlocksFrom d bs.length pos j = (bs, pos + bs.length) := by
  intro bs
  induction bs with
  | nil =>
    intro pos j _ _ _
    simp [readBlocksFrom]
  | cons b bs ih =>
    intro pos j hj htok hpos
    rw [blockTokensRest] at htok
    obtain ⟨h0, h1⟩ := tokensAt_cons _ _ _ _ htok
    simp only [List.length_cons, readBlocksFrom]
    rw [if_neg hj]
    rw [h0]
    simp only
    have hb : b - 1 + 1 = b := by
      have := hpos b (by simp)
      omega
    rw [hb, ih (pos + 1) (j + 1) (by omega) h1 (fun y hy => hpos y (by simp [hy]))]
    rw [show pos + 1 + bs.length = pos + (bs.length + 1) by omega]

/-- Reading back the copy blocks: the first as-is, the rest incremented. -/
theorem readBlocksFrom_spec (d : List Token) (bs : List Nat) (pos : Nat)
    (htok : tokensAt d pos (blockTokens bs)) (hpos : ∀ y ∈ bs.tail, 1 ≤ y) :
    readBlocksFrom d bs.length pos 0 = (bs, pos + bs.length) := by
  rcases bs with _ | ⟨b, rest⟩
  · simp [readBlocksFrom]
  · rw [blockTokens] at htok
    obtain ⟨h0, h1⟩ := tokensAt_cons _ _ _ _ htok
    simp only [List.length_cons, readBlocksFrom, if_true]
    rw [h0]
    simp only
    rw [Nat.add_zero,
      readBlocksFrom_rest_spec d rest (pos + 1) 1 (by omega) h1 hpos]
    rw [show pos + 1 + rest.length = pos + (rest.length + 1) by omega]

theorem intervalTokensRest_length (Lmin : Nat) :
    ∀ (P : List (Nat × Nat)) (prev lastLeft lastLen : Nat),
      (intervalTokensRest Lmin P prev lastLeft lastLen).length = 2 * P.length := by
  intro P
  induction P with
  | nil => intro prev lastLeft lastLen; rfl
  | cons p rest ih =>
    intro prev lastLeft lastLen
    obtain ⟨a, m⟩ := p
    simp only [intervalTokensRest, List.length_cons, ih]
    omega

theorem intervalTokens_length (Lmin x : Nat) (P : List (Nat × Nat)) :
    (intervalTokens Lmin x P).length = 2 * P.length := by
  rcases P with _ | ⟨⟨a, m⟩, rest⟩
  · rfl
  · simp only [intervalTokens, List.length_cons, intervalTokensRest_length]
    omega

theorem residualTokensRest_length :
    ∀ (l : List Nat) (prev prevRes : Nat) (ts : List Token),
      residualTokensRest l prev prevRes = .ok ts → ts.length = l.length := by
  intro l
  induction l with
  | nil =>
    intro prev prevRes ts h
    simp only [residualTokensRest] at h
    injection h with h
    subst h
    rfl
  | cons r rest ih =>
    intro prev prevRes ts h
    rw [residualTokensRest] at h
    split at h
    · exact absurd h (by simp)
    · split at h
      · exact absurd h (by simp)
      · rename_i ts2 heq
        injection h with h
        subst h
        simp [ih r (r - prev - 1) ts2 heq]

theorem residualTokens_length (x : Nat) (l : List Nat) (ts : List Token)
    (h : residualTokens x l = .ok ts) : ts.length = l.length := by
  rcases l with _ | ⟨r, rest⟩
  · simp only [residualTokens] at h
    injection h with h
    subst h
    rfl
  · rw [residualTokens] at h
    split at h
    · exact absurd h (by simp)
    · rename_i ts2 heq
      injection h with h
      subst h
      simp [residualTokensRest_length rest r _ ts2 heq]

/-- The number of interval pairs equals the number of lefts and of lens. -/
theorem intervalize_lengths (Lmin : Nat) :
    ∀ extras : List Nat,
      (intervalize Lmin extras).1.length = (intervalize Lmin extras).2.1.length := by
  intro extras
  induction extras using intervalize.induct Lmin with
  | case1 => simp [intervalize_nil]
  | case2 a ha => simp [intervalize_single, ha]
  | case3 a ha => simp [intervalize_single, ha]
  | case4 a l hj ih =>
    rw [intervalize_run Lmin a l hj]
    simp [ih]
  | case5 a l hj ih =>
    rw [intervalize_shortrun Lmin a l hj]
    simpa using ih
  | case6 a b l hne hpos ih =>
    rw [intervalize_nonconsec Lmin a b l hne hpos]
    simpa using ih
  | case7 a b l hne hnpos ih =>
    rw [intervalize.eq_def]
    simp only [hne, if_neg, hnpos]
    exact ih

/-- Round-trip of the interval reader past the first interval. -/
theorem readIntervalsRest_spec (d : List Token) (Lmin : Nat) :
    ∀ (P : List (Nat × Nat)) (pos prev lastLeft lastLen : Nat),
      tokensAt d pos (intervalTokensRest Lmin P prev lastLeft lastLen) →
      (∀ p ∈ P, Lmin ≤ p.2) →
      List.Chain' (fun p q : Nat × Nat => p.1 + p.2 < q.1) P →
      (∀ p ∈ P.head?, prev < p.1) →
      readIntervalsRest d Lmin P.length pos ((prev : Nat) : Int) =
        (P.map (fun p => ((p.1 : Nat) : Int)), P.map Prod.snd, pos + 2 * P.length) := by
  intro P
  induction P with
  | nil =>
    intro pos prev _ _ _ _ _ _
    simp [readIntervalsRest]
  | cons p rest ih =>
    intro pos prev lastLeft lastLen htok hLm hch hhd
    obtain ⟨a, m⟩ := p
    rw [intervalTokensRest] at htok
    obtain ⟨h1, htok2⟩ := tokensAt_cons _ _ _ _ htok
    obtain ⟨h2, htok3⟩ := tokensAt_cons _ _ _ _ htok2
    have hprev : prev < a := hhd (a, m) rfl
    have hm : Lmin ≤ m := hLm (a, m) (by simp)
    obtain ⟨hh, hct⟩ := List.chain'_cons'.mp hch
    have hrec := ih (pos + 2) (a + m) (a - prev - 1) (m - Lmin) htok3
      (fun q hq => hLm q (by simp [hq])) hct
      (fun q hq => hh q hq)
    simp only [List.length_cons, readIntervalsRest]
    rw [h1, h2]
    rw [show ((prev : Nat) : Int) + ((a - prev - 1 : Nat) : Int) + 1 = ((a : Nat) : Int)
      by omega]
    rw [show m - Lmin + Lmin = m by omega]
    rw [← Nat.cast_add, hrec]
    simp only [List.map_cons]
    rw [Prod.mk.injEq, Prod.mk.injEq]
    exact ⟨rfl, rfl, by omega⟩

/-- Round-trip of the interval reader: given the emitted interval tokens,
the decoder recovers exactly the lefts and lengths. -/
theorem readIntervals_spec (d : List Token) (Lmin x : Nat) (P : List (Nat × Nat)) (pos : Nat)
    (htok : tokensAt d pos (intervalTokens Lmin x P))
    (hLm : ∀ p ∈ P, Lmin ≤ p.2)
    (hch : List.Chain' (fun p q : Nat × Nat => p.1 + p.2 < q.1) P) :
    readIntervals d Lmin x P.length pos =
      (P.map (fun p => ((p.1 : Nat) : Int)), P.map Prod.snd, pos + 2 * P.length) := by
  rcases P with _ | ⟨⟨a, m⟩, rest⟩
  · simp [readIntervals]
  · rw [intervalTokens] at htok
    obtain ⟨h1, htok2⟩ := tokensAt_cons _ _ _ _ htok
    obtain ⟨h2, htok3⟩ := tokensAt_cons _ _ _ _ htok2
    have hm : Lmin ≤ m := hLm (a, m) (by simp)
    obtain ⟨hh, hct⟩ := List.chain'_cons'.mp hch
    have hrec := readIntervalsRest_spec d Lmin rest (pos + 2) (a + m)
      (int2nat ((a : Int) - (x : Int))) (m - Lmin) htok3
      (fun q hq => hLm q (by simp [hq])) hct (fun q hq => hh q hq)
    simp only [List.length_cons, readIntervals]
    rw [h1, h2, nat2int_int2nat]
    rw [show ((a : Nat) : Int) - ((x : Nat) : Int) + ((x : Nat) : Int) = ((a : Nat) : Int)
      by ring]
    rw [show m - Lmin + Lmin = m by omega]
    rw [← Nat.cast_add, hrec]
    simp only [List.map_cons]
    rw [Prod.mk.injEq, Prod.mk.injEq]
    exact ⟨rfl, rfl, by omega⟩

/-- Round-trip of the residual reader past the first residual. -/
theorem readResidualsRest_spec (d : List Token) :
    ∀ (l : List Nat) (pos prev prevRes : Nat) (ts : List Token),
      residualTokensRest l prev prevRes = .ok ts →
      tokensAt d pos ts →
      List.Chain' (· < ·) (prev :: l) →
      readResidualsRest d l.length pos ((prev : Nat) : Int) =
        (l.map (fun v => ((v : Nat) : Int)), pos + l.length) := by
  intro l
  induction l with
  | nil =>
    intro pos prev prevRes ts h htok hch
    simp [readResidualsRest]
  | cons v rest ih =>
    intro pos prev prevRes ts h htok hch
    rw [residualTokensRest] at h
    split at h
    · exact absurd h (by simp)
    · split at h
      · exact absurd h (by simp)
      · rename_i ts2 heq
        injection h with h
        subst h
        obtain ⟨h1, htok2⟩ := tokensAt_cons _ _ _ _ htok
        have hpv : prev < v := (List.chain'_cons.mp hch).1
        have hrec := ih (pos + 1) v (v - prev - 1) ts2 heq htok2 (List.chain'_cons.mp hch).2
        simp only [List.length_cons, readResidualsRest]
        rw [h1]
        rw [show ((prev : Nat) : Int) + ((v - prev - 1 : Nat) : Int) + 1 = ((v : Nat) : Int)
          by omega]
        rw [hrec]
        simp only [List.map_cons]
        rw [Prod.mk.injEq]
        exact ⟨rfl, by omega⟩

/-- Round-trip of the residual reader: given the emitted residual tokens of a
strictly increasing residual list, the decoder recovers it exactly. -/
theorem readResiduals_spec (d : List Token) (x : Nat) (l : List Nat) (pos : Nat)
    (ts : List Token) (h : residualTokens x l = .ok ts)
    (htok : tokensAt d pos ts) (hch : List.Chain' (· < ·) l) :
    readResiduals d x l.length pos = (l.map (fun v => ((v : Nat) : Int)), pos + l.length) := by
  rcases l with _ | ⟨v, rest⟩
  · simp [readResiduals]
  · rw [residualTokens] at h
    split at h
    · exact absurd h (by simp)
    · rename_i ts2 heq
      injection h with h
      subst h
      obtain ⟨h1, htok2⟩ := tokensAt_cons _ _ _ _ htok
      simp only [List.length_cons, readResiduals]
      rw [h1, nat2int_int2nat]
      rw [show ((x : Nat) : Int) + (((v : Nat) : Int) - ((x : Nat) : Int)) = ((v : Nat) : Int)
        by ring]
      rw [readResidualsRest_spec d rest (pos + 1) v
        (int2nat ((v : Int) - (x : Int))) ts2 heq htok2 hch]
      simp only [List.map_cons]
      rw [Prod.mk.injEq]
      exact ⟨rfl, by omega⟩

theorem expandZip_length : ∀ (ls ms : List Nat), ls.length = ms.length →
    (expandZip ls ms).length = ms.sum := by
  intro ls
  induction ls with
  | nil =>
    intro ms hlen
    rcases ms with _ | ⟨m, ms⟩
    · simp [expandZip]
    · simp at hlen
  | cons a ls ih =>
    intro ms hlen
    rcases ms with _ | ⟨m, ms⟩
    · simp at hlen
    · simp only [expandZip, List.length_append, List.length_range', List.sum_cons,
        ih ms (by simpa using hlen)]

theorem range'_cast_map (a m : Nat) :
    (List.range' 0 m).map (fun t => ((a : Nat) : Int) + ((t : Nat) : Int)) =
      (List.range' a m).map (fun n => ((n : Nat) : Int)) := by
  apply List.ext_getElem
  · simp
  · intro i h1 h2
    simp only [List.getElem_map, List.getElem_range']
    push_cast
    ring

theorem expandIntervalsInt_map : ∀ (P : List (Nat × Nat)),
    expandIntervalsInt (P.map (fun p => (((p.1 : Nat) : Int), p.2))) =
      (expandZip (P.map Prod.fst) (P.map Prod.snd)).map (fun n => ((n : Nat) : Int)) := by
  intro P
  induction P with
  | nil => rfl
  | cons p rest ih =>
    obtain ⟨a, m⟩ := p
    simp only [List.map_cons, expandIntervalsInt, expandZip, List.map_append, ih]
    congr 1
    exact range'_cast_map a m

/-- The expansion of a chained interval pair list with positive lengths is
strictly increasing and bounded below by the first left. -/
theorem expandZip_sorted : ∀ (ls ms : List Nat), ls.length = ms.length →
    List.Chain' (fun p q : Nat × Nat => p.1 + p.2 < q.1) (ls.zip ms) →
    (∀ p ∈ ls.zip ms, 1 ≤ p.2) →
    List.Pairwise (· < ·) (expandZip ls ms) ∧
      ∀ y ∈ expandZip ls ms, ∀ c ∈ ls.head?, c ≤ y := by
  intro ls
  induction ls with
  | nil =>
    intro ms _ _ _
    refine ⟨?_, ?_⟩ <;> simp [expandZip]
  | cons a ls ih =>
    intro ms hlen hch hpos
    rcases ms with _ | ⟨m, ms⟩
    · simp at hlen
    · simp only [List.zip_cons_cons] at hch hpos
      obtain ⟨hh, hct⟩ := List.chain'_cons'.mp hch
      obtain ⟨ihp, ihlb⟩ := ih ms (by simpa using hlen) hct (fun q hq => hpos q (by simp [hq]))
      constructor
      · show List.Pairwise (· < ·) (List.range' a m ++ expandZip ls ms)
        rw [List.pairwise_append]
        refine ⟨List.pairwise_lt_range' a m, ihp, ?_⟩
        intro u hu v hv
        have hu2 : u < a + m := (List.mem_range'_1.mp hu).2
        rcases ls with _ | ⟨a2, ls2⟩
        · simp [expandZip] at hv
        · rcases ms with _ | ⟨m2, ms2⟩
          · simp [expandZip] at hv
          · have hv2 : a2 ≤ v := ihlb v hv a2 rfl
            have hgap : a + m < a2 := hh (a2, m2) rfl
            omega
      · show ∀ y ∈ List.range' a m ++ expandZip ls ms, _
        intro y hy c hc
        simp only [List.head?_cons, Option.mem_def, Option.some.injEq] at hc
        subst hc
        rcases List.mem_append.mp hy with h | h
        · exact (List.mem_range'_1.mp h).1
        · rcases ls with _ | ⟨a2, ls2⟩
          · simp [expandZip] at h
          · rcases ms with _ | ⟨m2, ms2⟩
            · simp [expandZip] at h
            · have hv2 : a2 ≤ y := ihlb y h a2 rfl
              have hgap : a + m < a2 := hh (a2, m2) rfl
              omega

/-- The residual/interval merge is a permutation of the concatenation. -/
theorem mergeLE_perm : ∀ (l1 l2 : List Int), (mergeLE l1 l2).Perm (l1 ++ l2) := by
  intro l1
  induction l1 with
  | nil => intro l2; simp [mergeLE]
  | cons a l1 ih1 =>
    intro l2
    induction l2 with
    | nil => simp [mergeLE]
    | cons b l2 ih2 =>
      simp only [mergeLE]
      split
      · exact (ih1 (b :: l2)).cons a
      · exact (ih2.cons b).trans List.perm_middle.symm

theorem mergeLE_sorted : ∀ (l1 l2 : List Int), l1.Pairwise (· ≤ ·) → l2.Pairwise (· ≤ ·) →
    (mergeLE l1 l2).Pairwise (· ≤ ·) := by
  intro l1
  induction l1 with
  | nil =>
    intro l2 _ h2
    simpa [mergeLE] using h2
  | cons a l1 ih1 =>
    intro l2 h1
    induction l2 with
    | nil =>
      intro _
      simpa [mergeLE] using h1
    | cons b l2 ih2 =>
      intro h2
      simp only [mergeLE]
      split
      · rename_i hab
        rw [List.pairwise_cons]
        constructor
        · intro y hy
          have hy2 : y ∈ l1 ++ b :: l2 := (mergeLE_perm l1 (b :: l2)).mem_iff.mp hy
          rcases List.mem_append.mp hy2 with h | h
          · exact (List.pairwise_cons.mp h1).1 y h
          · rcases List.mem_cons.mp h with h | h
            · subst h; exact hab
            · exact le_trans hab ((List.pairwise_cons.mp h2).1 y h)
        · exact ih1 (b :: l2) (List.pairwise_cons.mp h1).2 h2
      · rename_i hab
        push_neg at hab
        rw [List.pairwise_cons]
        constructor
        · intro y hy
          have hy2 : y ∈ (a :: l1) ++ l2 := (mergeLE_perm (a :: l1) l2).mem_iff.mp hy
          rcases List.mem_append.mp hy2 with h | h
          · rcases List.mem_cons.mp h with h | h
            · subst h; omega
            · have := (List.pairwise_cons.mp h1).1 y h
              omega
          · exact (List.pairwise_cons.mp h2).1 y h
        · exact ih2 (List.pairwise_cons.mp h2).2

/-- A merge of two sorted pieces of a sorted list reassembles the list. -/
theorem mergeLE_eq (l1 l2 l : List Int) (hp : (l1 ++ l2).Perm l)
    (h1 : l1.Pairwise (· ≤ ·)) (h2 : l2.Pairwise (· ≤ ·)) (hl : l.Pairwise (· ≤ ·)) :
    mergeLE l1 l2 = l :=
  List.eq_of_perm_of_sorted ((mergeLE_perm l1 l2).trans hp) (mergeLE_sorted l1 l2 h1 h2) hl

/-- The block/extra merge is a permutation of the concatenation. -/
theorem mergeLT_perm : ∀ (l1 l2 : List Nat), (mergeLT l1 l2).Perm (l1 ++ l2) := by
  intro l1
  induction l1 with
  | nil => intro l2; simp [mergeLT]
  | cons a l1 ih1 =>
    intro l2
    induction l2 with
    | nil => simp [mergeLT]
    | cons b l2 ih2 =>
      simp only [mergeLT]
      split
      · exact (ih1 (b :: l2)).cons a
      · exact (ih2.cons b).trans List.perm_middle.symm

theorem mergeLT_sorted : ∀ (l1 l2 : List Nat), l1.Pairwise (· ≤ ·) → l2.Pairwise (· ≤ ·) →
    (mergeLT l1 l2).Pairwise (· ≤ ·) := by
  intro l1
  induction l1 with
  | nil =>
    intro l2 _ h2
    simpa [mergeLT] using h2
  | cons a l1 ih1 =>
    intro l2 h1
    induction l2 with
    | nil =>
      intro _
      simpa [mergeLT] using h1
    | cons b l2 ih2 =>
      intro h2
      simp only [mergeLT]
      split
      · rename_i hab
        rw [List.pairwise_cons]
        constructor
        · intro y hy
          have hy2 : y ∈ l1 ++ b :: l2 := (mergeLT_perm l1 (b :: l2)).mem_iff.mp hy
          rcases List.mem_append.mp hy2 with h | h
          · exact (List.pairwise_cons.mp h1).1 y h
          · rcases List.mem_cons.mp h with h | h
            · subst h; omega
            · have := (List.pairwise_cons.mp h2).1 y h
              omega
        · exact ih1 (b :: l2) (List.pairwise_cons.mp h1).2 h2
      · rename_i hab
        rw [List.pairwise_cons]
        constructor
        · intro y hy
          have hy2 : y ∈ (a :: l1) ++ l2 := (mergeLT_perm (a :: l1) l2).mem_iff.mp hy
          rcases List.mem_append.mp hy2 with h | h
          · rcases List.mem_cons.mp h with h | h
            · subst h; omega
            · have := (List.pairwise_cons.mp h1).1 y h
              omega
          · exact (List.pairwise_cons.mp h2).1 y h
        · exact ih2 (List.pairwise_cons.mp h2).2

theorem mergeLT_eq (l1 l2 l : List Nat) (hp : (l1 ++ l2).Perm l)
    (h1 : l1.Pairwise (· ≤ ·)) (h2 : l2.Pairwise (· ≤ ·)) (hl : l.Pairwise (· ≤ ·)) :
    mergeLT l1 l2 = l :=
  List.eq_of_perm_of_sorted ((mergeLT_perm l1 l2).trans hp) (mergeLT_sorted l1 l2 h1 h2) hl

/-- Successive intervals are separated: each left lies strictly past the end
of the previous interval. -/
theorem intervalize_zip_chain (Lmin : Nat) :
    ∀ extras : List Nat, List.Chain' (· < ·) extras →
      List.Chain' (fun p q : Nat × Nat => p.1 + p.2 < q.1)
        (((intervalize Lmin extras).1).zip (intervalize Lmin extras).2.1) := by
  intro extras
  induction extras using intervalize.induct Lmin with
  | case1 => intro _; simp [intervalize_nil]
  | case2 a ha => intro _; simp [intervalize_single, ha]
  | case3 a ha => intro _; simp [intervalize_single, ha]
  | case4 a l hj ih =>
    intro hc
    rw [intervalize_run Lmin a l hj]
    rw [List.zip_cons_cons]
    rw [List.chain'_cons']
    refine ⟨?_, ih (List.Chain'.sublist hc.tail (List.drop_sublist _ _))⟩
    intro q hq
    have hqz := List.mem_of_mem_head? hq
    have hmem := intervalize_mem Lmin _ q hqz
    have hq1 : q.1 ∈ List.drop (runLen a ((a + 1) :: l) - 1) ((a + 1) :: l) := by
      have := hmem.2.2 0 (by omega)
      simpa using this
    exact runLen_drop_lb a ((a + 1) :: l) hc q.1 hq1
  | case5 a l hj ih =>
    intro hc
    rw [intervalize_shortrun Lmin a l hj]
    exact ih hc.tail
  | case6 a b l hne hpos ih =>
    intro hc
    rw [intervalize_nonconsec Lmin a b l hne hpos]
    exact ih hc.tail
  | case7 a b l hne hnpos ih =>
    intro hc
    rw [intervalize.eq_def]
    simp only [hne, if_neg, hnpos]
    exact ih hc.tail

theorem mergeLE_nil_left (l : List Int) : mergeLE [] l = l := by
  simp [mergeLE]

theorem mergeLE_nil_right (l : List Int) : mergeLE l [] = l := by
  cases l <;> simp [mergeLE]

/-- With no intervals, the residuals are the whole extras list. -/
theorem intervalize_no_intervals (Lmin : Nat) (hL : 0 < Lmin) (E : List Nat)
    (h : (intervalize Lmin E).1 = []) : (intervalize Lmin E).2.2 = E := by
  have hperm := intervalize_perm Lmin hL E
  rw [h] at hperm
  have hz : expandZip [] (intervalize Lmin E).2.1 = [] := by
    cases hmm : (intervalize Lmin E).2.1 <;> simp [expandZip]
  rw [hz, List.nil_append] at hperm
  exact (intervalize_residuals_sublist Lmin E).eq_of_length hperm.length_eq

/-- The interval lengths plus the residual count make up the extras count. -/
theorem intervalize_length_sum (Lmin : Nat) (hL : 0 < Lmin) (E : List Nat) :
    (intervalize Lmin E).2.1.sum + (intervalize Lmin E).2.2.length = E.length := by
  have hperm := (intervalize_perm Lmin hL E).length_eq
  rw [List.length_append, expandZip_length _ _ (intervalize_lengths Lmin E)] at hperm
  exact hperm

/-- The decoder's residual/interval merge of the intervalizer's output
reassembles the extras list exactly. -/
theorem extras_mergeLE_eq (Lmin : Nat) (hL : 0 < Lmin) (E : List Nat)
    (hE : List.Chain' (· < ·) E) :
    mergeLE ((intervalize Lmin E).2.2.map (fun v => ((v : Nat) : Int)))
        ((expandZip (intervalize Lmin E).1 (intervalize Lmin E).2.1).map
          (fun v => ((v : Nat) : Int))) =
      E.map (fun v => ((v : Nat) : Int)) := by
  have hpE : E.Pairwise (· < ·) := List.chain'_iff_pairwise.mp hE
  have hlen := intervalize_lengths Lmin E
  have hzc := intervalize_zip_chain Lmin E hE
  have hpos : ∀ p ∈ (intervalize Lmin E).1.zip (intervalize Lmin E).2.1, 1 ≤ p.2 :=
    fun p hp => by
      have := (intervalize_mem Lmin E p hp).2.1
      omega
  obtain ⟨hexp, _⟩ := expandZip_sorted _ _ hlen hzc hpos
  have hR : (intervalize Lmin E).2.2.Pairwise (· < ·) :=
    hpE.sublist (intervalize_residuals_sublist Lmin E)
  have hcast : ∀ (u v : Nat), u < v → ((u : Nat) : Int) ≤ ((v : Nat) : Int) := by
    intro u v h
    omega
  apply mergeLE_eq
  · rw [← List.map_append]
    refine List.Perm.map _ ?_
    exact (List.perm_append_comm).trans (intervalize_perm Lmin hL E)
  · exact hR.map _ hcast
  · exact hexp.map _ hcast
  · exact hpE.map _ hcast

theorem map_toNat_map_cast (E : List Nat) :
    (E.map (fun v => ((v : Nat) : Int))).map Int.toNat = E := by
  induction E with
  | nil => rfl
  | cons v E ih => simp [ih]

theorem filter_partition_perm (S refl : List Nat) :
    (S.filter (fun e => decide (e ∈ refl)) ++ S.filter (fun e => decide (e ∉ refl))).Perm S := by
  simpa only [decide_not] using List.filter_append_perm (fun e => decide (e ∈ refl)) S

theorem filter_partition_length (S refl : List Nat) :
    (S.filter (fun e => decide (e ∈ refl))).length +
      (S.filter (fun e => decide (e ∉ refl))).length = S.length := by
  have := (filter_partition_perm S refl).length_eq
  simpa using this

/-- The decoder's extras phase (interval expansion merged with residuals)
reassembles the extras list the intervalizer split. -/
theorem extraList_eq (Lmin : Nat) (hL : 0 < Lmin) (E : List Nat)
    (hE : List.Chain' (· < ·) E) :
    (if (intervalize Lmin E).1.length ≠ 0 then
      if (intervalize Lmin E).2.2.length ≠ 0 then
        mergeLE ((intervalize Lmin E).2.2.map (fun v => ((v : Nat) : Int)))
          (expandIntervalsInt
            ((((intervalize Lmin E).1.zip (intervalize Lmin E).2.1).map
                (fun p => ((p.1 : Nat) : Int))).zip
              (((intervalize Lmin E).1.zip (intervalize Lmin E).2.1).map Prod.snd)))
      else
        expandIntervalsInt
          ((((intervalize Lmin E).1.zip (intervalize Lmin E).2.1).map
              (fun p => ((p.1 : Nat) : Int))).zip
            (((intervalize Lmin E).1.zip (intervalize Lmin E).2.1).map Prod.snd))
    else (intervalize Lmin E).2.2.map (fun v => ((v : Nat) : Int))) =
      E.map (fun v => ((v : Nat) : Int)) := by
  have hlen := intervalize_lengths Lmin E
  have hfst : ((intervalize Lmin E).1.zip (intervalize Lmin E).2.1).map Prod.fst
      = (intervalize Lmin E).1 := List.map_fst_zip _ _ (le_of_eq hlen)
  have hsnd : ((intervalize Lmin E).1.zip (intervalize Lmin E).2.1).map Prod.snd
      = (intervalize Lmin E).2.1 := List.map_snd_zip _ _ (le_of_eq hlen.symm)
  have hexpand : expandIntervalsInt
      ((((intervalize Lmin E).1.zip (intervalize Lmin E).2.1).map
          (fun p => ((p.1 : Nat) : Int))).zip
        (((intervalize Lmin E).1.zip (intervalize Lmin E).2.1).map Prod.snd))
      = (expandZip (intervalize Lmin E).1 (intervalize Lmin E).2.1).map
          (fun v => ((v : Nat) : Int)) := by
    have h2 := expandIntervalsInt_map ((intervalize Lmin E).1.zip (intervalize Lmin E).2.1)
    rw [hfst, hsnd] at h2
    rw [List.zip_map']
    exact h2
  by_cases h1 : (intervalize Lmin E).1.length ≠ 0
  · by_cases h2 : (intervalize Lmin E).2.2.length ≠ 0
    · rw [if_pos h1, if_pos h2, hexpand]
      exact extras_mergeLE_eq Lmin hL E hE
    · rw [if_pos h1, if_neg h2, hexpand]
      have hR : (intervalize Lmin E).2.2 = [] := List.length_eq_zero.mp (by omega)
      have h3 := extras_mergeLE_eq Lmin hL E hE
      rw [hR] at h3
      simpa only [List.map_nil, mergeLE_nil_left] using h3
  · rw [if_neg h1]
    rw [intervalize_no_intervals Lmin hL E (List.length_eq_zero.mp (by omega))]

/-- Decoding one emitted record (`decode_list` in window mode on `diff_comp`'s
tokens) recovers the node's successor list exactly, advancing the position by
the record length and updating the outdegree buffer. -/
theorem decodeList_roundtrip (W Lmin x r : Nat) (d : List Token) (pos : Nat)
    (S refl : List Nat) (toks : List Token)
    (window : List (List Nat)) (outd : List Nat)
    (hLm : 2 ≤ Lmin) (hS : List.Chain' (· < ·) S) (hSne : S ≠ [])
    (hrefl : List.Chain' (· < ·) refl) (hr : r ≤ W)
    (henc : diffCompTokens W Lmin x r refl S = .ok toks)
    (hwin : r ≠ 0 → window.getD ((x + (W + 1) - r) % (W + 1)) [] = refl)
    (houtd : r ≠ 0 → outd.getD ((x + (W + 1) - r) % (W + 1)) 0 = refl.length)
    (htok : tokensAt d pos
      (Token.mk (TokenKind.huff (OUTD_IDX_BEGIN + outdCtx x)) S.length :: toks)) :
    decodeList W Lmin d x pos window outd =
      (S, pos + 1 + toks.length, outd.set (x % (W + 1)) S.length) := by
  obtain ⟨h0, htoks⟩ := tokensAt_cons _ _ _ _ htok
  have h0' : readTok d pos = S.length := h0
  have hdeg : ¬ (S.length = 0) := fun h => hSne (List.length_eq_zero.mp h)
  have hSlen : S.length ≠ 0 := hdeg
  have hpS : S.Pairwise (· < ·) := List.chain'_iff_pairwise.mp hS
  rw [diffCompTokens] at henc
  have hwr : (if 0 < W then writeReference W r else Except.ok r) = Except.ok r := by
    split
    · rw [writeReference, if_neg (by omega)]
    · rfl
  simp only [hwr] at henc
  by_cases hr0 : r = 0
  · -- reference 0: the whole list is extras
    subst hr0
    simp only [diffBlocksExtras_zero] at henc
    rw [if_neg (show ¬ ((0 : Nat) ≠ 0) by omega)] at henc
    rw [if_pos hSlen] at henc
    rw [if_pos (show Lmin ≠ 0 by omega)] at henc
    split at henc
    · exact absurd henc (by simp)
    rename_i rToks hres
    injection henc with henc
    subst henc
    have hzl : ((intervalize Lmin S).1.zip (intervalize Lmin S).2.1).length
        = (intervalize Lmin S).1.length := by
      rw [List.length_zip, intervalize_lengths]
      exact Nat.min_self _
    have hil : (intervalTokens Lmin x
        ((intervalize Lmin S).1.zip (intervalize Lmin S).2.1)).length
        = 2 * (intervalize Lmin S).1.length := by
      rw [intervalTokens_length, hzl]
    have hRch : List.Chain' (· < ·) ((intervalize Lmin S).2.2) :=
      List.chain'_iff_pairwise.mpr (hpS.sublist (intervalize_residuals_sublist Lmin S))
    have hsum2 : S.length -
        ((((intervalize Lmin S).1.zip (intervalize Lmin S).2.1).map Prod.snd)).sum
        = (intervalize Lmin S).2.2.length := by
      rw [List.map_snd_zip _ _ (le_of_eq (intervalize_lengths Lmin S).symm)]
      have := intervalize_length_sum Lmin (by omega) S
      omega
    have hrlen : rToks.length = (intervalize Lmin S).2.2.length :=
      residualTokens_length x _ rToks hres
    by_cases hW : 0 < W
    · -- W > 0: an explicit zero reference token is present
      rw [if_pos hW] at htoks ⊢
      simp only [List.singleton_append, List.nil_append, List.append_nil,
        List.cons_append] at htoks
      obtain ⟨h1, htoks2⟩ := tokensAt_cons _ _ _ _ htoks
      obtain ⟨h2, htoks3⟩ := tokensAt_cons _ _ _ _ htoks2
      obtain ⟨hti, htr⟩ := tokensAt_append _ _ _ _ htoks3
      have h1' : readTok d (pos + 1) = 0 := h1
      have h2' : readTok d (pos + 1 + 1) = (intervalize Lmin S).1.length := h2
      rw [hil] at htr
      have hReadInt : readIntervals d Lmin x ((intervalize Lmin S).1.length)
          (pos + 1 + 1 + 1) =
          (((intervalize Lmin S).1.zip (intervalize Lmin S).2.1).map
              (fun p => ((p.1 : Nat) : Int)),
            ((intervalize Lmin S).1.zip (intervalize Lmin S).2.1).map Prod.snd,
            pos + 1 + 1 + 1 + 2 * (intervalize Lmin S).1.length) := by
        have h := readIntervals_spec d Lmin x
          ((intervalize Lmin S).1.zip (intervalize Lmin S).2.1) (pos + 1 + 1 + 1) hti
          (fun p hp => (intervalize_mem Lmin S p hp).1)
          (intervalize_zip_chain Lmin S hS)
        rw [hzl] at h
        exact h
      have hrespos : (if (intervalize Lmin S).2.2.length ≠ 0 then
            readResiduals d x ((intervalize Lmin S).2.2.length)
              (pos + 1 + 1 + 1 + 2 * (intervalize Lmin S).1.length)
          else ([], pos + 1 + 1 + 1 + 2 * (intervalize Lmin S).1.length)) =
          ((intervalize Lmin S).2.2.map (fun v => ((v : Nat) : Int)),
            pos + 1 + 1 + 1 + 2 * (intervalize Lmin S).1.length +
              (intervalize Lmin S).2.2.length) := by
        by_cases hR0 : (intervalize Lmin S).2.2.length ≠ 0
        · rw [if_pos hR0]
          exact readResiduals_spec d x _ _ rToks hres htr hRch
        · rw [if_neg hR0]
          have hRnil : (intervalize Lmin S).2.2 = [] := List.length_eq_zero.mp (by omega)
          rw [hRnil]
          simp
      unfold decodeList
      simp only [h0']
      rw [if_neg hdeg]
      rw [if_pos hW]
      dsimp only
      rw [h1']
      simp only [Nat.cast_zero]
      simp only [if_neg (show ¬ ((0 : Int) < 0) by omega)]
      rw [if_pos (show S.length ≠ 0 ∧ Lmin ≠ 0 from ⟨hSlen, by omega⟩)]
      rw [h2']
      rw [hReadInt]
      dsimp only
      rw [hsum2]
      rw [hrespos]
      dsimp only
      rw [extraList_eq Lmin (by omega) S hS]
      rw [if_pos (show (0 : Int) ≤ 0 by omega)]
      rw [map_toNat_map_cast]
      rw [Prod.mk.injEq, Prod.mk.injEq]
      refine ⟨rfl, ?_, rfl⟩
      simp only [List.length_append, List.length_cons, List.length_nil,
        List.length_singleton, hil, hrlen]
      omega
    · -- W = 0: no reference token at all
      rw [if_neg hW] at htoks ⊢
      simp only [List.nil_append, List.append_nil, List.cons_append] at htoks
      obtain ⟨h1, htoks2⟩ := tokensAt_cons _ _ _ _ htoks
      obtain ⟨hti, htr⟩ := tokensAt_append _ _ _ _ htoks2
      have h1' : readTok d (pos + 1) = (intervalize Lmin S).1.length := h1
      rw [hil] at htr
      have hReadInt : readIntervals d Lmin x ((intervalize Lmin S).1.length)
          (pos + 1 + 1) =
          (((intervalize Lmin S).1.zip (intervalize Lmin S).2.1).map
              (fun p => ((p.1 : Nat) : Int)),
            ((intervalize Lmin S).1.zip (intervalize Lmin S).2.1).map Prod.snd,
            pos + 1 + 1 + 2 * (intervalize Lmin S).1.length) := by
        have h := readIntervals_spec d Lmin x
          ((intervalize Lmin S).1.zip (intervalize Lmin S).2.1) (pos + 1 + 1) hti
          (fun p hp => (intervalize_mem Lmin S p hp).1)
          (intervalize_zip_chain Lmin S hS)
        rw [hzl] at h
        exact h
      have hrespos : (if (intervalize Lmin S).2.2.length ≠ 0 then
            readResiduals d x ((intervalize Lmin S).2.2.length)
              (pos + 1 + 1 + 2 * (intervalize Lmin S).1.length)
          else ([], pos + 1 + 1 + 2 * (intervalize Lmin S).1.length)) =
          ((intervalize Lmin S).2.2.map (fun v => ((v : Nat) : Int)),
            pos + 1 + 1 + 2 * (intervalize Lmin S).1.length +
              (intervalize Lmin S).2.2.length) := by
        by_cases hR0 : (intervalize Lmin S).2.2.length ≠ 0
        · rw [if_pos hR0]
          exact readResiduals_spec d x _ _ rToks hres htr hRch
        · rw [if_neg hR0]
          have hRnil : (intervalize Lmin S).2.2 = [] := List.length_eq_zero.mp (by omega)
          rw [hRnil]
          simp
      unfold decodeList
      simp only [h0']
      rw [if_neg hdeg]
      rw [if_neg hW]
      dsimp only
      simp only [if_neg (show ¬ ((0 : Int) < -1) by omega)]
      rw [if_pos (show S.length ≠ 0 ∧ Lmin ≠ 0 from ⟨hSlen, by omega⟩)]
      rw [h1']
      rw [hReadInt]
      dsimp only
      rw [hsum2]
      rw [hrespos]
      dsimp only
      rw [extraList_eq Lmin (by omega) S hS]
      rw [if_pos (show (-1 : Int) ≤ 0 by omega)]
      rw [map_toNat_map_cast]
      rw [Prod.mk.injEq, Prod.mk.injEq]
      refine ⟨rfl, ?_, rfl⟩
      simp only [List.length_append, List.length_cons, List.length_nil,
        List.length_singleton, hil, hrlen]
      omega
  · -- nonzero reference: copy blocks against the window slot
    have hW : 0 < W := by omega
    have hr1 : 1 ≤ r := by omega
    have hbeq : diffBlocksExtras S refl r = diffLoop S refl true 0 := by
      rw [diffBlocksExtras, if_neg hr0]
    rw [hbeq] at henc
    obtain ⟨hsp1, hsp2, hsp3, hsp4, -⟩ :=
      diffLoop_spec S refl true 0 hS hrefl (fun h => absurd h (by simp))
    have htail : ∀ y ∈ (diffLoop S refl true 0).1.tail, 1 ≤ y := by
      rcases hB : (diffLoop S refl true 0).1 with _ | ⟨b, bs⟩
      · intro y hy
        simp at hy
      · rw [hB] at hsp3
        intro y hy
        exact hsp3.2 y (by simpa using hy)
    have hsum : (diffLoop S refl true 0).1.sum ≤ refl.length := by
      have := hsp4
      omega
    have hcs : copySel (diffLoop S refl true 0).1 refl
        = S.filter (fun e => decide (e ∈ refl)) := by
      rcases hB : (diffLoop S refl true 0).1 with _ | ⟨b, bs⟩
      · rw [hB] at hsp2
        rw [copySel]
        exact hsp2
      · rw [hB] at hsp2
        simp only [selState, Nat.sub_zero] at hsp2
        exact hsp2
    have hcc : copiedCount (diffLoop S refl true 0).1 refl.length
        = (S.filter (fun e => decide (e ∈ refl))).length := by
      rw [← copySel_length _ refl hsum, hcs]
    have hextraCount : S.length - (S.filter (fun e => decide (e ∈ refl))).length
        = (diffLoop S refl true 0).2.length := by
      have hfp := filter_partition_length S refl
      rw [hsp1]
      omega
    have hEch : List.Chain' (· < ·) ((diffLoop S refl true 0).2) := by
      rw [hsp1]
      exact List.chain'_iff_pairwise.mpr (hpS.filter _)
    rw [if_pos hW] at henc
    rw [if_pos hr0] at henc
    have hRIcast : ((x : Int) - ((r : Nat) : Int) + (((W + 1 : Nat)) : Int)).toNat
        = x + (W + 1) - r := by omega
    have hslot : x % (W + 1) ≠ (x + (W + 1) - r) % (W + 1) :=
      (slot_ne_curr x r (W + 1) hr1 (by omega)).symm
    by_cases hE0 : (diffLoop S refl true 0).2.length ≠ 0
    · -- extras present
      rw [if_pos hE0] at henc
      rw [if_pos (show Lmin ≠ 0 by omega)] at henc
      split at henc
      · exact absurd henc (by simp)
      rename_i rToks hres
      injection henc with henc
      subst henc
      simp only [List.singleton_append, List.cons_append] at htoks
      obtain ⟨h1, htoks2⟩ := tokensAt_cons _ _ _ _ htoks
      obtain ⟨h2, htoks3⟩ := tokensAt_cons _ _ _ _ htoks2
      obtain ⟨hbt, htoks4⟩ := tokensAt_append _ _ _ _ htoks3
      rw [blockTokens_length] at htoks4
      obtain ⟨h3, htoks5⟩ := tokensAt_cons _ _ _ _ htoks4
      obtain ⟨hti, htr⟩ := tokensAt_append _ _ _ _ htoks5
      have h1' : readTok d (pos + 1) = r := h1
      have h2' : readTok d (pos + 1 + 1) = (diffLoop S refl true 0).1.length := h2
      have h3' : readTok d (pos + 1 + 1 + 1 + (diffLoop S refl true 0).1.length)
          = (intervalize Lmin (diffLoop S refl true 0).2).1.length := h3
      have hzl : ((intervalize Lmin (diffLoop S refl true 0).2).1.zip
            (intervalize Lmin (diffLoop S refl true 0).2).2.1).length
          = (intervalize Lmin (diffLoop S refl true 0).2).1.length := by
        rw [List.length_zip, intervalize_lengths]
        exact Nat.min_self _
      have hil : (intervalTokens Lmin x
          ((intervalize Lmin (diffLoop S refl true 0).2).1.zip
            (intervalize Lmin (diffLoop S refl true 0).2).2.1)).length
          = 2 * (intervalize Lmin (diffLoop S refl true 0).2).1.length := by
        rw [intervalTokens_length, hzl]
      rw [hil] at htr
      have hRch : List.Chain' (· < ·)
          ((intervalize Lmin (diffLoop S refl true 0).2).2.2) :=
        List.chain'_iff_pairwise.mpr
          ((List.chain'_iff_pairwise.mp hEch).sublist
            (intervalize_residuals_sublist Lmin _))
      have hsum2 : (diffLoop S refl true 0).2.length -
          ((((intervalize Lmin (diffLoop S refl true 0).2).1.zip
              (intervalize Lmin (diffLoop S refl true 0).2).2.1).map Prod.snd)).sum
          = (intervalize Lmin (diffLoop S refl true 0).2).2.2.length := by
        rw [List.map_snd_zip _ _ (le_of_eq (intervalize_lengths Lmin _).symm)]
        have := intervalize_length_sum Lmin (by omega) (diffLoop S refl true 0).2
        omega
      have hrlen : rToks.length = (intervalize Lmin (diffLoop S refl true 0).2).2.2.length :=
        residualTokens_length x _ rToks hres
      have hReadInt : readIntervals d Lmin x
          ((intervalize Lmin (diffLoop S refl true 0).2).1.length)
          (pos + 1 + 1 + 1 + (diffLoop S refl true 0).1.length + 1) =
          (((intervalize Lmin (diffLoop S refl true 0).2).1.zip
              (intervalize Lmin (diffLoop S refl true 0).2).2.1).map
              (fun p => ((p.1 : Nat) : Int)),
            ((intervalize Lmin (diffLoop S refl true 0).2).1.zip
              (intervalize Lmin (diffLoop S refl true 0).2).2.1).map Prod.snd,
            pos + 1 + 1 + 1 + (diffLoop S refl true 0).1.length + 1 +
              2 * (intervalize Lmin (diffLoop S refl true 0).2).1.length) := by
        have h := readIntervals_spec d Lmin x
          ((intervalize Lmin (diffLoop S refl true 0).2).1.zip
            (intervalize Lmin (diffLoop S refl true 0).2).2.1)
          (pos + 1 + 1 + 1 + (diffLoop S refl true 0).1.length + 1) hti
          (fun p hp => (intervalize_mem Lmin _ p hp).1)
          (intervalize_zip_chain Lmin _ hEch)
        rw [hzl] at h
        exact h
      have hrespos : (if (intervalize Lmin (diffLoop S refl true 0).2).2.2.length ≠ 0 then
            readResiduals d x
              ((intervalize Lmin (diffLoop S refl true 0).2).2.2.length)
              (pos + 1 + 1 + 1 + (diffLoop S refl true 0).1.length + 1 +
                2 * (intervalize Lmin (diffLoop S refl true 0).2).1.length)
          else ([], pos + 1 + 1 + 1 + (diffLoop S refl true 0).1.length + 1 +
                2 * (intervalize Lmin (diffLoop S refl true 0).2).1.length)) =
          ((intervalize Lmin (diffLoop S refl true 0).2).2.2.map
              (fun v => ((v : Nat) : Int)),
            pos + 1 + 1 + 1 + (diffLoop S refl true 0).1.length + 1 +
              2 * (intervalize Lmin (diffLoop S refl true 0).2).1.length +
              (intervalize Lmin (diffLoop S refl true 0).2).2.2.length) := by
        by_cases hR0 : (intervalize Lmin (diffLoop S refl true 0).2).2.2.length ≠ 0
        · rw [if_pos hR0]
          exact readResiduals_spec d x _ _ rToks hres htr hRch
        · rw [if_neg hR0]
          have hRnil : (intervalize Lmin (diffLoop S refl true 0).2).2.2 = [] :=
            List.length_eq_zero.mp (by omega)
          rw [hRnil]
          simp
      unfold decodeList
      simp only [h0']
      rw [if_neg hdeg]
      rw [if_pos hW]
      dsimp only
      rw [h1']
      simp only [if_pos (show (0 : Int) < ((r : Nat) : Int) by omega)]
      rw [hRIcast]
      rw [getD_set_ne outd (x % (W + 1)) ((x + (W + 1) - r) % (W + 1)) S.length 0 hslot]
      rw [houtd hr0]
      rw [h2']
      rw [readBlocksFrom_spec d _ _ hbt htail]
      dsimp only
      rw [hcc, hextraCount]
      rw [if_pos (show (diffLoop S refl true 0).2.length ≠ 0 ∧ Lmin ≠ 0 from
        ⟨hE0, by omega⟩)]
      rw [h3']
      rw [hReadInt]
      dsimp only
      rw [hsum2]
      rw [hrespos]
      dsimp only
      rw [extraList_eq Lmin (by omega) _ hEch]
      rw [if_neg (show ¬ (((r : Nat) : Int) ≤ 0) by omega)]
      rw [if_neg (show ¬ ((diffLoop S refl true 0).2.map (fun v => ((v : Nat) : Int)) = [])
        from fun hcon => by
          have hl := congrArg List.length hcon
          simp only [List.length_map, List.length_nil] at hl
          exact hE0 hl)]
      rw [map_toNat_map_cast]
      rw [hwin hr0]
      rw [List.take_length]
      rw [maskSelect_copySel _ refl htail, hcs]
      rw [Prod.mk.injEq, Prod.mk.injEq]
      refine ⟨?_, ?_, rfl⟩
      · apply mergeLT_eq
        · rw [hsp1]
          exact filter_partition_perm S refl
        · exact (hpS.filter _).imp (fun h => le_of_lt h)
        · rw [hsp1]
          exact (hpS.filter _).imp (fun h => le_of_lt h)
        · exact hpS.imp (fun h => le_of_lt h)
      · simp only [List.length_append, List.length_cons, List.length_nil,
          List.length_singleton, blockTokens_length, hil, hrlen]
        omega
    · -- no extras: the whole list is copied
      rw [if_neg hE0] at henc
      injection henc with henc
      subst henc
      simp only [List.singleton_append, List.cons_append] at htoks
      obtain ⟨h1, htoks2⟩ := tokensAt_cons _ _ _ _ htoks
      obtain ⟨h2, htoks3⟩ := tokensAt_cons _ _ _ _ htoks2
      have h1' : readTok d (pos + 1) = r := h1
      have h2' : readTok d (pos + 1 + 1) = (diffLoop S refl true 0).1.length := h2
      have hEnil : (diffLoop S refl true 0).2 = [] := List.length_eq_zero.mp (by omega)
      have hfnil : S.filter (fun e => decide (e ∉ refl)) = [] := by
        rw [← hsp1]
        exact hEnil
      have hperm : (S.filter (fun e => decide (e ∈ refl))).Perm S := by
        have h := filter_partition_perm S refl
        rwa [hfnil, List.append_nil] at h
      have hfS : S.filter (fun e => decide (e ∈ refl)) = S :=
        (List.filter_sublist _).eq_of_length hperm.length_eq
      unfold decodeList
      simp only [h0']
      rw [if_neg hdeg]
      rw [if_pos hW]
      dsimp only
      rw [h1']
      simp only [if_pos (show (0 : Int) < ((r : Nat) : Int) by omega)]
      rw [hRIcast]
      rw [getD_set_ne outd (x % (W + 1)) ((x + (W + 1) - r) % (W + 1)) S.length 0 hslot]
      rw [houtd hr0]
      rw [h2']
      rw [readBlocksFrom_spec d _ _ htoks3 htail]
      dsimp only
      rw [hcc, hextraCount]
      rw [if_neg (show ¬ ((diffLoop S refl true 0).2.length ≠ 0 ∧ Lmin ≠ 0) from
        fun hcon => hE0 hcon.1)]
      have hec2ne : ¬ ((diffLoop S refl true 0).2.length - List.sum ([] : List Nat) ≠ 0) := by
        simp only [List.sum_nil]
        omega
      simp only [if_neg hec2ne]
      simp only [if_neg (show ¬ ((0 : Nat) ≠ 0) by omega)]
      simp only [if_neg (show ¬ (((r : Nat) : Int) ≤ 0) by omega)]
      simp only [if_true]
      rw [hwin hr0]
      rw [List.take_length]
      rw [maskSelect_copySel _ refl htail, hcs, hfS]
      rw [Prod.mk.injEq, Prod.mk.injEq]
      refine ⟨rfl, ?_, rfl⟩
      simp only [List.length_append, List.length_cons, List.length_nil,
        List.length_singleton, blockTokens_length]
      omega

/-- Decoding a zero-outdegree record consumes exactly the outdegree token. -/
theorem decodeList_zero (W Lmin : Nat) (d : List Token) (x pos : Nat)
    (window : List (List Nat)) (outd : List Nat)
    (h0 : readTok d pos = 0) :
    decodeList W Lmin d x pos window outd = ([], pos + 1, outd.set (x % (W + 1)) 0) := by
  unfold decodeList
  simp only [h0]
  simp only [if_true]

/-- A stream carries its own tokens from position 0. -/
theorem tokensAt_self (l : List Token) : tokensAt l 0 l := by
  intro i hi
  rw [Nat.zero_add]
  unfold readTok List.getD
  rw [List.get?_eq_getElem?]
  rcases h : l[i]? with _ | t
  · rw [List.getElem?_eq_none_iff] at h
    omega
  · rfl

/-- Every nonzero reference pass 1 stores points at the window slot
`(node + cbs − r) % cbs` its candidate scan examined. -/
theorem pass1Aux_cand (W Rmax Lmin k : Nat) :
    ∀ (rest : List (List Nat)) (x : Nat) (list : List (List Nat)) (listLen : List Nat)
      (refCount : List Int) (bcs : List (Nat × Nat)),
      pass1Aux W Rmax Lmin k rest x list listLen refCount = .ok bcs →
      ∀ i, (bcs.getD i (0, 0)).2 ≠ 0 →
        (bcs.getD i (0, 0)).1 = (x + i + (W + 1) - (bcs.getD i (0, 0)).2) % (W + 1) := by
  intro rest
  induction rest with
  | nil =>
    intro x list listLen refCount bcs h i hi
    simp only [pass1Aux] at h
    injection h with h
    subst h
    simp [List.getD] at hi
  | cons S rest ih =>
    intro x list listLen refCount bcs h i hne
    simp only [pass1Aux] at h
    split at h
    · split at h
      · exact absurd h (by simp)
      · rename_i st heq
        split at h
        · exact absurd h (by simp)
        · rename_i bcs2 heq2
          injection h with h
          subst h
          rcases i with _ | i
          · simp only [List.getD_cons_zero] at hne ⊢
            rcases selectLoop_ok_cases _ _ _ _ x (W + 1) (W + 1) 0 _ st heq with
              h1 | ⟨rr, _, hrr2, _, _, hs1, hs2⟩
            · rw [h1] at hne
              exact absurd (by decide) hne
            · show st.2.1.toNat = (x + 0 + (W + 1) - st.2.2.toNat) % (W + 1)
              rw [hs1, hs2]
              simp only [Int.toNat_natCast, Nat.add_zero]
          · simp only [List.getD_cons_succ] at hne ⊢
            have hrec := ih (x + 1) _ _ _ bcs2 heq2 i hne
            rw [hrec]
            congr 1
            omega
    · split at h
      · exact absurd h (by simp)
      · rename_i bcs2 heq2
        injection h with h
        subst h
        rcases i with _ | i
        · simp only [List.getD_cons_zero] at hne
          exact absurd rfl hne
        · simp only [List.getD_cons_succ] at hne ⊢
          have hrec := ih (x + 1) _ _ _ bcs2 heq2 i hne
          rw [hrec]
          congr 1
          omega

/-- The sequential decoder recovers every remaining node of a pass-2 stream,
given the cyclic buffer invariants relating the decoder's window to the
encoder's list buffer. -/
theorem decodeGraphAux_roundtrip (W Lmin : Nat) (hLm : 2 ≤ Lmin) (d : List Token)
    (bcs : List (Nat × Nat))
    (hbcs2 : ∀ y, (bcs.getD y (0, 0)).2 ≤ W)
    (hbcs1 : ∀ y, (bcs.getD y (0, 0)).2 ≠ 0 →
      (bcs.getD y (0, 0)).1 = (y + (W + 1) - (bcs.getD y (0, 0)).2) % (W + 1)) :
    ∀ (rest : List (List Nat)) (x pos : Nat) (list : List (List Nat))
      (tss : List (List Token)) (outd : List Nat),
      (∀ S ∈ rest, List.Chain' (· < ·) S) →
      pass2Aux W Lmin bcs rest x list = .ok tss →
      tokensAt d pos tss.flatten →
      list.length = W + 1 →
      (∀ i, List.Chain' (· < ·) (list.getD i [])) →
      outd.length = W + 1 →
      (∀ i, outd.getD i 0 = (list.getD i []).length) →
      decodeGraphAux W Lmin d rest.length x pos list outd = rest := by
  intro rest
  induction rest with
  | nil =>
    intro x pos list tss outd _ h _ _ _ _ _
    simp [decodeGraphAux]
  | cons S rest ih =>
    intro x pos list tss outd hsort h htok hlistlen hlistch houtdlen houtdinv
    have hcurrlt : x % (W + 1) < list.length := by
      rw [hlistlen]
      exact Nat.mod_lt x (by omega)
    have hcurrlt2 : x % (W + 1) < outd.length := by
      rw [houtdlen]
      exact Nat.mod_lt x (by omega)
    simp only [pass2Aux] at h
    split at h
    · -- outdegree > 0
      rename_i hSpos
      split at h
      · exact absurd h (by simp)
      rename_i toks henc2
      split at h
      · exact absurd h (by simp)
      rename_i ns hrec
      injection h with h
      subst h
      rw [List.flatten_cons] at htok
      obtain ⟨hthis, hnext⟩ := tokensAt_append _ _ _ _ htok
      have hSne : S ≠ [] := by
        intro hnil
        rw [hnil] at hSpos
        simp at hSpos
      have hslotne : (bcs.getD x (0, 0)).2 ≠ 0 →
          x % (W + 1) ≠ (bcs.getD x (0, 0)).1 := by
        intro hrne
        rw [hbcs1 x hrne]
        exact (slot_ne_curr x (bcs.getD x (0, 0)).2 (W + 1)
          (by omega) (by have := hbcs2 x; omega)).symm
      have hrefl' : List.Chain' (· < ·)
          ((list.set (x % (W + 1)) S).getD (bcs.getD x (0, 0)).1 []) := by
        by_cases hij : x % (W + 1) = (bcs.getD x (0, 0)).1
        · rw [← hij, getD_set_eq list _ _ _ hcurrlt]
          exact hsort S (by simp)
        · rw [getD_set_ne list _ _ _ _ hij]
          exact hlistch _
      have hwin' : (bcs.getD x (0, 0)).2 ≠ 0 →
          list.getD ((x + (W + 1) - (bcs.getD x (0, 0)).2) % (W + 1)) [] =
            (list.set (x % (W + 1)) S).getD (bcs.getD x (0, 0)).1 [] := by
        intro hrne
        rw [hbcs1 x hrne, getD_set_ne list _ _ _ _ (by
          rw [← hbcs1 x hrne]
          exact hslotne hrne)]
      have houtd' : (bcs.getD x (0, 0)).2 ≠ 0 →
          outd.getD ((x + (W + 1) - (bcs.getD x (0, 0)).2) % (W + 1)) 0 =
            ((list.set (x % (W + 1)) S).getD (bcs.getD x (0, 0)).1 []).length := by
        intro hrne
        rw [houtdinv _, hbcs1 x hrne, getD_set_ne list _ _ _ _ (by
          rw [← hbcs1 x hrne]
          exact hslotne hrne)]
      have hq := decodeList_roundtrip W Lmin x (bcs.getD x (0, 0)).2 d pos S
        ((list.set (x % (W + 1)) S).getD (bcs.getD x (0, 0)).1 []) toks list outd hLm
        (hsort S (by simp)) hSne hrefl' (hbcs2 x) henc2 hwin' houtd' hthis
      simp only [List.length_cons, decodeGraphAux]
      rw [hq]
      dsimp only
      have hnext' : tokensAt d (pos + 1 + toks.length) ns.flatten := by
        rw [show pos + 1 + toks.length = pos + (toks.length + 1) by omega]
        simpa using hnext
      rw [ih (x + 1) (pos + 1 + toks.length) (list.set (x % (W + 1)) S) ns
        (outd.set (x % (W + 1)) S.length)
        (fun T hT => hsort T (by simp [hT])) hrec hnext'
        (by simpa using hlistlen)
        (by
          intro i
          by_cases hij : x % (W + 1) = i
          · rw [← hij, getD_set_eq list _ _ _ hcurrlt]
            exact hsort S (by simp)
          · rw [getD_set_ne list _ _ _ _ hij]
            exact hlistch i)
        (by simpa using houtdlen)
        (by
          intro i
          by_cases hij : x % (W + 1) = i
          · rw [← hij, getD_set_eq outd _ _ _ hcurrlt2,
              getD_set_eq list _ _ _ hcurrlt]
          · rw [getD_set_ne outd _ _ _ _ hij, getD_set_ne list _ _ _ _ hij]
            exact houtdinv i)]
    · -- outdegree 0
      rename_i hSpos
      split at h
      · exact absurd h (by simp)
      rename_i ns hrec
      injection h with h
      subst h
      have hS : S = [] := by
        rcases S with _ | ⟨v, S⟩
        · rfl
        · exact absurd (by simp : ([] : List Nat).length < (v :: S).length) (by
            intro _
            exact hSpos (by simp))
      subst hS
      rw [List.flatten_cons] at htok
      obtain ⟨hthis, hnext⟩ := tokensAt_append _ _ _ _ htok
      obtain ⟨hv, -⟩ := tokensAt_cons _ _ _ _ hthis
      have hv0 : readTok d pos = 0 := hv
      simp only [List.length_cons, decodeGraphAux]
      rw [decodeList_zero W Lmin d x pos list outd hv0]
      dsimp only
      have hnext' : tokensAt d (pos + 1) ns.flatten := by
        simpa using hnext
      rw [ih (x + 1) (pos + 1) (list.set (x % (W + 1)) []) ns
        (outd.set (x % (W + 1)) 0)
        (fun T hT => hsort T (by simp [hT])) hrec hnext'
        (by simpa using hlistlen)
        (by
          intro i
          by_cases hij : x % (W + 1) = i
          · rw [← hij, getD_set_eq list _ _ _ hcurrlt]
            simp
          · rw [getD_set_ne list _ _ _ _ hij]
            exact hlistch i)
        (by simpa using houtdlen)
        (by
          intro i
          by_cases hij : x % (W + 1) = i
          · rw [← hij, getD_set_eq outd _ _ _ hcurrlt2,
              getD_set_eq list _ _ _ hcurrlt]
            rfl
          · rw [getD_set_ne outd _ _ _ _ hij, getD_set_ne list _ _ _ _ hij]
            exact houtdinv i)]

/-- **C1**: Round-trip identity: for every valid graph `G` (every successor
list strictly increasing and contained in `[0, n)`), compressing with
`compress` and decoding the emitted token stream with the sequential
`decode_list` under the same parameters `(W, R_max, L_min, k)` recovers `G`
exactly — every node's decoded successor list equals the original `S(x)`, so
the arc multiset is preserved. (Proved for `L_min ≥ 2`, which covers every
configuration the repo uses; the bit layer is abstracted to one token per
`read_next`/`write_next` as documented above.) -/
theorem C1_roundtrip (W Rmax Lmin k : Nat) (hLm : 2 ≤ Lmin) (G : List (List Nat))
    (hG : ∀ S ∈ G, List.Chain' (· < ·) S ∧ ∀ v ∈ S, v < G.length)
    (tss : List (List Token)) (hc : compressTokens W Rmax Lmin k G = .ok tss) :
    decodeGraph W Lmin G.length tss.flatten = G ∧
    ∀ x, (decodeGraph W Lmin G.length tss.flatten).getD x [] = G.getD x [] := by
  have hmain : decodeGraph W Lmin G.length tss.flatten = G := by
    rw [compressTokens] at hc
    split at hc
    · exact absurd hc (by simp)
    rename_i bcs hp1
    have hbcs2 : ∀ y, (bcs.getD y (0, 0)).2 ≤ W := by
      intro y
      by_cases hy : y < bcs.length
      · rw [List.getD_eq_getElem _ _ hy]
        exact pass1Aux_ref_le W Rmax Lmin k G 0 _ _ _ bcs hp1 _ (List.getElem_mem hy)
      · rw [List.getD_eq_default _ _ (by omega)]
        omega
    have hbcs1' := pass1Aux_cand W Rmax Lmin k G 0 _ _ _ bcs hp1
    have hbcs1 : ∀ y, (bcs.getD y (0, 0)).2 ≠ 0 →
        (bcs.getD y (0, 0)).1 = (y + (W + 1) - (bcs.getD y (0, 0)).2) % (W + 1) := by
      intro y hy
      have h := hbcs1' y hy
      simpa using h
    rw [decodeGraph]
    exact decodeGraphAux_roundtrip W Lmin hLm tss.flatten bcs hbcs2 hbcs1 G 0 0
      (List.replicate (W + 1) []) tss (List.replicate (W + 1) 0)
      (fun T hT => (hG T hT).1) hc (tokensAt_self _)
      (by simp)
      (by
        intro i
        rw [getD_replicate]
        simp)
      (by simp)
      (by
        intro i
        rw [getD_replicate, getD_replicate]
        rfl)
  exact ⟨hmain, fun x => by rw [hmain]⟩

theorem C1_roundtrip_witness :
    ((2 : Nat) ≤ 2 ∧
      (∀ S ∈ ([[1], []] : List (List Nat)),
        List.Chain' (· < ·) S ∧ ∀ v ∈ S, v < ([[1], []] : List (List Nat)).length) ∧
      compressTokens 3 3 2 3 [[1], []] =
        Except.ok [[Token.mk (TokenKind.huff 0) 1, Token.mk TokenKind.uni 0,
          Token.mk TokenKind.uni 0, Token.mk (TokenKind.huff 36) 2],
          [Token.mk (TokenKind.huff 3) 0]]) ∧
    decodeGraph 3 2 ([[1], []] : List (List Nat)).length
      ([[Token.mk (TokenKind.huff 0) 1, Token.mk TokenKind.uni 0,
        Token.mk TokenKind.uni 0, Token.mk (TokenKind.huff 36) 2],
        [Token.mk (TokenKind.huff 3) 0]] : List (List Token)).flatten = [[1], []] := by
  have hG : ∀ S ∈ ([[1], []] : List (List Nat)),
      List.Chain' (· < ·) S ∧ ∀ v ∈ S, v < ([[1], []] : List (List Nat)).length := by
    intro S hS
    rcases List.mem_cons.mp hS with rfl | hS2
    · refine ⟨List.chain'_singleton _, ?_⟩
      intro v hv
      rcases List.mem_singleton.mp hv with rfl
      decide
    · rcases List.mem_singleton.mp hS2 with rfl
      exact ⟨List.chain'_nil, by
        intro v hv
        exact absurd hv (List.not_mem_nil v)⟩
  have hc : compressTokens 3 3 2 3 [[1], []] =
      Except.ok [[Token.mk (TokenKind.huff 0) 1, Token.mk TokenKind.uni 0,
        Token.mk TokenKind.uni 0, Token.mk (TokenKind.huff 36) 2],
        [Token.mk (TokenKind.huff 3) 0]] := by
    simp [compressTokens, pass1Aux, pass2Aux, selectLoop, diffCompLen, diffCompTokens,
      diffBlocksExtras, diffLoop, writeReference, intervalize, runLen, residualTokens,
      residualTokensRest, residualLens, residualLensRest, intervalTokens,
      intervalTokensRest, intervalLens, intervalLensRest, blockTokens, blockTokensRest,
      blockLens, blockLensRest, int2nat, outdCtx, zuckBucket, unaryLen, gammaLen,
      zetaLen, Nat.log2, I64MAX, List.replicate, OUTD_IDX_BEGIN, OUTD_IDX_LEN,
      BLOCKS_IDX_BEGIN, BLOCKS_IDX_LEN, RESIDUALS_IDX_BEGIN, RESIDUALS_IDX_LEN,
      INTERVALS_LEFT_IDX_BEGIN, INTERVALS_LEFT_IDX_LEN, INTERVALS_LEN_IDX_BEGIN]
  exact ⟨⟨le_refl 2, hG, hc⟩, (C1_roundtrip 3 3 2 3 (le_refl 2) [[1], []] hG _ hc).1⟩

/-- **C10**: `write_reference` returns an error exactly when its reference
argument exceeds the window size `W`, and during `compress` this error branch
is unreachable — the candidate scan only proposes references in `[0, W]`, so
the incompatible-reference error never escapes `compress` (for any input and
any parameters, the only error `compress` can surface is the
repeated-successor invariant error). -/
theorem C10_write_reference_unreachable (W Rmax Lmin k r : Nat) (G : List (List Nat)) :
    ((∃ e, writeReference W r = Except.error e) ↔ W < r) ∧
    compressTokens W Rmax Lmin k G ≠
      Except.error "The required reference is incompatible with the window size" := by
  constructor
  · constructor
    · intro ⟨e, he⟩
      by_contra hltn
      rw [writeReference, if_neg hltn] at he
      exact absurd he (by simp)
    · intro hlt
      exact ⟨_, by rw [writeReference, if_pos hlt]⟩
  · intro h
    unfold compressTokens at h
    split at h
    · rename_i e heq
      injection h with h
      have he := pass1Aux_err W Rmax Lmin k G 0 _ _ _ e heq
      exact absurd (h ▸ he) (by decide)
    · rename_i bcs heq
      have hble := pass1Aux_ref_le W Rmax Lmin k G 0 _ _ _ bcs heq
      have he := pass2Aux_err W Lmin bcs hble G 0 _ _ h
      exact absurd he (by decide)

end WebGraph
